import Mathlib

/-!
# A verification development for the brk-based memory allocator

The program under study is `memory_alocator.c`: a first-fit allocator that keeps a singly
linked ledger of block headers inside a heap grown and shrunk with `sbrk`.

The embedding is shallow and executable.

* Memory is a total map from byte addresses to byte values; block headers live in that
  memory at the offsets the C union has on the 64-bit Linux target (little endian).
* `size_t` values and pointer values are natural numbers below `2 ^ 64`; every C
  expression that can wrap is written with an explicit `% 2 ^ 64`. Access to a field of a
  header or to an element of a block is at base plus offset.
* The two pointer chasing loops take a `fuel` argument and return `none` when the fuel
  runs out, so a cyclic ledger (on which the C loops do not terminate) is visible.
* The operating system is the state component `limit`: the highest program break it grants.
* The global lock is followed for the running thread: the functions with suffix `_traced`
  are the functions of the C file with their calls of `pthread_mutex_lock` and
  `pthread_mutex_unlock` and with every access to `head`, `tail`, a header field or `sbrk`
  checked against the lock.

The development has three layers: the functions of the C file, the predicates `WF` (a
well-formed ledger) and `Inv` (the blocks tile the heap) with the proof that every state
reached by calls whose total size stays below `2 ^ 63` satisfies them, and the claims about
the functions.
-/

namespace MemAlloc

/-! ## Machine parameters and the header layout -/

/-- Number of values of `size_t` and of a pointer on the target: `2 ^ 64`. -/
def WORD : Nat := 2 ^ 64

/-- The null pointer. -/
def NULL : Nat := 0

/-- Bytes of `size_t`. -/
def SIZE_T_BYTES : Nat := 8

/-- Bytes of `unsigned`. -/
def UNSIGNED_BYTES : Nat := 4

/-- Bytes of a pointer. -/
def POINTER_BYTES : Nat := 8

/-- Bytes of `PADDING`, declared as `char[16]`. -/
def PADDING_BYTES : Nat := 16

/-- Round `x` up to the next multiple of `a`. -/
def align_up (x a : Nat) : Nat := (x + a - 1) / a * a

/-- Offset of `s.size` in the header. -/
def OFF_SIZE : Nat := 0

/-- Offset of `s.is_free`: the first multiple of its alignment after `size`. -/
def OFF_IS_FREE : Nat := align_up (OFF_SIZE + SIZE_T_BYTES) UNSIGNED_BYTES

/-- Offset of `s.next`: the first multiple of its alignment after `is_free`. -/
def OFF_NEXT : Nat := align_up (OFF_IS_FREE + UNSIGNED_BYTES) POINTER_BYTES

/-- Bytes of the anonymous struct `s`, padded to its 8-byte alignment. -/
def STRUCT_BYTES : Nat := align_up (OFF_NEXT + POINTER_BYTES) POINTER_BYTES

/-- The value of `sizeof(header_t)`: the larger union member, padded to the union's alignment. -/
def HEADER_SIZE : Nat := align_up (max PADDING_BYTES STRUCT_BYTES) POINTER_BYTES

/-! ## Byte memory -/

/-- Byte addressed memory. -/
abbrev Mem : Type := Nat → Nat

/-- Little endian load of `w` bytes at address `a`. -/
def load (m : Mem) (a : Nat) : Nat → Nat
  | 0 => 0
  | w + 1 => m a % 256 + 256 * load m (a + 1) w

/-- Little endian store of the low `w` bytes of `v` at address `a`. -/
def store (m : Mem) (a w v : Nat) : Mem :=
  fun x => if a ≤ x ∧ x < a + w then v / 256 ^ (x - a) % 256 else m x

/-- Read `header->s.size`. -/
def hsize (m : Mem) (h : Nat) : Nat := load m (h + OFF_SIZE) SIZE_T_BYTES

/-- Read `header->s.is_free`. -/
def hfree (m : Mem) (h : Nat) : Nat := load m (h + OFF_IS_FREE) UNSIGNED_BYTES

/-- Read `header->s.next`. -/
def hnext (m : Mem) (h : Nat) : Nat := load m (h + OFF_NEXT) POINTER_BYTES

/-- Write `header->s.size`. -/
def set_size (m : Mem) (h v : Nat) : Mem := store m (h + OFF_SIZE) SIZE_T_BYTES v

/-- Write `header->s.is_free`. -/
def set_free (m : Mem) (h v : Nat) : Mem := store m (h + OFF_IS_FREE) UNSIGNED_BYTES v

/-- Write `header->s.next`. -/
def set_next (m : Mem) (h v : Nat) : Mem := store m (h + OFF_NEXT) POINTER_BYTES v

/-! ## Allocator state and the heap primitive -/

/-- The process state the allocator works on: memory, the ledger anchors `head` and `tail`,
the program break `brk`, and the highest break the operating system grants. -/
structure State where
  /-- Byte memory. -/
  mem : Mem
  /-- The global `head`. -/
  head : Nat
  /-- The global `tail`. -/
  tail : Nat
  /-- Current program break (heap boundary). -/
  brk : Nat
  /-- Highest break the operating system grants. -/
  limit : Nat

/-- The failure value `(void*) -1` of `sbrk`. -/
def SBRK_FAILED : Nat := WORD - 1

/-- Conversion of a `size_t` argument to the `intptr_t` parameter of `sbrk`. -/
def to_intptr (x : Nat) : Int :=
  if x % WORD < WORD / 2 then ((x % WORD : Nat) : Int) else ((x % WORD : Nat) : Int) - (WORD : Int)

/-- Modelled from the spec: the contiguous heap extension primitive `sbrk` of the C library,
which the repository only calls. A zero delta returns the current break and changes nothing;
a positive delta moves the break up when the operating system has room (the new break does
not exceed `limit`); a negative delta moves it down when that many bytes lie below it. The
result is the previous break, or `SBRK_FAILED` with the state unchanged. -/
def sbrk (increment : Int) (s : State) : Nat × State :=
  if increment = 0 then (s.brk, s)
  else if 0 < increment then
    if s.brk + increment.toNat ≤ s.limit then
      (s.brk, { s with brk := s.brk + increment.toNat })
    else (SBRK_FAILED, s)
  else
    if increment.natAbs ≤ s.brk then
      (s.brk, { s with brk := s.brk - increment.natAbs })
    else (SBRK_FAILED, s)

/-- The state at process start: an empty ledger and break `b`. -/
def init_state (m : Mem) (b limit : Nat) : State :=
  { mem := m, head := NULL, tail := NULL, brk := b, limit := limit }

/-! ## The allocator -/

/-- The loop of `get_free_block_from_linked_list`, started at `curr`. -/
def find_loop (m : Mem) (size : Nat) : Nat → Nat → Option Nat
  | 0, curr => if curr = NULL then some NULL else none
  | fuel + 1, curr =>
    if curr = NULL then some NULL
    else if hfree m curr ≠ 0 ∧ hsize m curr ≥ size then some curr
    else find_loop m size fuel (hnext m curr)

/-- The function `get_free_block_from_linked_list`: first fit search from `head`. -/
def get_free_block_from_linked_list (fuel : Nat) (s : State) (size : Nat) : Option Nat :=
  find_loop s.mem size fuel s.head

/-- The function `malloc`. The result is the returned pointer and the state after the call. -/
def malloc (fuel : Nat) (size : Nat) (s : State) : Option (Nat × State) :=
  if size = 0 then some (NULL, s)
  else
    match get_free_block_from_linked_list fuel s size with
    | none => none
    | some header =>
      if header ≠ NULL then
        some ((header + HEADER_SIZE) % WORD, { s with mem := set_free s.mem header 0 })
      else
        let total_size := (HEADER_SIZE + size) % WORD
        let r := sbrk (to_intptr total_size) s
        let block := r.1
        if block = SBRK_FAILED then some (NULL, s)
        else
          let m1 := set_next (set_free (set_size r.2.mem block size) block 0) block NULL
          let head1 := if s.head = NULL then block else s.head
          let m2 := if s.tail ≠ NULL then set_next m1 s.tail block else m1
          some ((block + HEADER_SIZE) % WORD,
            { r.2 with mem := m2, head := head1, tail := block })

/-- The loop of `free` that unlinks the last entry, with `tmp` the loop variable. -/
def free_loop : Nat → State → Nat → Option State
  | 0, s, tmp => if tmp = NULL then some s else none
  | fuel + 1, s, tmp =>
    if tmp = NULL then some s
    else
      let s1 := if hnext s.mem tmp = s.tail then
        { s with mem := set_next s.mem tmp NULL, tail := tmp } else s
      free_loop fuel s1 (hnext s1.mem tmp)

/-- The header of a user pointer: `(header_t*)block - 1`. -/
def header_of (block : Nat) : Nat := (block + (WORD - HEADER_SIZE)) % WORD

/-- The function `free`. -/
def free (fuel : Nat) (block : Nat) (s : State) : Option State :=
  if block = NULL then some s
  else
    let header := header_of block
    let heap_end := (sbrk 0 s).1
    if (block + hsize s.mem header) % WORD = heap_end then
      let r := if s.head = s.tail then some { s with head := NULL, tail := NULL }
        else free_loop fuel s s.head
      match r with
      | none => none
      | some s1 =>
        some (sbrk (to_intptr ((WORD - HEADER_SIZE + (WORD - hsize s1.mem header)) % WORD)) s1).2
    else some { s with mem := set_free s.mem header 1 }

/-- Memory after the first `k` iterations of the zeroing loop of `calloc`. -/
def zero_loop (m : Mem) (block : Nat) : Nat → Mem
  | 0 => m
  | k + 1 => store (zero_loop m block k) (block + k) 1 0

/-- The function `calloc`. -/
def calloc (fuel : Nat) (num size : Nat) (s : State) : Option (Nat × State) :=
  if num = 0 ∨ size = 0 then some (NULL, s)
  else
    let total_size := (num * size) % WORD
    if size ≠ total_size / num then some (NULL, s)
    else
      match malloc fuel total_size s with
      | none => none
      | some (block, s1) =>
        if block = NULL then some (NULL, s1)
        else some (block, { s1 with mem := zero_loop s1.mem block total_size })

/-- The copy loop of `realloc` from iteration `i` on; the bound `header->s.size` is read from
memory at every test, and `k` bounds the iterations left (`i` cannot pass `2 ^ 64`). -/
def copy_loop (dst src header : Nat) : Nat → Mem → Nat → Mem
  | 0, m, _ => m
  | k + 1, m, i =>
    if i < hsize m header then
      copy_loop dst src header k (store m (dst + i) 1 (m (src + i))) (i + 1)
    else m

/-- The function `realloc`. -/
def realloc (fuel : Nat) (block size : Nat) (s : State) : Option (Nat × State) :=
  if block = NULL ∨ size = 0 then malloc fuel size s
  else
    let header := header_of block
    if hsize s.mem header ≥ size then some (block, s)
    else
      match malloc fuel size s with
      | none => none
      | some (reallocated_block, s1) =>
        if reallocated_block ≠ NULL then
          let s2 := { s1 with mem := copy_loop reallocated_block block header WORD s1.mem 0 }
          match free fuel block s2 with
          | none => none
          | some s3 => some (reallocated_block, s3)
        else some (reallocated_block, s1)

/-! ## Ledgers and call sequences -/

/-- The header addresses met by following `next` from `curr`, at most `fuel` of them. -/
def ledger_from (m : Mem) : Nat → Nat → List Nat
  | 0, _ => []
  | fuel + 1, curr => if curr = NULL then [] else curr :: ledger_from m fuel (hnext m curr)

/-- The ledger of a state, read from `head`. -/
def ledger (fuel : Nat) (s : State) : List Nat := ledger_from s.mem fuel s.head

/-- A pointer currently in use: non-null, its header is in the ledger and is not free. -/
def in_use (fuel : Nat) (s : State) (p : Nat) : Prop :=
  p ≠ NULL ∧ header_of p ∈ ledger fuel s ∧ hfree s.mem (header_of p) = 0

instance (fuel : Nat) (s : State) (p : Nat) : Decidable (in_use fuel s p) := by
  unfold in_use; infer_instance

/-- A call of one of the four public operations. -/
inductive Op where
  | allocate (n : Nat)
  | release (p : Nat)
  | zero_allocate (num size : Nat)
  | resize (p n : Nat)

/-- The calls a client may make in a state: sizes are values of `size_t`, pointers are
pointer values, and `release` and `resize` are given null or a pointer currently in use. -/
def admissible (fuel : Nat) (s : State) : Op → Prop
  | Op.allocate n => n < WORD
  | Op.release p => p < WORD ∧ (p = NULL ∨ in_use fuel s p)
  | Op.zero_allocate num size => num < WORD ∧ size < WORD
  | Op.resize p n => p < WORD ∧ n < WORD ∧ (p = NULL ∨ in_use fuel s p)

instance (fuel : Nat) (s : State) (op : Op) : Decidable (admissible fuel s op) := by
  cases op <;> unfold admissible <;> infer_instance

/-- The state after one call. -/
def step (fuel : Nat) (op : Op) (s : State) : Option State :=
  match op with
  | Op.allocate n => (malloc fuel n s).map Prod.snd
  | Op.release p => free fuel p s
  | Op.zero_allocate num size => (calloc fuel num size s).map Prod.snd
  | Op.resize p n => (realloc fuel p n s).map Prod.snd

/-- The state after a sequence of admissible calls; `none` when a call is not admissible or
the fuel does not suffice. -/
def run (fuel : Nat) : List Op → State → Option State
  | [], s => some s
  | op :: ops, s =>
    if admissible fuel s op then
      match step fuel op s with
      | none => none
      | some s1 => run fuel ops s1
    else none

/-! ## Well-formed ledgers -/

/-- The test of the finder on one header: marked free and large enough. -/
def fits (m : Mem) (size h : Nat) : Prop := hfree m h ≠ 0 ∧ hsize m h ≥ size

instance (m : Mem) (size h : Nat) : Decidable (fits m size h) := by
  unfold fits; infer_instance

/-- The chain that starts at pointer `h` is the list `l` of non-null headers, linked by
`next` in that order and closed by a null link. -/
def Chain (m : Mem) : Nat → List Nat → Prop
  | h, [] => h = NULL
  | h, x :: xs => h = x ∧ x ≠ NULL ∧ Chain m (hnext m x) xs

instance Chain.decide (m : Mem) : (h : Nat) → (l : List Nat) → Decidable (Chain m h l)
  | h, [] => by unfold Chain; infer_instance
  | h, x :: xs => by
    unfold Chain
    have := Chain.decide m (hnext m x) xs
    infer_instance

/-- Two headers that do not overlap in memory. -/
def Sep (h h' : Nat) : Prop := h + HEADER_SIZE ≤ h' ∨ h' + HEADER_SIZE ≤ h

instance (h h' : Nat) : Decidable (Sep h h') := by
  unfold Sep; infer_instance

/-- A well-formed state with ledger `l`: `head` starts the chain `l` and `tail` is its last
entry (null when it is empty), the headers do not overlap, every block (header and payload)
lies below the break, the break is not null and within what the operating system grants,
and the grantable addresses are in the lower half of the address space. -/
structure WF (s : State) (l : List Nat) : Prop where
  chain : Chain s.mem s.head l
  tail_last : s.tail = l.getLastD NULL
  sep : l.Pairwise Sep
  inside : ∀ h ∈ l, h + HEADER_SIZE + hsize s.mem h ≤ s.brk
  brk_pos : 0 < s.brk
  brk_le : s.brk ≤ s.limit
  limit_lt : s.limit < WORD / 2

/-! ## The layout invariant and reachable states -/

/-- The blocks of `l` tile the address range from `a` to `e`: the first header is at `a`,
every block has a size above zero and is followed at once by the next header, and the
payload of the last block ends at `e` (for the empty list `a = e`). -/
def Tiles (m : Mem) : Nat → List Nat → Nat → Prop
  | a, [], e => a = e
  | a, h :: t, e => h = a ∧ 0 < hsize m h ∧ Tiles m (h + HEADER_SIZE + hsize m h) t e

instance Tiles.decide (m : Mem) : (a : Nat) → (l : List Nat) → (e : Nat) →
    Decidable (Tiles m a l e)
  | a, [], e => by unfold Tiles; infer_instance
  | a, h :: t, e => by
    unfold Tiles
    have := Tiles.decide m (h + HEADER_SIZE + hsize m h) t e
    infer_instance

/-- The layout invariant of the allocator for a heap that started at `b0` with ledger `l`:
`head` and `tail` delimit the chain `l`, the blocks of `l` tile the heap from `b0` to the
break, `b0` is not null, and the break is within what the operating system grants, which is
in the lower half of the address space. -/
structure Inv (b0 : Nat) (s : State) (l : List Nat) : Prop where
  chain : Chain s.mem s.head l
  tail_last : s.tail = l.getLastD NULL
  tiles : Tiles s.mem b0 l s.brk
  base_pos : 0 < b0
  brk_le : s.brk ≤ s.limit
  limit_lt : s.limit < WORD / 2

/-- The calls whose total size neither wraps in `size_t` nor turns negative as `intptr_t`;
a `calloc` product that wraps is allowed, the call then fails fast. -/
def bounded : Op → Prop
  | Op.allocate n => HEADER_SIZE + n < WORD / 2
  | Op.release _ => True
  | Op.zero_allocate num size => WORD ≤ num * size ∨ HEADER_SIZE + num * size < WORD / 2
  | Op.resize _ n => HEADER_SIZE + n < WORD / 2

instance (op : Op) : Decidable (bounded op) := by
  cases op <;> unfold bounded <;> infer_instance

/-- The states reached from the empty ledger at break `b0` by admissible, bounded calls,
each run with more fuel than the ledger has entries (so that no loop is cut short). -/
inductive Reachable (m0 : Mem) (b0 limit : Nat) : State → Prop
  | init : Reachable m0 b0 limit (init_state m0 b0 limit)
  | step (fuel : Nat) (op : Op) (s s' : State) :
      Reachable m0 b0 limit s → (ledger fuel s).length < fuel → admissible fuel s op →
      bounded op → MemAlloc.step fuel op s = some s' → Reachable m0 b0 limit s'

/-! ## The global lock -/

/-- The accesses `memory_lock` is there to guard: reads and writes of `head` and `tail`,
reads and writes of the fields of the header at an address, and calls of `sbrk`; and the two
ways to misuse the lock itself. -/
inductive Access where
  | read_head
  | write_head
  | read_tail
  | write_tail
  | read_size (header : Nat)
  | write_size (header : Nat)
  | read_is_free (header : Nat)
  | write_is_free (header : Nat)
  | read_next (header : Nat)
  | write_next (header : Nat)
  | call_sbrk
  | lock_while_held
  | unlock_while_free
  deriving DecidableEq

/-- The global `memory_lock` as the running thread sees it: whether the thread holds it, and
the record of the guarded accesses it made while not holding it, oldest first (misuses of
the lock are recorded there too). -/
structure Mutex where
  /-- The running thread holds the lock. -/
  held : Bool
  /-- Guarded accesses made without the lock, and misuses of the lock. -/
  faults : List Access

/-- Modelled from the spec: `pthread_mutex_lock` of the C library, which the repository only
calls, on the single global mutual exclusion lock: the caller holds the lock afterwards;
locking a lock the caller already holds is recorded as a fault. -/
def pthread_mutex_lock (k : Mutex) : Mutex :=
  if k.held then { k with faults := k.faults ++ [Access.lock_while_held] }
  else { k with held := true }

/-- Modelled from the spec: `pthread_mutex_unlock` of the C library, which the repository
only calls: the caller no longer holds the lock; unlocking a lock the caller does not hold
is recorded as a fault. -/
def pthread_mutex_unlock (k : Mutex) : Mutex :=
  if k.held then { k with held := false }
  else { k with faults := k.faults ++ [Access.unlock_while_free] }

/-- One guarded access: it is recorded as a fault when the lock is not held. -/
def guarded (a : Access) (k : Mutex) : Mutex :=
  if k.held then k else { k with faults := k.faults ++ [a] }

/-- The loop of `get_free_block_from_linked_list` with its accesses: each round reads
`is_free`, reads `size` when `is_free` is set, and reads `next` to go on. -/
def find_loop_traced (m : Mem) (size : Nat) : Nat → Nat → Mutex → Option (Nat × Mutex)
  | 0, curr, k => if curr = NULL then some (NULL, k) else none
  | fuel + 1, curr, k =>
    if curr = NULL then some (NULL, k)
    else
      let k1 := guarded (Access.read_is_free curr) k
      let k2 := if hfree m curr ≠ 0 then guarded (Access.read_size curr) k1 else k1
      if hfree m curr ≠ 0 ∧ hsize m curr ≥ size then some (curr, k2)
      else find_loop_traced m size fuel (hnext m curr) (guarded (Access.read_next curr) k2)

/-- The function `get_free_block_from_linked_list` with its accesses: it reads `head` and
runs the loop. -/
def get_free_block_traced (fuel : Nat) (s : State) (size : Nat) (k : Mutex) :
    Option (Nat × Mutex) :=
  find_loop_traced s.mem size fuel s.head (guarded Access.read_head k)

/-- The function `malloc` with its calls of `pthread_mutex_lock` and `pthread_mutex_unlock`
and its guarded accesses, in the order of the source. -/
def malloc_traced (fuel : Nat) (size : Nat) (s : State) (k : Mutex) :
    Option (Nat × State × Mutex) :=
  if size = 0 then some (NULL, s, k)
  else
    let k1 := pthread_mutex_lock k
    match get_free_block_traced fuel s size k1 with
    | none => none
    | some (header, k2) =>
      if header ≠ NULL then
        let k3 := guarded (Access.write_is_free header) k2
        some ((header + HEADER_SIZE) % WORD, { s with mem := set_free s.mem header 0 },
          pthread_mutex_unlock k3)
      else
        let total_size := (HEADER_SIZE + size) % WORD
        let k3 := guarded Access.call_sbrk k2
        let r := sbrk (to_intptr total_size) s
        let block := r.1
        if block = SBRK_FAILED then some (NULL, s, pthread_mutex_unlock k3)
        else
          let k4 := guarded (Access.write_next block) (guarded (Access.write_is_free block)
            (guarded (Access.write_size block) k3))
          let m1 := set_next (set_free (set_size r.2.mem block size) block 0) block NULL
          let k5 := guarded Access.read_head k4
          let k6 := if s.head = NULL then guarded Access.write_head k5 else k5
          let head1 := if s.head = NULL then block else s.head
          let k7 := guarded Access.read_tail k6
          let k8 := if s.tail ≠ NULL then
            guarded (Access.write_next s.tail) (guarded Access.read_tail k7) else k7
          let m2 := if s.tail ≠ NULL then set_next m1 s.tail block else m1
          let k9 := guarded Access.write_tail k8
          some ((block + HEADER_SIZE) % WORD,
            { r.2 with mem := m2, head := head1, tail := block }, pthread_mutex_unlock k9)

/-- The unlink loop of `free` with its accesses: each round reads `tmp->s.next` and `tail`,
writes `tmp->s.next` and `tail` when they are equal, and reads `tmp->s.next` to go on. -/
def free_loop_traced : Nat → State → Nat → Mutex → Option (State × Mutex)
  | 0, s, tmp, k => if tmp = NULL then some (s, k) else none
  | fuel + 1, s, tmp, k =>
    if tmp = NULL then some (s, k)
    else
      let k1 := guarded Access.read_tail (guarded (Access.read_next tmp) k)
      let s1 := if hnext s.mem tmp = s.tail then
        { s with mem := set_next s.mem tmp NULL, tail := tmp } else s
      let k2 := if hnext s.mem tmp = s.tail then
        guarded Access.write_tail (guarded (Access.write_next tmp) k1) else k1
      free_loop_traced fuel s1 (hnext s1.mem tmp) (guarded (Access.read_next tmp) k2)

/-- The function `free` with its calls of `pthread_mutex_lock` and `pthread_mutex_unlock`
and its guarded accesses, in the order of the source. -/
def free_traced (fuel : Nat) (block : Nat) (s : State) (k : Mutex) : Option (State × Mutex) :=
  if block = NULL then some (s, k)
  else
    let k1 := pthread_mutex_lock k
    let header := header_of block
    let k2 := guarded Access.call_sbrk k1
    let heap_end := (sbrk 0 s).1
    let k3 := guarded (Access.read_size header) k2
    if (block + hsize s.mem header) % WORD = heap_end then
      let k4 := guarded Access.read_tail (guarded Access.read_head k3)
      let r := if s.head = s.tail then
          some ({ s with head := NULL, tail := NULL },
            guarded Access.write_head (guarded Access.write_tail k4))
        else free_loop_traced fuel s s.head (guarded Access.read_head k4)
      match r with
      | none => none
      | some (s1, k5) =>
        let k6 := guarded Access.call_sbrk (guarded (Access.read_size header) k5)
        some ((sbrk (to_intptr ((WORD - HEADER_SIZE + (WORD - hsize s1.mem header)) % WORD))
          s1).2, pthread_mutex_unlock k6)
    else
      some ({ s with mem := set_free s.mem header 1 },
        pthread_mutex_unlock (guarded (Access.write_is_free header) k3))

/-- The function `calloc` with the lock: it calls neither `pthread_mutex_lock` nor
`pthread_mutex_unlock`, and reads and writes no `head`, `tail` or header field outside its
call of `malloc`. -/
def calloc_traced (fuel : Nat) (num size : Nat) (s : State) (k : Mutex) :
    Option (Nat × State × Mutex) :=
  if num = 0 ∨ size = 0 then some (NULL, s, k)
  else
    let total_size := (num * size) % WORD
    if size ≠ total_size / num then some (NULL, s, k)
    else
      match malloc_traced fuel total_size s k with
      | none => none
      | some (block, s1, k1) =>
        if block = NULL then some (NULL, s1, k1)
        else some (block, { s1 with mem := zero_loop s1.mem block total_size }, k1)

/-- The copy loop of `realloc` with its accesses: every test of the loop reads
`header->s.size`. -/
def copy_loop_traced (dst src header : Nat) : Nat → Mem → Nat → Mutex → Mem × Mutex
  | 0, m, _, k => (m, k)
  | n + 1, m, i, k =>
    let k1 := guarded (Access.read_size header) k
    if i < hsize m header then
      copy_loop_traced dst src header n (store m (dst + i) 1 (m (src + i))) (i + 1) k1
    else (m, k1)

/-- The function `realloc` with the lock: it calls neither `pthread_mutex_lock` nor
`pthread_mutex_unlock` itself; it reads `header->s.size` for the comparison and in the
copy loop, and calls `malloc` and `free`. -/
def realloc_traced (fuel : Nat) (block size : Nat) (s : State) (k : Mutex) :
    Option (Nat × State × Mutex) :=
  if block = NULL ∨ size = 0 then malloc_traced fuel size s k
  else
    let header := header_of block
    let k1 := guarded (Access.read_size header) k
    if hsize s.mem header ≥ size then some (block, s, k1)
    else
      match malloc_traced fuel size s k1 with
      | none => none
      | some (reallocated_block, s1, k2) =>
        if reallocated_block ≠ NULL then
          let c := copy_loop_traced reallocated_block block header WORD s1.mem 0 k2
          let s2 := { s1 with mem := c.1 }
          match free_traced fuel block s2 c.2 with
          | none => none
          | some (s3, k3) => some (reallocated_block, s3, k3)
        else some (reallocated_block, s1, k2)

/-! ## Example states -/

/-- Memory holding a zero in every byte. -/
def zero_mem : Mem := fun _ => 0

/-- The state after `malloc 16`, `malloc 64`, `malloc 64` and the release of the first
block, from the empty ledger at break 4096: headers at 4096 (free, 16 bytes), 4136 and 4224
(in use, 64 bytes each), break 4312. -/
def example_state : State :=
  (run 3 [Op.allocate 16, Op.allocate 64, Op.allocate 64, Op.release 4120]
    (init_state zero_mem 4096 (2 ^ 40))).getD (init_state zero_mem 4096 (2 ^ 40))

/-- The example state under an operating system that grants no further growth: the limit is
the current break. -/
def full_state : State := { example_state with limit := example_state.brk }

/-- The state after a sequence of calls each of which is admissible, bounded and run with
more fuel than the ledger has entries; `none` otherwise. -/
def run_bounded (fuel : Nat) : List Op → State → Option State
  | [], s => some s
  | op :: ops, s =>
    if (ledger fuel s).length < fuel ∧ admissible fuel s op ∧ bounded op then
      match step fuel op s with
      | none => none
      | some s1 => run_bounded fuel ops s1
    else none

/-- The state after allocations of 64 and 128 bytes, the release of the first, and a
zero-initialised allocation of 4 elements of 8 bytes, from the empty ledger at break 4096. -/
def reached_state : State :=
  (run_bounded 4 [Op.allocate 64, Op.allocate 128, Op.release 4120, Op.zero_allocate 4 8]
    (init_state zero_mem 4096 (2 ^ 40))).getD (init_state zero_mem 4096 (2 ^ 40))

/-! # Theorems

## Byte memory -/

theorem load_congr (m m' : Mem) (w : Nat) : ∀ a : Nat,
    (∀ x, a ≤ x → x < a + w → m x = m' x) → load m a w = load m' a w := by
  induction w with
  | zero => intro a _; rfl
  | succ w ih =>
    intro a h
    simp only [load]
    rw [h a (Nat.le_refl a) (by omega), ih (a + 1) (fun x h1 h2 => h x (by omega) (by omega))]

theorem load_lt (m : Mem) (w : Nat) : ∀ a : Nat, load m a w < 256 ^ w := by
  induction w with
  | zero => intro a; simp [load]
  | succ w ih =>
    intro a
    simp only [load]
    have h1 := ih (a + 1)
    have h2 : m a % 256 < 256 := Nat.mod_lt _ (by norm_num)
    rw [pow_succ]
    omega

theorem store_outside (m : Mem) (a w v x : Nat) (h : x < a ∨ a + w ≤ x) :
    store m a w v x = m x := by
  unfold store
  rw [if_neg]
  omega

theorem load_store_same (w : Nat) : ∀ (m : Mem) (a v : Nat),
    load (store m a w v) a w = v % 256 ^ w := by
  induction w with
  | zero => intro m a v; simp [load, Nat.mod_one]
  | succ w ih =>
    intro m a v
    simp only [load]
    have h0 : store m a (w + 1) v a = v % 256 := by
      unfold store
      rw [if_pos (by omega)]
      simp
    have h1 : load (store m a (w + 1) v) (a + 1) w = load (store m (a + 1) w (v / 256)) (a + 1) w := by
      apply load_congr
      intro x hx1 hx2
      unfold store
      rw [if_pos (by omega), if_pos (by omega)]
      have : x - a = (x - (a + 1)) + 1 := by omega
      rw [this, pow_succ, Nat.mul_comm, ← Nat.div_div_eq_div_mul]
    rw [h0, h1, ih, Nat.mod_mod, pow_succ, Nat.mul_comm (256 ^ w) 256, Nat.mod_mul]

theorem load_store_disj (m : Mem) (a w v b w' : Nat) (h : b + w' ≤ a ∨ a + w ≤ b) :
    load (store m a w v) b w' = load m b w' := by
  apply load_congr
  intro x h1 h2
  exact store_outside m a w v x (by omega)


/-! ## Header fields -/

theorem HEADER_SIZE_eq : HEADER_SIZE = 24 := by decide

theorem OFF_SIZE_eq : OFF_SIZE = 0 := by decide

theorem OFF_IS_FREE_eq : OFF_IS_FREE = 8 := by decide

theorem OFF_NEXT_eq : OFF_NEXT = 16 := by decide

theorem WORD_eq : WORD = 18446744073709551616 := by decide

theorem hsize_lt (m : Mem) (h : Nat) : hsize m h < WORD := by
  have := load_lt m SIZE_T_BYTES (h + OFF_SIZE)
  simpa [hsize, SIZE_T_BYTES, WORD_eq] using this

theorem hnext_lt (m : Mem) (h : Nat) : hnext m h < WORD := by
  have := load_lt m POINTER_BYTES (h + OFF_NEXT)
  simpa [hnext, POINTER_BYTES, WORD_eq] using this

theorem hsize_set_size (m : Mem) (h v : Nat) : hsize (set_size m h v) h = v % WORD := by
  simp [hsize, set_size, load_store_same, SIZE_T_BYTES, WORD_eq]

theorem hfree_set_free (m : Mem) (h v : Nat) : hfree (set_free m h v) h = v % 2 ^ 32 := by
  simp [hfree, set_free, load_store_same, UNSIGNED_BYTES]

theorem hnext_set_next (m : Mem) (h v : Nat) : hnext (set_next m h v) h = v % WORD := by
  simp [hnext, set_next, load_store_same, POINTER_BYTES, WORD_eq]

theorem Sep.symm {h h' : Nat} (hs : Sep h h') : Sep h' h := Or.symm hs

theorem Sep.ne {h h' : Nat} (hs : Sep h h') : h ≠ h' := by
  unfold Sep at hs
  rw [HEADER_SIZE_eq] at hs
  omega

theorem hsize_set_free (m : Mem) (h h' v : Nat) (hd : h' = h ∨ Sep h h') :
    hsize (set_free m h v) h' = hsize m h' := by
  unfold hsize set_free
  apply load_store_disj
  simp only [Sep, HEADER_SIZE_eq] at hd
  simp only [OFF_SIZE_eq, OFF_IS_FREE_eq, SIZE_T_BYTES, UNSIGNED_BYTES]
  omega

theorem hsize_set_next (m : Mem) (h h' v : Nat) (hd : h' = h ∨ Sep h h') :
    hsize (set_next m h v) h' = hsize m h' := by
  unfold hsize set_next
  apply load_store_disj
  simp only [Sep, HEADER_SIZE_eq] at hd
  simp only [OFF_SIZE_eq, OFF_NEXT_eq, SIZE_T_BYTES, POINTER_BYTES]
  omega

theorem hsize_set_size_other (m : Mem) (h h' v : Nat) (hd : Sep h h') :
    hsize (set_size m h v) h' = hsize m h' := by
  unfold hsize set_size
  apply load_store_disj
  simp only [Sep, HEADER_SIZE_eq] at hd
  simp only [OFF_SIZE_eq, SIZE_T_BYTES]
  omega

theorem hfree_set_size (m : Mem) (h h' v : Nat) (hd : h' = h ∨ Sep h h') :
    hfree (set_size m h v) h' = hfree m h' := by
  unfold hfree set_size
  apply load_store_disj
  simp only [Sep, HEADER_SIZE_eq] at hd
  simp only [OFF_SIZE_eq, OFF_IS_FREE_eq, SIZE_T_BYTES, UNSIGNED_BYTES]
  omega

theorem hfree_set_next (m : Mem) (h h' v : Nat) (hd : h' = h ∨ Sep h h') :
    hfree (set_next m h v) h' = hfree m h' := by
  unfold hfree set_next
  apply load_store_disj
  simp only [Sep, HEADER_SIZE_eq] at hd
  simp only [OFF_NEXT_eq, OFF_IS_FREE_eq, POINTER_BYTES, UNSIGNED_BYTES]
  omega

theorem hfree_set_free_other (m : Mem) (h h' v : Nat) (hd : Sep h h') :
    hfree (set_free m h v) h' = hfree m h' := by
  unfold hfree set_free
  apply load_store_disj
  simp only [Sep, HEADER_SIZE_eq] at hd
  simp only [OFF_IS_FREE_eq, UNSIGNED_BYTES]
  omega

theorem hnext_set_size (m : Mem) (h h' v : Nat) (hd : h' = h ∨ Sep h h') :
    hnext (set_size m h v) h' = hnext m h' := by
  unfold hnext set_size
  apply load_store_disj
  simp only [Sep, HEADER_SIZE_eq] at hd
  simp only [OFF_SIZE_eq, OFF_NEXT_eq, SIZE_T_BYTES, POINTER_BYTES]
  omega

theorem hnext_set_free (m : Mem) (h h' v : Nat) (hd : h' = h ∨ Sep h h') :
    hnext (set_free m h v) h' = hnext m h' := by
  unfold hnext set_free
  apply load_store_disj
  simp only [Sep, HEADER_SIZE_eq] at hd
  simp only [OFF_NEXT_eq, OFF_IS_FREE_eq, POINTER_BYTES, UNSIGNED_BYTES]
  omega

theorem hnext_set_next_other (m : Mem) (h h' v : Nat) (hd : Sep h h') :
    hnext (set_next m h v) h' = hnext m h' := by
  unfold hnext set_next
  apply load_store_disj
  simp only [Sep, HEADER_SIZE_eq] at hd
  simp only [OFF_NEXT_eq, POINTER_BYTES]
  omega

/-- A byte outside the `is_free` field of `h` is not changed by writing that field. -/
theorem set_free_outside (m : Mem) (h v x : Nat)
    (hx : x < h + OFF_IS_FREE ∨ h + OFF_IS_FREE + UNSIGNED_BYTES ≤ x) :
    set_free m h v x = m x :=
  store_outside m _ _ v x hx

/-! ## Chains -/

theorem Chain.links_ne_null {m : Mem} : ∀ {l : List Nat} {h : Nat}, Chain m h l → ∀ x ∈ l, x ≠ NULL := by
  intro l
  induction l with
  | nil => intro h _ x hx; cases hx
  | cons y ys ih =>
    intro h hc x hx
    obtain ⟨_, hy, hrest⟩ := hc
    rcases List.mem_cons.mp hx with rfl | hx
    · exact hy
    · exact ih hrest x hx

theorem Chain.congr {m m' : Mem} : ∀ {l : List Nat} {h : Nat},
    (∀ x ∈ l, hnext m' x = hnext m x) → Chain m h l → Chain m' h l := by
  intro l
  induction l with
  | nil => intro h _ hc; exact hc
  | cons y ys ih =>
    intro h hn hc
    obtain ⟨h1, hy, hrest⟩ := hc
    refine ⟨h1, hy, ?_⟩
    rw [hn y (List.mem_cons_self _ _)]
    exact ih (fun x hx => hn x (List.mem_cons_of_mem _ hx)) hrest

theorem Chain.head_eq {m : Mem} {l : List Nat} {h : Nat} (hc : Chain m h l) :
    h = l.headD NULL := by
  cases l with
  | nil => exact hc
  | cons y ys => exact hc.1

theorem ledger_from_chain (m : Mem) : ∀ (l : List Nat) (fuel h : Nat),
    Chain m h l → l.length ≤ fuel → ledger_from m fuel h = l := by
  intro l
  induction l with
  | nil =>
    intro fuel h hc _
    have : h = NULL := hc
    subst this
    cases fuel <;> simp [ledger_from]
  | cons y ys ih =>
    intro fuel h hc hf
    obtain ⟨h1, hy, hrest⟩ := hc
    subst h1
    cases fuel with
    | zero => simp at hf
    | succ fuel =>
      simp only [ledger_from, if_neg hy]
      rw [ih fuel _ hrest (by simpa using hf)]

/-- The finder loop on a chain: either nothing fits and the result is null, or the result is
the first header of the chain that fits. -/
theorem find_loop_chain (m : Mem) (size : Nat) : ∀ (l : List Nat) (fuel curr : Nat),
    Chain m curr l → l.length ≤ fuel →
    (find_loop m size fuel curr = some NULL ∧ ∀ h ∈ l, ¬ fits m size h) ∨
    (∃ pre h post, l = pre ++ h :: post ∧ find_loop m size fuel curr = some h ∧
      fits m size h ∧ ∀ h' ∈ pre, ¬ fits m size h') := by
  intro l
  induction l with
  | nil =>
    intro fuel curr hc _
    have : curr = NULL := hc
    subst this
    left
    constructor
    · cases fuel <;> simp [find_loop]
    · intro h hh; cases hh
  | cons y ys ih =>
    intro fuel curr hc hf
    obtain ⟨h1, hy, hrest⟩ := hc
    subst h1
    cases fuel with
    | zero => simp at hf
    | succ fuel =>
      by_cases hfit : fits m size curr
      · right
        refine ⟨[], curr, ys, rfl, ?_, hfit, ?_⟩
        · simp only [find_loop, if_neg hy]
          exact if_pos hfit
        · intro h' hh'; cases hh'
      · have hstep : find_loop m size (fuel + 1) curr = find_loop m size fuel (hnext m curr) := by
          simp only [find_loop, if_neg hy]
          exact if_neg hfit
        rcases ih fuel (hnext m curr) hrest (by simpa using hf) with ⟨hr, hall⟩ | ⟨pre, h, post, hl, hr, hfh, hpre⟩
        · left
          refine ⟨by rw [hstep, hr], ?_⟩
          intro h hh
          rcases List.mem_cons.mp hh with rfl | hh
          · exact hfit
          · exact hall h hh
        · right
          refine ⟨curr :: pre, h, post, by rw [hl]; rfl, by rw [hstep, hr], hfh, ?_⟩
          intro h' hh'
          rcases List.mem_cons.mp hh' with rfl | hh'
          · exact hfit
          · exact hpre h' hh'

theorem find_loop_first (m : Mem) (size : Nat) (h : Nat) (post : List Nat) :
    ∀ (pre : List Nat) (fuel curr : Nat), Chain m curr (pre ++ h :: post) →
    (pre ++ h :: post).length ≤ fuel → fits m size h → (∀ h' ∈ pre, ¬ fits m size h') →
    find_loop m size fuel curr = some h := by
  intro pre
  induction pre with
  | nil =>
    intro fuel curr hc hf hfit _
    obtain ⟨h1, hy, _⟩ := hc
    subst h1
    cases fuel with
    | zero => simp at hf
    | succ fuel =>
      simp only [find_loop, if_neg hy]
      exact if_pos hfit
  | cons y ys ih =>
    intro fuel curr hc hf hfit hpre
    obtain ⟨h1, hy, hrest⟩ := hc
    subst h1
    cases fuel with
    | zero => simp at hf
    | succ fuel =>
      have hny : ¬ fits m size curr := hpre curr (List.mem_cons_self _ _)
      simp only [find_loop, if_neg hy]
      rw [show (if hfree m curr ≠ 0 ∧ hsize m curr ≥ size then some curr
            else find_loop m size fuel (hnext m curr)) = find_loop m size fuel (hnext m curr)
          from if_neg hny]
      exact ih fuel _ hrest (by simpa using hf) hfit
        (fun h' hh' => hpre h' (List.mem_cons_of_mem _ hh'))

theorem find_loop_none (m : Mem) (size : Nat) (l : List Nat) (fuel curr : Nat)
    (hc : Chain m curr l) (hf : l.length ≤ fuel) (hno : ∀ h ∈ l, ¬ fits m size h) :
    find_loop m size fuel curr = some NULL := by
  rcases find_loop_chain m size l fuel curr hc hf with ⟨hr, _⟩ | ⟨pre, h, post, hl, _, hfh, _⟩
  · exact hr
  · exact absurd hfh (hno h (by rw [hl]; simp))

/-! ## Facts about well-formed states -/

theorem WF.ne_null {s : State} {l : List Nat} (hwf : WF s l) : ∀ h ∈ l, h ≠ NULL :=
  hwf.chain.links_ne_null

theorem WF.brk_lt {s : State} {l : List Nat} (hwf : WF s l) : s.brk < WORD / 2 :=
  Nat.lt_of_le_of_lt hwf.brk_le hwf.limit_lt

theorem WF.block_lt {s : State} {l : List Nat} (hwf : WF s l) {h : Nat} (hh : h ∈ l) :
    h + HEADER_SIZE + hsize s.mem h < WORD / 2 :=
  Nat.lt_of_le_of_lt (hwf.inside h hh) hwf.brk_lt

theorem WF.sep_of_ne {s : State} {l : List Nat} (hwf : WF s l) {a b : Nat}
    (ha : a ∈ l) (hb : b ∈ l) (hab : a ≠ b) : Sep a b :=
  hwf.sep.forall (fun _ _ h => Sep.symm h) ha hb hab

theorem WF.eq_or_sep {s : State} {l : List Nat} (hwf : WF s l) {a b : Nat}
    (ha : a ∈ l) (hb : b ∈ l) : b = a ∨ Sep a b := by
  by_cases hab : a = b
  · exact Or.inl hab.symm
  · exact Or.inr (hwf.sep_of_ne ha hb hab)

theorem WF.sep_brk {s : State} {l : List Nat} (hwf : WF s l) {h : Nat} (hh : h ∈ l) :
    Sep s.brk h := by
  have := hwf.inside h hh
  right
  omega

theorem user_pointer_eq {h : Nat} (hh : h + HEADER_SIZE < WORD) :
    (h + HEADER_SIZE) % WORD = h + HEADER_SIZE := Nat.mod_eq_of_lt hh

theorem header_of_user_pointer {h : Nat} (hh : h + HEADER_SIZE < WORD) :
    header_of (h + HEADER_SIZE) = h := by
  unfold header_of
  rw [HEADER_SIZE_eq, WORD_eq] at *
  omega

/-! ## The three paths of `malloc` -/

theorem malloc_found (fuel n : Nat) (s : State) (h : Nat) (hn : n ≠ 0)
    (hfind : get_free_block_from_linked_list fuel s n = some h) (hh : h ≠ NULL) :
    malloc fuel n s =
      some ((h + HEADER_SIZE) % WORD, { s with mem := set_free s.mem h 0 }) := by
  unfold malloc
  rw [if_neg hn, hfind]
  simp only [ne_eq]
  rw [if_pos hh]

theorem malloc_denied (fuel n : Nat) (s : State) (hn : n ≠ 0)
    (hfind : get_free_block_from_linked_list fuel s n = some NULL)
    (hos : (sbrk (to_intptr ((HEADER_SIZE + n) % WORD)) s).1 = SBRK_FAILED) :
    malloc fuel n s = some (NULL, s) := by
  unfold malloc
  rw [if_neg hn, hfind]
  simp only [ne_eq, not_true_eq_false, if_false]
  rw [if_pos hos]

theorem malloc_fresh (fuel n : Nat) (s : State) (hn : n ≠ 0)
    (hfind : get_free_block_from_linked_list fuel s n = some NULL)
    (hos : (sbrk (to_intptr ((HEADER_SIZE + n) % WORD)) s).1 ≠ SBRK_FAILED) :
    malloc fuel n s =
      some (((sbrk (to_intptr ((HEADER_SIZE + n) % WORD)) s).1 + HEADER_SIZE) % WORD,
        { (sbrk (to_intptr ((HEADER_SIZE + n) % WORD)) s).2 with
          mem :=
            if s.tail ≠ NULL then
              set_next (set_next (set_free (set_size
                (sbrk (to_intptr ((HEADER_SIZE + n) % WORD)) s).2.mem
                (sbrk (to_intptr ((HEADER_SIZE + n) % WORD)) s).1 n)
                (sbrk (to_intptr ((HEADER_SIZE + n) % WORD)) s).1 0)
                (sbrk (to_intptr ((HEADER_SIZE + n) % WORD)) s).1 NULL) s.tail
                (sbrk (to_intptr ((HEADER_SIZE + n) % WORD)) s).1
            else
              set_next (set_free (set_size
                (sbrk (to_intptr ((HEADER_SIZE + n) % WORD)) s).2.mem
                (sbrk (to_intptr ((HEADER_SIZE + n) % WORD)) s).1 n)
                (sbrk (to_intptr ((HEADER_SIZE + n) % WORD)) s).1 0)
                (sbrk (to_intptr ((HEADER_SIZE + n) % WORD)) s).1 NULL
          head := if s.head = NULL then (sbrk (to_intptr ((HEADER_SIZE + n) % WORD)) s).1
            else s.head
          tail := (sbrk (to_intptr ((HEADER_SIZE + n) % WORD)) s).1 }) := by
  unfold malloc
  rw [if_neg hn, hfind]
  simp only [ne_eq, not_true_eq_false, if_false]
  rw [if_neg hos]

/-- The heap primitive on a growth request that fits below the limit. -/
theorem sbrk_grow (s : State) (t : Nat) (ht0 : 0 < t) (ht : t < WORD / 2)
    (hroom : s.brk + t ≤ s.limit) :
    sbrk (to_intptr t) s = (s.brk, { s with brk := s.brk + t }) := by
  have hmod : t % WORD = t := Nat.mod_eq_of_lt (by rw [WORD_eq] at *; omega)
  have hi : to_intptr t = (t : Int) := by
    unfold to_intptr
    rw [hmod, if_pos ht]
  unfold sbrk
  rw [hi, if_neg (by omega), if_pos (by omega)]
  simp only [Int.toNat_ofNat]
  rw [if_pos hroom]

/-- Writing the `is_free` flag of a ledger entry keeps the state well formed. -/
theorem WF.set_free {s : State} {l : List Nat} (hwf : WF s l) {h : Nat} (hh : h ∈ l) (v : Nat) :
    WF { s with mem := set_free s.mem h v } l := by
  refine ⟨?_, hwf.tail_last, hwf.sep, ?_, hwf.brk_pos, hwf.brk_le, hwf.limit_lt⟩
  · exact Chain.congr (fun x hx => hnext_set_free s.mem h x v (hwf.eq_or_sep hh hx)) hwf.chain
  · intro x hx
    show x + HEADER_SIZE + hsize (MemAlloc.set_free s.mem h v) x ≤ s.brk
    rw [hsize_set_free s.mem h x v (hwf.eq_or_sep hh hx)]
    exact hwf.inside x hx

theorem Chain.append_one {m m' : Mem} {b : Nat} (hb : b ≠ NULL) (hbn : hnext m' b = NULL) :
    ∀ {l : List Nat} {h : Nat}, l ≠ [] → l.Nodup → Chain m h l →
    (∀ x ∈ l, x ≠ l.getLastD NULL → hnext m' x = hnext m x) →
    hnext m' (l.getLastD NULL) = b → Chain m' h (l ++ [b]) := by
  intro l
  induction l with
  | nil => intro h hne; exact absurd rfl hne
  | cons y ys ih =>
    intro h _ hnd hc hsame hlast
    obtain ⟨h1, hy, hrest⟩ := hc
    cases ys with
    | nil =>
      rw [List.getLastD_cons, List.getLastD_nil] at hlast
      refine ⟨h1, hy, ?_⟩
      rw [hlast]
      exact ⟨rfl, hb, hbn⟩
    | cons y2 ys2 =>
      have e1 : (y :: y2 :: ys2).getLastD NULL = ys2.getLastD y2 := by
        rw [List.getLastD_cons, List.getLastD_cons]
      have e2 : (y2 :: ys2).getLastD NULL = ys2.getLastD y2 := by
        rw [List.getLastD_cons]
      rw [e1] at hlast hsame
      have hynot : y ∉ y2 :: ys2 := (List.nodup_cons.mp hnd).1
      have hylast : y ≠ ys2.getLastD y2 := by
        intro he
        apply hynot
        rw [he]
        exact List.getLastD_mem_cons ys2 y2
      refine ⟨h1, hy, ?_⟩
      show Chain m' (hnext m' y) ((y2 :: ys2) ++ [b])
      rw [hsame y (List.mem_cons_self _ _) hylast]
      apply ih (List.cons_ne_nil _ _) (List.nodup_cons.mp hnd).2 hrest
      · intro x hx hxl
        rw [e2] at hxl
        exact hsame x (List.mem_cons_of_mem _ hx) hxl
      · rw [e2]
        exact hlast

theorem WF.nodup {s : State} {l : List Nat} (hwf : WF s l) : l.Nodup :=
  hwf.sep.imp (fun h => Sep.ne h)

theorem WF.head_nil {s : State} (hwf : WF s []) : s.head = NULL := hwf.chain

theorem WF.head_ne {s : State} {l : List Nat} (hwf : WF s l) (hl : l ≠ []) : s.head ≠ NULL := by
  cases l with
  | nil => exact absurd rfl hl
  | cons y ys =>
    have := hwf.chain
    rw [this.1]
    exact this.2.1

theorem WF.tail_mem {s : State} {l : List Nat} (hwf : WF s l) (hl : l ≠ []) : s.tail ∈ l := by
  cases l with
  | nil => exact absurd rfl hl
  | cons y ys =>
    rw [hwf.tail_last, List.getLastD_cons]
    exact List.getLastD_mem_cons ys y

/-- The state `malloc` builds when it extends the heap of `s` by a block of `n` bytes. -/
theorem malloc_fresh_state (fuel n : Nat) (s : State) (l : List Nat)
    (hwf : WF s l) (hf : l.length ≤ fuel) (hn : 0 < n) (hrep : HEADER_SIZE + n < WORD / 2)
    (hno : ∀ h ∈ l, ¬ fits s.mem n h) (hos : s.brk + (HEADER_SIZE + n) ≤ s.limit) :
    malloc fuel n s = some (s.brk + HEADER_SIZE,
      { mem :=
          if s.tail ≠ NULL then
            set_next (set_next (set_free (set_size s.mem s.brk n) s.brk 0) s.brk NULL)
              s.tail s.brk
          else set_next (set_free (set_size s.mem s.brk n) s.brk 0) s.brk NULL
        head := if s.head = NULL then s.brk else s.head
        tail := s.brk
        brk := s.brk + (HEADER_SIZE + n)
        limit := s.limit }) := by
  have hmod : (HEADER_SIZE + n) % WORD = HEADER_SIZE + n :=
    Nat.mod_eq_of_lt (by rw [WORD_eq] at *; omega)
  have hsb := sbrk_grow s (HEADER_SIZE + n) (by omega) hrep hos
  have hfind : get_free_block_from_linked_list fuel s n = some NULL :=
    find_loop_none s.mem n l fuel s.head hwf.chain hf hno
  have hblt := hwf.brk_lt
  have hne : (sbrk (to_intptr ((HEADER_SIZE + n) % WORD)) s).1 ≠ SBRK_FAILED := by
    rw [hmod, hsb]
    show s.brk ≠ SBRK_FAILED
    unfold SBRK_FAILED
    rw [WORD_eq] at *
    omega
  rw [malloc_fresh fuel n s (by omega) hfind hne, hmod, hsb]
  have hp : (s.brk + HEADER_SIZE) % WORD = s.brk + HEADER_SIZE :=
    Nat.mod_eq_of_lt (by rw [WORD_eq, HEADER_SIZE_eq] at *; omega)
  simp only [hp]

/-! ## The heap primitive in natural numbers -/

theorem to_intptr_small (t : Nat) (ht : t < WORD / 2) : to_intptr t = (t : Int) := by
  have hmod : t % WORD = t := Nat.mod_eq_of_lt (by rw [WORD_eq] at *; omega)
  unfold to_intptr
  rw [hmod, if_pos ht]

theorem to_intptr_large (t : Nat) (ht : WORD / 2 ≤ t) (htW : t < WORD) :
    to_intptr t = (t : Int) - (WORD : Int) := by
  have hmod : t % WORD = t := Nat.mod_eq_of_lt htW
  unfold to_intptr
  rw [hmod, if_neg (by omega)]

theorem sbrk_zero (s : State) : sbrk (to_intptr 0) s = (s.brk, s) := by
  rw [to_intptr_small 0 (by rw [WORD_eq]; omega)]
  rfl

theorem sbrk_query (s : State) : sbrk 0 s = (s.brk, s) := rfl

theorem sbrk_grow_denied (s : State) (t : Nat) (ht0 : 0 < t) (ht : t < WORD / 2)
    (hroom : ¬ s.brk + t ≤ s.limit) : sbrk (to_intptr t) s = (SBRK_FAILED, s) := by
  rw [to_intptr_small t ht]
  unfold sbrk
  rw [if_neg (by omega), if_pos (by omega)]
  simp only [Int.toNat_ofNat]
  rw [if_neg hroom]

theorem sbrk_shrink (s : State) (t : Nat) (ht : WORD / 2 ≤ t) (htW : t < WORD)
    (hroom : WORD - t ≤ s.brk) :
    sbrk (to_intptr t) s = (s.brk, { s with brk := s.brk - (WORD - t) }) := by
  rw [to_intptr_large t ht htW]
  have habs : ((t : Int) - (WORD : Int)).natAbs = WORD - t := by omega
  unfold sbrk
  rw [if_neg (by omega), if_neg (by omega), habs, if_pos hroom]

theorem sbrk_shrink_failed (s : State) (t : Nat) (ht : WORD / 2 ≤ t) (htW : t < WORD)
    (hroom : ¬ WORD - t ≤ s.brk) : sbrk (to_intptr t) s = (SBRK_FAILED, s) := by
  rw [to_intptr_large t ht htW]
  have habs : ((t : Int) - (WORD : Int)).natAbs = WORD - t := by omega
  unfold sbrk
  rw [if_neg (by omega), if_neg (by omega), habs, if_neg hroom]

theorem free_sole (fuel block : Nat) (s : State) (hb : block ≠ NULL)
    (hend : (block + hsize s.mem (header_of block)) % WORD = s.brk) (hht : s.head = s.tail) :
    free fuel block s =
      some (sbrk (to_intptr ((WORD - HEADER_SIZE + (WORD - hsize s.mem (header_of block))) % WORD))
        { s with head := NULL, tail := NULL }).2 := by
  unfold free
  rw [if_neg hb]
  simp only [sbrk_query]
  rw [if_pos hend, if_pos hht]

theorem find_loop_null (m : Mem) (size fuel : Nat) : find_loop m size fuel NULL = some NULL := by
  cases fuel <;> simp [find_loop]

theorem sbrk_snd_head (i : Int) (s : State) : (sbrk i s).2.head = s.head := by
  unfold sbrk
  split_ifs <;> rfl

theorem sbrk_snd_tail (i : Int) (s : State) : (sbrk i s).2.tail = s.tail := by
  unfold sbrk
  split_ifs <;> rfl

theorem sbrk_snd_mem (i : Int) (s : State) : (sbrk i s).2.mem = s.mem := by
  unfold sbrk
  split_ifs <;> rfl

theorem sbrk_snd_limit (i : Int) (s : State) : (sbrk i s).2.limit = s.limit := by
  unfold sbrk
  split_ifs <;> rfl

/-- Releasing the sole block of a ledger whose payload ends at the break. -/
theorem free_sole_block (fuel n b limit b' : Nat) (m1 : Mem) (hb : b + HEADER_SIZE < WORD)
    (hsz : hsize m1 b = n) (hend : (b + HEADER_SIZE + n) % WORD = b')
    (hback : (sbrk (to_intptr ((WORD - HEADER_SIZE + (WORD - n)) % WORD))
      { mem := m1, head := NULL, tail := NULL, brk := b', limit := limit }).2.brk = b) :
    ∃ s2, free fuel (b + HEADER_SIZE)
        { mem := m1, head := b, tail := b, brk := b', limit := limit } = some s2 ∧
      s2.brk = b ∧ s2.head = NULL ∧ s2.tail = NULL := by
  have hhdr : header_of (b + HEADER_SIZE) = b := header_of_user_pointer hb
  have hfr := free_sole fuel (b + HEADER_SIZE)
    { mem := m1, head := b, tail := b, brk := b', limit := limit }
    (by unfold NULL; rw [HEADER_SIZE_eq]; omega)
    (by simp only [hhdr, hsz]; exact hend) rfl
  simp only [hhdr, hsz] at hfr
  exact ⟨_, hfr, hback, sbrk_snd_head _ _, sbrk_snd_tail _ _⟩

/-- The reuse path of `malloc`: the state after the call when `h` is the first block that fits. -/
theorem malloc_reuse_eq (fuel n : Nat) (s : State) (l pre post : List Nat) (h : Nat)
    (hwf : WF s l) (hf : l.length ≤ fuel) (hn : 0 < n) (hl : l = pre ++ h :: post)
    (hfit : fits s.mem n h) (hpre : ∀ h' ∈ pre, ¬ fits s.mem n h') :
    malloc fuel n s = some (h + HEADER_SIZE, { s with mem := set_free s.mem h 0 }) := by
  have hmem : h ∈ l := by rw [hl]; simp
  have hfind : get_free_block_from_linked_list fuel s n = some h := by
    unfold get_free_block_from_linked_list
    exact find_loop_first s.mem n h post pre fuel s.head (hl ▸ hwf.chain) (hl ▸ hf) hfit hpre
  have hlt : h + HEADER_SIZE < WORD := by
    have := hwf.block_lt hmem
    rw [WORD_eq] at *
    omega
  rw [malloc_found fuel n s h (by omega) hfind (hwf.ne_null h hmem), user_pointer_eq hlt]

/-- The interior path of `free`: the state after releasing a block that does not end at the
break. -/
theorem free_interior_eq (fuel : Nat) (s : State) (l : List Nat) (h : Nat)
    (hwf : WF s l) (hh : h ∈ l) (hint : h + HEADER_SIZE + hsize s.mem h ≠ s.brk) :
    free fuel (h + HEADER_SIZE) s = some { s with mem := set_free s.mem h 1 } := by
  have hlt := hwf.block_lt hh
  have hhdr : header_of (h + HEADER_SIZE) = h :=
    header_of_user_pointer (by rw [WORD_eq] at *; omega)
  unfold free
  rw [if_neg (by unfold NULL; rw [HEADER_SIZE_eq]; omega)]
  simp only [hhdr, sbrk_query]
  rw [if_neg]
  rw [Nat.mod_eq_of_lt (by rw [WORD_eq] at *; omega)]
  exact hint

/-- The extension path of `malloc` on a well-formed ledger in which nothing fits: the new
state, its ledger and the fields of its headers. -/
theorem malloc_extend (fuel n : Nat) (s : State) (l : List Nat)
    (hwf : WF s l) (hf : l.length ≤ fuel) (hn : 0 < n) (hrep : HEADER_SIZE + n < WORD / 2)
    (hno : ∀ h ∈ l, ¬ fits s.mem n h) (hos : s.brk + (HEADER_SIZE + n) ≤ s.limit) :
    ∃ s', malloc fuel n s = some (s.brk + HEADER_SIZE, s') ∧
      s'.brk = s.brk + (HEADER_SIZE + n) ∧
      Chain s'.mem s'.head (l ++ [s.brk]) ∧
      s'.head = (if l = [] then s.brk else s.head) ∧ s'.tail = s.brk ∧
      hsize s'.mem s.brk = n ∧ hfree s'.mem s.brk = 0 ∧ hnext s'.mem s.brk = NULL ∧
      (∀ h ∈ l, hsize s'.mem h = hsize s.mem h ∧ hfree s'.mem h = hfree s.mem h) ∧
      WF s' (l ++ [s.brk]) := by
  have hmal := malloc_fresh_state fuel n s l hwf hf hn hrep hno hos
  have hnW : n % WORD = n := Nat.mod_eq_of_lt (by rw [WORD_eq, HEADER_SIZE_eq] at *; omega)
  have hbW : s.brk % WORD = s.brk := Nat.mod_eq_of_lt (by have := hwf.brk_lt; rw [WORD_eq] at *; omega)
  have hb0 : s.brk ≠ NULL := by have := hwf.brk_pos; unfold NULL; omega
  -- the fields of the new header right after it is initialised
  have f1 : hsize (set_next (set_free (set_size s.mem s.brk n) s.brk 0) s.brk NULL) s.brk = n := by
    rw [hsize_set_next _ _ _ _ (Or.inl rfl), hsize_set_free _ _ _ _ (Or.inl rfl), hsize_set_size, hnW]
  have f2 : hfree (set_next (set_free (set_size s.mem s.brk n) s.brk 0) s.brk NULL) s.brk = 0 := by
    rw [hfree_set_next _ _ _ _ (Or.inl rfl), hfree_set_free]
    rfl
  have f3 : hnext (set_next (set_free (set_size s.mem s.brk n) s.brk 0) s.brk NULL) s.brk = NULL := by
    rw [hnext_set_next]
    rfl
  -- the old headers are not touched by the initialisation
  have g1 : ∀ h ∈ l,
      hsize (set_next (set_free (set_size s.mem s.brk n) s.brk 0) s.brk NULL) h = hsize s.mem h := by
    intro h hh
    have hs := hwf.sep_brk hh
    rw [hsize_set_next _ _ _ _ (Or.inr hs), hsize_set_free _ _ _ _ (Or.inr hs),
      hsize_set_size_other _ _ _ _ hs]
  have g2 : ∀ h ∈ l,
      hfree (set_next (set_free (set_size s.mem s.brk n) s.brk 0) s.brk NULL) h = hfree s.mem h := by
    intro h hh
    have hs := hwf.sep_brk hh
    rw [hfree_set_next _ _ _ _ (Or.inr hs), hfree_set_free_other _ _ _ _ hs,
      hfree_set_size _ _ _ _ (Or.inr hs)]
  have g3 : ∀ h ∈ l,
      hnext (set_next (set_free (set_size s.mem s.brk n) s.brk 0) s.brk NULL) h = hnext s.mem h := by
    intro h hh
    have hs := hwf.sep_brk hh
    rw [hnext_set_next_other _ _ _ _ hs, hnext_set_free _ _ _ _ (Or.inr hs),
      hnext_set_size _ _ _ _ (Or.inr hs)]
  by_cases hl : l = []
  · subst hl
    have hhead : s.head = NULL := hwf.head_nil
    have htail : s.tail = NULL := hwf.tail_last
    rw [hhead, htail] at hmal
    simp only [ne_eq, not_true_eq_false, if_false, if_true] at hmal
    have hchain : Chain (set_next (set_free (set_size s.mem s.brk n) s.brk 0) s.brk NULL)
        s.brk [s.brk] := ⟨rfl, hb0, f3⟩
    refine ⟨_, hmal, rfl, hchain, by simp, rfl, f1, f2, f3, ?_, ?_⟩
    · intro h hh; cases hh
    · refine ⟨hchain, rfl, List.pairwise_singleton _ _, ?_,
        Nat.lt_of_lt_of_le hwf.brk_pos (Nat.le_add_right _ _), hos, hwf.limit_lt⟩
      intro h hh
      rw [List.mem_singleton.mp hh]
      show s.brk + HEADER_SIZE + hsize _ s.brk ≤ s.brk + (HEADER_SIZE + n)
      rw [f1]
      omega
  · have hhead : s.head ≠ NULL := hwf.head_ne hl
    have htmem : s.tail ∈ l := hwf.tail_mem hl
    have htail : s.tail ≠ NULL := hwf.ne_null _ htmem
    rw [if_pos htail, if_neg hhead] at hmal
    have hst : Sep s.tail s.brk := (hwf.sep_brk htmem).symm
    have k1 : ∀ h, h = s.brk ∨ h ∈ l → ∀ v,
        hsize (set_next (set_next (set_free (set_size s.mem s.brk n) s.brk 0) s.brk NULL)
          s.tail v) h =
        hsize (set_next (set_free (set_size s.mem s.brk n) s.brk 0) s.brk NULL) h := by
      intro h hh v
      apply hsize_set_next
      rcases hh with rfl | hh
      · exact Or.inr hst
      · exact hwf.eq_or_sep htmem hh
    have k2 : ∀ h, h = s.brk ∨ h ∈ l → ∀ v,
        hfree (set_next (set_next (set_free (set_size s.mem s.brk n) s.brk 0) s.brk NULL)
          s.tail v) h =
        hfree (set_next (set_free (set_size s.mem s.brk n) s.brk 0) s.brk NULL) h := by
      intro h hh v
      apply hfree_set_next
      rcases hh with rfl | hh
      · exact Or.inr hst
      · exact hwf.eq_or_sep htmem hh
    have hchain : Chain (set_next (set_next (set_free (set_size s.mem s.brk n) s.brk 0)
        s.brk NULL) s.tail s.brk) s.head (l ++ [s.brk]) := by
      apply Chain.append_one hb0 _ hl hwf.nodup hwf.chain
      · intro x hx hxl
        rw [← hwf.tail_last] at hxl
        rw [hnext_set_next_other _ _ _ _ (hwf.sep_of_ne htmem hx (Ne.symm hxl)), g3 x hx]
      · rw [← hwf.tail_last, hnext_set_next, hbW]
      · rw [hnext_set_next_other _ _ _ _ hst, f3]
    refine ⟨_, hmal, rfl, hchain, by rw [if_neg hl], rfl, ?_, ?_, ?_, ?_, ?_⟩
    · show hsize _ s.brk = n
      rw [k1 _ (Or.inl rfl), f1]
    · show hfree _ s.brk = 0
      rw [k2 _ (Or.inl rfl), f2]
    · show hnext _ s.brk = NULL
      rw [hnext_set_next_other _ _ _ _ hst, f3]
    · intro h hh
      exact ⟨by show hsize _ h = _; rw [k1 _ (Or.inr hh), g1 h hh],
        by show hfree _ h = _; rw [k2 _ (Or.inr hh), g2 h hh]⟩
    · refine ⟨hchain, (List.getLastD_concat _ _ _).symm, ?_, ?_,
        Nat.lt_of_lt_of_le hwf.brk_pos (Nat.le_add_right _ _), hos, hwf.limit_lt⟩
      · rw [List.pairwise_append]
        exact ⟨hwf.sep, List.pairwise_singleton _ _, fun a ha b hb => by
          rw [List.mem_singleton.mp hb]; exact (hwf.sep_brk ha).symm⟩
      · intro h hh
        rcases List.mem_append.mp hh with hh | hh
        · show h + HEADER_SIZE + hsize _ h ≤ s.brk + (HEADER_SIZE + n)
          rw [k1 _ (Or.inr hh), g1 h hh]
          have := hwf.inside h hh
          omega
        · rw [List.mem_singleton.mp hh]
          show s.brk + HEADER_SIZE + hsize _ s.brk ≤ s.brk + (HEADER_SIZE + n)
          rw [k1 _ (Or.inl rfl), f1]
          omega

/-! ## Tiled heaps -/

theorem Tiles.sizes_congr {m m' : Mem} : ∀ {l : List Nat} {a e : Nat},
    (∀ h ∈ l, hsize m' h = hsize m h) → Tiles m a l e → Tiles m' a l e := by
  intro l
  induction l with
  | nil => intro a e _ ht; exact ht
  | cons y ys ih =>
    intro a e hs ht
    obtain ⟨h1, h2, h3⟩ := ht
    have hy := hs y (List.mem_cons_self _ _)
    refine ⟨h1, by rw [hy]; exact h2, ?_⟩
    rw [hy]
    exact ih (fun h hh => hs h (List.mem_cons_of_mem _ hh)) h3

theorem Tiles.le {m : Mem} : ∀ {l : List Nat} {a e : Nat}, Tiles m a l e → a ≤ e := by
  intro l
  induction l with
  | nil => intro a e ht; exact Nat.le_of_eq ht
  | cons y ys ih =>
    intro a e ht
    obtain ⟨h1, _, h3⟩ := ht
    have := ih h3
    omega

/-- Every block of a tiling lies between its start and its end. -/
theorem Tiles.bounds {m : Mem} : ∀ {l : List Nat} {a e : Nat}, Tiles m a l e →
    ∀ h ∈ l, a ≤ h ∧ 0 < hsize m h ∧ h + HEADER_SIZE + hsize m h ≤ e := by
  intro l
  induction l with
  | nil => intro a e _ h hh; cases hh
  | cons y ys ih =>
    intro a e ht h hh
    obtain ⟨h1, h2, h3⟩ := ht
    rcases List.mem_cons.mp hh with rfl | hh
    · exact ⟨Nat.le_of_eq h1.symm, h2, h3.le⟩
    · have := ih h3 h hh
      omega

/-- In a tiling every block ends at or before the header of every later block. -/
theorem Tiles.pairwise {m : Mem} : ∀ {l : List Nat} {a e : Nat}, Tiles m a l e →
    l.Pairwise (fun x y => x + HEADER_SIZE + hsize m x ≤ y) := by
  intro l
  induction l with
  | nil => intro a e _; exact List.Pairwise.nil
  | cons y ys ih =>
    intro a e ht
    obtain ⟨_, _, h3⟩ := ht
    refine List.Pairwise.cons ?_ (ih h3)
    intro z hz
    exact (h3.bounds z hz).1

theorem Tiles.extend_one {m : Mem} {n b : Nat} (hn : 0 < n) (hsz : hsize m b = n) :
    ∀ {l : List Nat} {a : Nat}, Tiles m a l b → Tiles m a (l ++ [b]) (b + HEADER_SIZE + n) := by
  intro l
  induction l with
  | nil =>
    intro a ht
    have : a = b := ht
    subst this
    exact ⟨rfl, by rw [hsz]; exact hn, by rw [hsz]; rfl⟩
  | cons y ys ih =>
    intro a ht
    obtain ⟨h1, h2, h3⟩ := ht
    exact ⟨h1, h2, ih h3⟩

/-- Splitting off the last block of a tiling. -/
theorem Tiles.split_last {m : Mem} {t : Nat} : ∀ {l : List Nat} {a e : Nat},
    Tiles m a (l ++ [t]) e → Tiles m a l t ∧ 0 < hsize m t ∧ t + HEADER_SIZE + hsize m t = e := by
  intro l
  induction l with
  | nil =>
    intro a e ht
    obtain ⟨h1, h2, h3⟩ := ht
    have h3' : t + HEADER_SIZE + hsize m t = e := h3
    exact ⟨h1.symm, h2, h3'⟩
  | cons y ys ih =>
    intro a e ht
    obtain ⟨h1, h2, h3⟩ := ht
    have := ih h3
    exact ⟨⟨h1, h2, this.1⟩, this.2⟩

/-- The block of a tiling whose payload ends at the end of the tiling is the last one. -/
theorem Tiles.ends_last {m : Mem} : ∀ {l : List Nat} {a e : Nat}, Tiles m a l e →
    ∀ h ∈ l, h + HEADER_SIZE + hsize m h = e → ∃ init, l = init ++ [h] := by
  intro l
  induction l with
  | nil => intro a e _ h hh; cases hh
  | cons y ys ih =>
    intro a e ht h hh hend
    obtain ⟨h1, h2, h3⟩ := ht
    cases ys with
    | nil =>
      rcases List.mem_cons.mp hh with rfl | hh
      · exact ⟨[], rfl⟩
      · cases hh
    | cons z zs =>
      rcases List.mem_cons.mp hh with rfl | hh
      · -- the first block ends at `e`, but the second block starts there and is not empty
        exfalso
        have hz := h3.bounds z (List.mem_cons_self _ _)
        have hz0 : z = h + HEADER_SIZE + hsize m h := h3.1
        rw [HEADER_SIZE_eq] at *
        omega
      · obtain ⟨init, hinit⟩ := ih h3 h hh hend
        exact ⟨y :: init, by rw [hinit]; rfl⟩

/-- The layout invariant gives a well-formed ledger. -/
theorem Inv.wf {b0 : Nat} {s : State} {l : List Nat} (hinv : Inv b0 s l) : WF s l := by
  refine ⟨hinv.chain, hinv.tail_last, ?_, ?_, ?_, hinv.brk_le, hinv.limit_lt⟩
  · exact hinv.tiles.pairwise.imp (fun {x y} hxy => Or.inl (by omega))
  · intro h hh
    exact (hinv.tiles.bounds h hh).2.2
  · exact Nat.lt_of_lt_of_le hinv.base_pos hinv.tiles.le

theorem Chain.head_mem {m : Mem} {l : List Nat} {h : Nat} (hc : Chain m h l) (hl : l ≠ []) :
    h ∈ l := by
  cases l with
  | nil => exact absurd rfl hl
  | cons y ys =>
    rw [hc.1]
    exact List.mem_cons_self _ _

/-- The unlink loop of `free` on a chain with at least two entries: the entry before `tail`
gets a null link and becomes `tail`; nothing else changes. -/
theorem free_loop_unlink (a t : Nat) : ∀ (pre : List Nat) (fuel : Nat) (s : State) (curr : Nat),
    Chain s.mem curr (pre ++ [a, t]) → (pre ++ [a, t]).Nodup → s.tail = t →
    (pre ++ [a, t]).length ≤ fuel →
    free_loop fuel s curr = some { s with mem := set_next s.mem a NULL, tail := a } := by
  intro pre
  induction pre with
  | nil =>
    intro fuel s curr hc _ htail hf
    obtain ⟨h1, ha, h2, _, _⟩ := hc
    subst h1
    cases fuel with
    | zero => simp at hf
    | succ fuel =>
      have hnx : hnext s.mem curr = s.tail := by rw [htail]; exact h2
      simp only [free_loop, if_neg ha, if_pos hnx]
      have h0 : hnext (set_next s.mem curr NULL) curr = NULL := by
        rw [hnext_set_next]
        rfl
      rw [h0]
      cases fuel <;> simp [free_loop]
  | cons x pre ih =>
    intro fuel s curr hc hnd htail hf
    obtain ⟨h1, hx, hrest⟩ := hc
    subst h1
    cases fuel with
    | zero => simp at hf
    | succ fuel =>
      have hrest' : Chain s.mem (hnext s.mem curr) (pre ++ [a, t]) := hrest
      have hnd' : (pre ++ [a, t]).Nodup := (List.nodup_cons.mp hnd).2
      have hne : hnext s.mem curr ≠ s.tail := by
        rw [htail]
        intro he
        -- the head of a duplicate-free list with two or more entries is not its last entry
        cases pre with
        | nil =>
          have h1 : hnext s.mem curr = a := hrest'.1
          have h2 : a ∉ [t] := (List.nodup_cons.mp hnd').1
          exact h2 (by rw [← h1, he]; exact List.mem_singleton_self t)
        | cons z zs =>
          have h1 : hnext s.mem curr = z := hrest'.1
          have h2 : z ∉ zs ++ [a, t] := (List.nodup_cons.mp hnd').1
          exact h2 (by rw [← h1, he]; simp)
      simp only [free_loop, if_neg hx, if_neg hne]
      exact ih fuel s _ hrest' hnd' htail (by simpa using hf)

theorem Chain.drop_last {m m' : Mem} {a t : Nat} (ha : hnext m' a = NULL) :
    ∀ {pre : List Nat} {h : Nat}, Chain m h (pre ++ [a, t]) →
    (∀ x ∈ pre, hnext m' x = hnext m x) → Chain m' h (pre ++ [a]) := by
  intro pre
  induction pre with
  | nil =>
    intro h hc _
    obtain ⟨h1, h2, _⟩ := hc
    exact ⟨h1, h2, ha⟩
  | cons x pre ih =>
    intro h hc hsame
    obtain ⟨h1, h2, h3⟩ := hc
    refine ⟨h1, h2, ?_⟩
    rw [hsame x (List.mem_cons_self _ _)]
    exact ih h3 (fun y hy => hsame y (List.mem_cons_of_mem _ hy))

/-- The shrink request of `free` for a block of `c` bytes, as a natural number. -/
theorem shrink_request (c : Nat) (hc : HEADER_SIZE + c < WORD / 2) (hc0 : 0 < c) :
    (WORD - HEADER_SIZE + (WORD - c)) % WORD = WORD - (HEADER_SIZE + c) := by
  rw [WORD_eq, HEADER_SIZE_eq] at *
  omega

/-- The heap primitive on the shrink request of `free` for a block of `c` bytes. -/
theorem sbrk_release (s : State) (c : Nat) (hc : HEADER_SIZE + c < WORD / 2) (hc0 : 0 < c)
    (hroom : HEADER_SIZE + c ≤ s.brk) :
    (sbrk (to_intptr ((WORD - HEADER_SIZE + (WORD - c)) % WORD)) s).2 =
      { s with brk := s.brk - (HEADER_SIZE + c) } := by
  rw [shrink_request c hc hc0,
    sbrk_shrink s (WORD - (HEADER_SIZE + c)) (by rw [WORD_eq, HEADER_SIZE_eq] at *; omega)
      (by rw [WORD_eq, HEADER_SIZE_eq] at *; omega)
      (by rw [WORD_eq, HEADER_SIZE_eq] at *; omega)]
  have : WORD - (WORD - (HEADER_SIZE + c)) = HEADER_SIZE + c := by
    rw [WORD_eq, HEADER_SIZE_eq] at *; omega
  simp only [this]

/-- The heap-end path of `free` under the layout invariant: releasing the last block `t` of
the ledger `init ++ [t]` unlinks it, makes its predecessor the tail (or empties the ledger),
lowers the break to the header address `t`, and keeps the invariant for `init`. -/
theorem free_last (b0 fuel : Nat) (s : State) (init : List Nat) (t : Nat)
    (hinv : Inv b0 s (init ++ [t])) (hf : (init ++ [t]).length ≤ fuel) :
    ∃ s', free fuel (t + HEADER_SIZE) s = some s' ∧ Inv b0 s' init ∧
      s.brk = t + HEADER_SIZE + hsize s.mem t ∧ s'.brk = t ∧ s'.limit = s.limit ∧
      s'.head = (if init = [] then NULL else s.head) ∧
      (∀ h ∈ init, hsize s'.mem h = hsize s.mem h ∧ hfree s'.mem h = hfree s.mem h) ∧
      (∀ x, (∀ h ∈ init, x < h ∨ h + HEADER_SIZE ≤ x) → s'.mem x = s.mem x) := by
  have hwf := hinv.wf
  obtain ⟨htinit, hpos, hend⟩ := hinv.tiles.split_last
  have htmem : t ∈ init ++ [t] := by simp
  have hlt := hwf.block_lt htmem
  have hhdr : header_of (t + HEADER_SIZE) = t :=
    header_of_user_pointer (by rw [WORD_eq] at *; omega)
  have hblk : t + HEADER_SIZE ≠ NULL := by unfold NULL; rw [HEADER_SIZE_eq]; omega
  have hcond : (t + HEADER_SIZE + hsize s.mem t) % WORD = s.brk := by
    rw [Nat.mod_eq_of_lt (by rw [WORD_eq] at *; omega)]
    exact hend
  have htail : s.tail = t := by rw [hinv.tail_last, List.getLastD_concat]
  rcases List.eq_nil_or_concat init with hnil | ⟨pre, a, hpa⟩
  · -- the sole block
    subst hnil
    have hhead : s.head = t := hinv.chain.1
    have hfr := free_sole fuel (t + HEADER_SIZE) s hblk (by rw [hhdr]; exact hcond)
      (by rw [hhead, htail])
    rw [hhdr, sbrk_release _ (hsize s.mem t) (by rw [WORD_eq] at *; omega) hpos
      (by show HEADER_SIZE + hsize s.mem t ≤ s.brk; omega)] at hfr
    have hb : s.brk - (HEADER_SIZE + hsize s.mem t) = t := by omega
    have hb0 : b0 = t := htinit
    refine ⟨_, hfr, ⟨rfl, rfl, ?_, hinv.base_pos, ?_, hinv.limit_lt⟩, hend.symm, hb, rfl,
      by simp, ?_, fun x _ => rfl⟩
    · show b0 = s.brk - (HEADER_SIZE + hsize s.mem t)
      rw [hb, hb0]
    · show s.brk - (HEADER_SIZE + hsize s.mem t) ≤ s.limit
      have := hinv.brk_le
      omega
    · intro h hh; cases hh
  · -- two or more blocks: the loop unlinks the tail
    rw [List.concat_eq_append] at hpa
    subst hpa
    have hlist : pre ++ [a] ++ [t] = pre ++ [a, t] := by simp
    have hchain : Chain s.mem s.head (pre ++ [a, t]) := hlist ▸ hinv.chain
    have hnd : (pre ++ [a, t]).Nodup := hlist ▸ hwf.nodup
    have hamem : a ∈ pre ++ [a] ++ [t] := by simp
    have hat : Sep a t := hwf.sep_of_ne hamem htmem (by
      intro he
      have h2 : a ∉ [t] := (List.nodup_cons.mp (List.nodup_append.mp hnd).2.1).1
      exact h2 (by rw [he]; exact List.mem_singleton_self t))
    have hht : s.head ≠ s.tail := by
      rw [htail]
      intro he
      cases pre with
      | nil =>
        have h1 : s.head = a := hchain.1
        exact hat.ne (by rw [← h1, he])
      | cons z zs =>
        have h1 : s.head = z := hchain.1
        have h2 : z ∉ zs ++ [a, t] := (List.nodup_cons.mp hnd).1
        exact h2 (by rw [← h1, he]; simp)
    have hloop := free_loop_unlink a t pre fuel s s.head hchain hnd htail
      (by rw [← hlist]; exact hf)
    have hsz : hsize (set_next s.mem a NULL) t = hsize s.mem t :=
      hsize_set_next s.mem a t NULL (Or.inr hat)
    have hfr : free fuel (t + HEADER_SIZE) s =
        some { s with mem := set_next s.mem a NULL, tail := a,
                      brk := s.brk - (HEADER_SIZE + hsize s.mem t) } := by
      unfold free
      rw [if_neg hblk]
      simp only [hhdr, sbrk_query]
      rw [if_pos hcond, if_neg hht, hloop]
      simp only [hsz]
      rw [sbrk_release _ (hsize s.mem t) (by rw [WORD_eq] at *; omega) hpos
        (by show HEADER_SIZE + hsize s.mem t ≤ s.brk; omega)]
    have hb : s.brk - (HEADER_SIZE + hsize s.mem t) = t := by omega
    have hsame : ∀ h ∈ pre ++ [a], hsize (set_next s.mem a NULL) h = hsize s.mem h ∧
        hfree (set_next s.mem a NULL) h = hfree s.mem h := by
      intro h hh
      have hd := hwf.eq_or_sep hamem (List.mem_append_left [t] hh)
      exact ⟨hsize_set_next s.mem a h NULL hd, hfree_set_next s.mem a h NULL hd⟩
    have ha0 : hnext (set_next s.mem a NULL) a = NULL := by
      rw [hnext_set_next]
      rfl
    have hne_nil : pre ++ [a] ≠ [] := by simp
    refine ⟨_, hfr, ⟨?_, ?_, ?_, hinv.base_pos, ?_, hinv.limit_lt⟩, hend.symm, hb, rfl,
      by rw [if_neg hne_nil], hsame, ?_⟩
    · apply Chain.drop_last ha0 hchain
      intro x hx
      have hxmem : x ∈ pre ++ [a] ++ [t] := by simp [hx]
      have hxa : a ≠ x := by
        intro he
        have := hnd
        rw [he] at this
        have h3 := (List.nodup_append.mp this).2.2
        exact h3 hx (List.mem_cons_self _ _)
      exact hnext_set_next_other s.mem a x NULL (hwf.sep_of_ne hamem hxmem hxa)
    · show a = (pre ++ [a]).getLastD NULL
      rw [List.getLastD_concat]
    · show Tiles (set_next s.mem a NULL) b0 (pre ++ [a]) (s.brk - (HEADER_SIZE + hsize s.mem t))
      rw [hb]
      exact Tiles.sizes_congr (fun h hh => (hsame h hh).1) htinit
    · show s.brk - (HEADER_SIZE + hsize s.mem t) ≤ s.limit
      have := hinv.brk_le
      omega
    · intro x hx
      have := hx a (by simp)
      exact store_outside s.mem _ _ _ x (by
        simp only [OFF_NEXT_eq, POINTER_BYTES]
        rw [HEADER_SIZE_eq] at this
        omega)

/-- Writing the `is_free` flag of a ledger entry keeps the layout invariant. -/
theorem Inv.flag_write {b0 : Nat} {s : State} {l : List Nat} (hinv : Inv b0 s l) {h : Nat}
    (hh : h ∈ l) (v : Nat) : Inv b0 { s with mem := set_free s.mem h v } l := by
  have hwf := hinv.wf
  refine ⟨(hwf.set_free hh v).chain, hinv.tail_last, ?_, hinv.base_pos, hinv.brk_le,
    hinv.limit_lt⟩
  exact Tiles.sizes_congr (fun x hx => hsize_set_free s.mem h x v (hwf.eq_or_sep hh hx)) hinv.tiles

/-- What `malloc` does to a state that satisfies the layout invariant, for a request whose
total size does not wrap: the call returns, the invariant holds afterwards for the same
ledger or for the ledger with one header appended at the old break, bytes outside the
headers are not written, old blocks keep their size and blocks in use stay in use, and a
non-null result is the user pointer of a block of the new ledger that is in use, has at
least the requested size and was not in use before. -/
theorem malloc_inv (b0 fuel n : Nat) (s : State) (l : List Nat) (hinv : Inv b0 s l)
    (hf : l.length ≤ fuel) (hrep : HEADER_SIZE + n < WORD / 2) :
    ∃ p s' l', malloc fuel n s = some (p, s') ∧ Inv b0 s' l' ∧ s'.limit = s.limit ∧
      (l' = l ∨ l' = l ++ [s.brk]) ∧
      (∀ x, (∀ h ∈ l', x < h ∨ h + HEADER_SIZE ≤ x) → s'.mem x = s.mem x) ∧
      (∀ h ∈ l, hsize s'.mem h = hsize s.mem h ∧ (hfree s.mem h = 0 → hfree s'.mem h = 0)) ∧
      (p = NULL → s' = s ∧ l' = l) ∧
      (p ≠ NULL → ∃ h, p = h + HEADER_SIZE ∧ h ∈ l' ∧ n ≤ hsize s'.mem h ∧
        hfree s'.mem h = 0 ∧ (h ∈ l → hfree s.mem h ≠ 0) ∧
        ∀ x ∈ l, x ≠ h → hfree s'.mem x = hfree s.mem x) := by
  have hwf := hinv.wf
  by_cases hn : n = 0
  · subst hn
    exact ⟨NULL, s, l, by simp [malloc], hinv, rfl, Or.inl rfl, fun _ _ => rfl,
      fun _ _ => ⟨rfl, fun h0 => h0⟩, fun _ => ⟨rfl, rfl⟩, fun h0 => absurd rfl h0⟩
  · have hn0 : 0 < n := Nat.pos_of_ne_zero hn
    rcases find_loop_chain s.mem n l fuel s.head hwf.chain hf with
      ⟨hr, hall⟩ | ⟨pre, h, post, hl, hr, hfh, hpre⟩
    · by_cases hroom : s.brk + (HEADER_SIZE + n) ≤ s.limit
      · -- the heap is extended
        obtain ⟨s', hmal, hbrk, hchain, _, htail, hsz, hfr, _, hold, hwf'⟩ :=
          malloc_extend fuel n s l hwf hf hn0 hrep hall hroom
        have hlim : s'.limit = s.limit := by
          have := malloc_fresh_state fuel n s l hwf hf hn0 hrep hall hroom
          rw [this] at hmal
          have h2 := (Prod.mk.inj (Option.some.inj hmal)).2
          rw [← h2]
        have hbmem : s.brk ∈ l ++ [s.brk] := by simp
        have hnotin : s.brk ∉ l := fun hin => by
          have := hwf.inside _ hin
          rw [HEADER_SIZE_eq] at this
          omega
        refine ⟨_, s', l ++ [s.brk], hmal, ⟨hchain, ?_, ?_, hinv.base_pos, ?_, ?_⟩, hlim,
          Or.inr rfl, ?_, ?_, ?_, ?_⟩
        · rw [htail, List.getLastD_concat]
        · rw [hbrk]
          have h1 : Tiles s'.mem b0 l s.brk :=
            Tiles.sizes_congr (fun x hx => (hold x hx).1) hinv.tiles
          have := Tiles.extend_one hn0 hsz h1
          rw [Nat.add_assoc] at this
          exact this
        · exact hwf'.brk_le
        · exact hwf'.limit_lt
        · -- bytes outside the headers
          intro x hx
          have hmal2 := malloc_fresh_state fuel n s l hwf hf hn0 hrep hall hroom
          rw [hmal2] at hmal
          have h2 := (Prod.mk.inj (Option.some.inj hmal)).2
          rw [← h2]
          have hxb := hx s.brk hbmem
          have e1 : set_next (set_free (set_size s.mem s.brk n) s.brk 0) s.brk NULL x = s.mem x := by
            unfold set_next set_free set_size
            rw [store_outside _ _ _ _ x (by
                simp only [OFF_NEXT_eq, POINTER_BYTES]; rw [HEADER_SIZE_eq] at hxb; omega),
              store_outside _ _ _ _ x (by
                simp only [OFF_IS_FREE_eq, UNSIGNED_BYTES]; rw [HEADER_SIZE_eq] at hxb; omega),
              store_outside _ _ _ _ x (by
                simp only [OFF_SIZE_eq, SIZE_T_BYTES]; rw [HEADER_SIZE_eq] at hxb; omega)]
          by_cases hl : l = []
          · have : s.tail = NULL := by rw [hwf.tail_last, hl]; rfl
            dsimp only
            rw [if_neg (by rw [this]; simp)]
            exact e1
          · have htm := hwf.tail_mem hl
            have hxt := hx s.tail (List.mem_append_left _ htm)
            dsimp only
            rw [if_pos (hwf.ne_null _ htm)]
            unfold set_next
            rw [store_outside _ _ _ _ x (by
                simp only [OFF_NEXT_eq, POINTER_BYTES]; rw [HEADER_SIZE_eq] at hxt; omega)]
            exact e1
        · intro h hh
          exact ⟨(hold h hh).1, fun h0 => by rw [(hold h hh).2]; exact h0⟩
        · intro h0
          have : s.brk + HEADER_SIZE ≠ NULL := by unfold NULL; rw [HEADER_SIZE_eq]; omega
          exact absurd h0 this
        · intro _
          refine ⟨s.brk, rfl, hbmem, by rw [hsz], hfr, fun hin => absurd hin hnotin, ?_⟩
          intro x hx _
          exact (hold x hx).2
      · -- the operating system refuses
        have hden := malloc_denied fuel n s hn hr (by
          rw [Nat.mod_eq_of_lt (by rw [WORD_eq] at *; omega),
            sbrk_grow_denied s _ (by omega) hrep hroom])
        exact ⟨NULL, s, l, hden, hinv, rfl, Or.inl rfl, fun _ _ => rfl,
          fun _ _ => ⟨rfl, fun h0 => h0⟩, fun _ => ⟨rfl, rfl⟩, fun h0 => absurd rfl h0⟩
    · -- a free block is reused
      have hmem : h ∈ l := by rw [hl]; simp
      have hmal := malloc_reuse_eq fuel n s l pre post h hwf hf hn0 hl hfh hpre
      refine ⟨_, _, l, hmal, hinv.flag_write hmem 0, rfl, Or.inl rfl, ?_, ?_, ?_, ?_⟩
      · intro x hx
        have := hx h hmem
        exact set_free_outside s.mem h 0 x (by
          simp only [OFF_IS_FREE_eq, UNSIGNED_BYTES]; rw [HEADER_SIZE_eq] at this; omega)
      · intro x hx
        refine ⟨hsize_set_free s.mem h x 0 (hwf.eq_or_sep hmem hx), fun h0 => ?_⟩
        by_cases hxh : x = h
        · subst hxh
          show hfree (MemAlloc.set_free s.mem x 0) x = 0
          rw [hfree_set_free]; rfl
        · show hfree (MemAlloc.set_free s.mem h 0) x = 0
          rw [hfree_set_free_other s.mem h x 0 (hwf.sep_of_ne hmem hx (Ne.symm hxh))]
          exact h0
      · intro h0
        have : h + HEADER_SIZE ≠ NULL := by unfold NULL; rw [HEADER_SIZE_eq]; omega
        exact absurd h0 this
      · intro _
        refine ⟨h, rfl, hmem, ?_, ?_, fun _ => hfh.1, ?_⟩
        · show n ≤ hsize (MemAlloc.set_free s.mem h 0) h
          rw [hsize_set_free s.mem h h 0 (Or.inl rfl)]
          exact hfh.2
        · show hfree (MemAlloc.set_free s.mem h 0) h = 0
          rw [hfree_set_free]; rfl
        · intro x hx hxh
          exact hfree_set_free_other s.mem h x 0 (hwf.sep_of_ne hmem hx (Ne.symm hxh))

/-- What `free` does to a block `h` of a state that satisfies the layout invariant: the call
returns and the invariant holds afterwards; when the payload of `h` ends at the break, `h`
was the last entry, it is removed and the break drops to `h`; otherwise the ledger and the
break are unchanged and `h` is marked free. Bytes outside the headers are not written and
the other blocks keep size and flag. -/
theorem free_inv (b0 fuel : Nat) (s : State) (l : List Nat) (h : Nat) (hinv : Inv b0 s l)
    (hh : h ∈ l) (hf : l.length ≤ fuel) :
    ∃ s' l', free fuel (h + HEADER_SIZE) s = some s' ∧ Inv b0 s' l' ∧ s'.limit = s.limit ∧
      ((h + HEADER_SIZE + hsize s.mem h = s.brk ∧ l = l' ++ [h] ∧ s'.brk = h) ∨
        (h + HEADER_SIZE + hsize s.mem h ≠ s.brk ∧ l' = l ∧ s'.brk = s.brk ∧
          hfree s'.mem h = 1)) ∧
      (∀ x, (∀ y ∈ l, x < y ∨ y + HEADER_SIZE ≤ x) → s'.mem x = s.mem x) ∧
      (∀ x ∈ l', hsize s'.mem x = hsize s.mem x ∧
        (x ≠ h → hfree s'.mem x = hfree s.mem x)) := by
  have hwf := hinv.wf
  by_cases hend : h + HEADER_SIZE + hsize s.mem h = s.brk
  · obtain ⟨init, hinit⟩ := hinv.tiles.ends_last h hh hend
    subst hinit
    obtain ⟨s', hfr, hinv', _, hbrk, hlim, _, hsame, hframe⟩ :=
      free_last b0 fuel s init h hinv hf
    refine ⟨s', init, hfr, hinv', hlim, Or.inl ⟨hend, rfl, hbrk⟩, ?_, ?_⟩
    · intro x hx
      exact hframe x (fun y hy => hx y (List.mem_append_left _ hy))
    · intro x hx
      exact ⟨(hsame x hx).1, fun _ => (hsame x hx).2⟩
  · refine ⟨_, l, free_interior_eq fuel s l h hwf hh hend, hinv.flag_write hh 1, rfl,
      Or.inr ⟨hend, rfl, rfl, ?_⟩, ?_, ?_⟩
    · show hfree (set_free s.mem h 1) h = 1
      rw [hfree_set_free]; rfl
    · intro x hx
      have := hx h hh
      exact set_free_outside s.mem h 1 x (by
        simp only [OFF_IS_FREE_eq, UNSIGNED_BYTES]; rw [HEADER_SIZE_eq] at this; omega)
    · intro x hx
      exact ⟨hsize_set_free s.mem h x 1 (hwf.eq_or_sep hh hx), fun hxh =>
        hfree_set_free_other s.mem h x 1 (hwf.sep_of_ne hh hx (Ne.symm hxh))⟩

/-! ## Writes to payload bytes -/

theorem hsize_frame {m m' : Mem} {h : Nat}
    (hsame : ∀ x, h ≤ x → x < h + HEADER_SIZE → m' x = m x) : hsize m' h = hsize m h := by
  unfold hsize
  apply load_congr
  intro x h1 h2
  apply hsame x
  · simp only [OFF_SIZE_eq] at h1; omega
  · simp only [OFF_SIZE_eq, SIZE_T_BYTES] at h2; rw [HEADER_SIZE_eq]; omega

theorem hfree_frame {m m' : Mem} {h : Nat}
    (hsame : ∀ x, h ≤ x → x < h + HEADER_SIZE → m' x = m x) : hfree m' h = hfree m h := by
  unfold hfree
  apply load_congr
  intro x h1 h2
  apply hsame x
  · simp only [OFF_IS_FREE_eq] at h1; omega
  · simp only [OFF_IS_FREE_eq, UNSIGNED_BYTES] at h2; rw [HEADER_SIZE_eq]; omega

theorem hnext_frame {m m' : Mem} {h : Nat}
    (hsame : ∀ x, h ≤ x → x < h + HEADER_SIZE → m' x = m x) : hnext m' h = hnext m h := by
  unfold hnext
  apply load_congr
  intro x h1 h2
  apply hsame x
  · simp only [OFF_NEXT_eq] at h1; omega
  · simp only [OFF_NEXT_eq, POINTER_BYTES] at h2; rw [HEADER_SIZE_eq]; omega

/-- A memory that agrees with the old one on every header byte keeps the layout invariant. -/
theorem Inv.frame {b0 : Nat} {s : State} {l : List Nat} (hinv : Inv b0 s l) (m' : Mem)
    (hsame : ∀ h ∈ l, ∀ x, h ≤ x → x < h + HEADER_SIZE → m' x = s.mem x) :
    Inv b0 { s with mem := m' } l := by
  refine ⟨?_, hinv.tail_last, ?_, hinv.base_pos, hinv.brk_le, hinv.limit_lt⟩
  · exact Chain.congr (fun h hh => hnext_frame (hsame h hh)) hinv.chain
  · exact Tiles.sizes_congr (fun h hh => hsize_frame (hsame h hh)) hinv.tiles

/-- In a tiled heap no byte of a payload is a byte of a header. -/
theorem Tiles.payload_header_disjoint {m : Mem} {l : List Nat} {a e : Nat}
    (ht : Tiles m a l e) {h x : Nat} (hh : h ∈ l) (hx : x ∈ l) (y : Nat)
    (h1 : h + HEADER_SIZE ≤ y) (h2 : y < h + HEADER_SIZE + hsize m h) :
    y < x ∨ x + HEADER_SIZE ≤ y := by
  by_cases hxh : h = x
  · subst hxh
    exact Or.inr h1
  · have hp : l.Pairwise (fun u v => u + HEADER_SIZE + hsize m u ≤ v ∨
        v + HEADER_SIZE + hsize m v ≤ u) := ht.pairwise.imp (fun huv => Or.inl huv)
    rcases hp.forall (fun _ _ huv => Or.symm huv) hh hx hxh with hlt | hgt
    · left; omega
    · right; omega

/-- The zeroing loop writes only the bytes from `block` to `block + k`. -/
theorem zero_loop_outside (m : Mem) (block : Nat) : ∀ (k x : Nat),
    (x < block ∨ block + k ≤ x) → zero_loop m block k x = m x := by
  intro k
  induction k with
  | zero => intro x _; rfl
  | succ k ih =>
    intro x hx
    simp only [zero_loop]
    rw [store_outside _ _ _ _ x (by omega)]
    exact ih x (by omega)

/-- The zeroing loop leaves a zero in every byte from `block` to `block + k`. -/
theorem zero_loop_inside (m : Mem) (block : Nat) : ∀ (k x : Nat),
    block ≤ x → x < block + k → zero_loop m block k x = 0 := by
  intro k
  induction k with
  | zero => intro x h1 h2; omega
  | succ k ih =>
    intro x h1 h2
    simp only [zero_loop]
    by_cases hx : x = block + k
    · subst hx
      unfold store
      rw [if_pos (by omega)]
      simp
    · rw [store_outside _ _ _ _ x (by omega)]
      exact ih x h1 (by omega)

/-- The copy loop of `realloc` writes only the bytes from `dst` to `dst + c`, where `c` is
the size recorded in `header`, when those bytes do not belong to `header`. -/
theorem copy_loop_outside (dst src header c : Nat)
    (hdisj : ∀ y, dst ≤ y → y < dst + c → y < header ∨ header + HEADER_SIZE ≤ y) :
    ∀ (k : Nat) (m : Mem) (i : Nat), hsize m header = c →
    ∀ x, (x < dst ∨ dst + c ≤ x) → copy_loop dst src header k m i x = m x := by
  intro k
  induction k with
  | zero => intro m i _ x _; rfl
  | succ k ih =>
    intro m i hc x hx
    simp only [copy_loop]
    by_cases hi : i < hsize m header
    · rw [if_pos hi]
      have hsz : hsize (store m (dst + i) 1 (m (src + i))) header = c := by
        rw [← hc]
        apply hsize_frame
        intro y h1 h2
        apply store_outside
        have := hdisj (dst + i) (by omega) (by omega)
        omega
      rw [ih _ (i + 1) hsz x hx]
      exact store_outside _ _ _ _ x (by omega)
    · rw [if_neg hi]

/-- The overflow test of `calloc`: for a non-zero count, the quotient of the wrapped product
by the count gives back the element size exactly when the product did not wrap. -/
theorem calloc_check (num size : Nat) (hnum : 0 < num) :
    size = (num * size) % WORD / num ↔ num * size < WORD := by
  constructor
  · intro h
    by_contra hge
    have h1 : (num * size) % WORD < WORD := Nat.mod_lt _ (by rw [WORD_eq]; omega)
    have h2 : (num * size) % WORD / num * num ≤ (num * size) % WORD := Nat.div_mul_le_self _ _
    rw [← h] at h2
    have h3 : size * num = num * size := Nat.mul_comm _ _
    omega
  · intro h
    rw [Nat.mod_eq_of_lt h, Nat.mul_div_cancel_left _ hnum]

/-- The function `calloc` keeps the layout invariant, for a request whose product wraps (the
call then fails fast) or whose total size does not wrap. -/
theorem calloc_inv (b0 fuel num size : Nat) (s : State) (l : List Nat) (hinv : Inv b0 s l)
    (hf : l.length ≤ fuel)
    (hrep : WORD ≤ num * size ∨ HEADER_SIZE + num * size < WORD / 2) :
    ∃ p s' l', calloc fuel num size s = some (p, s') ∧ Inv b0 s' l' ∧
      s'.limit = s.limit ∧ (l' = l ∨ l' = l ++ [s.brk]) := by
  unfold calloc
  by_cases h0 : num = 0 ∨ size = 0
  · rw [if_pos h0]
    exact ⟨NULL, s, l, rfl, hinv, rfl, Or.inl rfl⟩
  · rw [if_neg h0]
    have hnum : 0 < num := Nat.pos_of_ne_zero (fun h => h0 (Or.inl h))
    by_cases hchk : size ≠ (num * size) % WORD / num
    · simp only [hchk, if_true, ne_eq, not_false_eq_true]
      exact ⟨NULL, s, l, rfl, hinv, rfl, Or.inl rfl⟩
    · have hlt : num * size < WORD := (calloc_check num size hnum).mp (by
        by_contra hne; exact hchk hne)
      have hrep' : HEADER_SIZE + num * size < WORD / 2 := by
        rcases hrep with h | h
        · omega
        · exact h
      have hmod : (num * size) % WORD = num * size := Nat.mod_eq_of_lt hlt
      simp only [hchk, if_false]
      rw [hmod]
      obtain ⟨p, s1, l1, hmal, hinv1, hlim, hl1, _, _, hnull, hnonnull⟩ :=
        malloc_inv b0 fuel (num * size) s l hinv hf hrep'
      rw [hmal]
      by_cases hp : p = NULL
      · simp only [hp, if_true]
        exact ⟨NULL, s1, l1, rfl, hinv1, hlim, hl1⟩
      · simp only [hp, if_false]
        obtain ⟨h, hph, hmem, hsz, _, _, _⟩ := hnonnull hp
        refine ⟨p, _, l1, rfl, hinv1.frame _ ?_, hlim, hl1⟩
        intro g hg x hx1 hx2
        apply zero_loop_outside
        by_contra hcon
        have hin := hinv1.tiles.payload_header_disjoint hmem hg x (by omega) (by omega)
        omega

/-- The function `realloc` keeps the layout invariant when it is given null or the user
pointer of a ledger entry, for a request whose total size does not wrap. -/
theorem realloc_inv (b0 fuel n : Nat) (s : State) (l : List Nat) (block : Nat)
    (hinv : Inv b0 s l) (hf : l.length + 1 ≤ fuel) (hrep : HEADER_SIZE + n < WORD / 2)
    (hblock : block = NULL ∨ ∃ h ∈ l, block = h + HEADER_SIZE) :
    ∃ p s' l', realloc fuel block n s = some (p, s') ∧ Inv b0 s' l' ∧ s'.limit = s.limit := by
  unfold realloc
  by_cases h0 : block = NULL ∨ n = 0
  · rw [if_pos h0]
    obtain ⟨p, s1, l1, hmal, hinv1, hlim, _⟩ := malloc_inv b0 fuel n s l hinv (by omega) hrep
    exact ⟨p, s1, l1, hmal, hinv1, hlim⟩
  · rw [if_neg h0]
    obtain ⟨h, hmem, hbh⟩ := hblock.resolve_left (fun hb => h0 (Or.inl hb))
    have hwf := hinv.wf
    have hhdr : header_of block = h := by
      rw [hbh]
      exact header_of_user_pointer (by have := hwf.block_lt hmem; rw [WORD_eq] at *; omega)
    simp only [hhdr]
    by_cases hbig : hsize s.mem h ≥ n
    · rw [if_pos hbig]
      exact ⟨block, s, l, rfl, hinv, rfl⟩
    · rw [if_neg hbig]
      obtain ⟨q, s1, l1, hmal, hinv1, hlim, hl1, _, hold, _, hnonnull⟩ :=
        malloc_inv b0 fuel n s l hinv (by omega) hrep
      rw [hmal]
      by_cases hq : q = NULL
      · simp only [hq, ne_eq, not_true_eq_false, if_false]
        exact ⟨NULL, s1, l1, rfl, hinv1, hlim⟩
      · simp only [hq, ne_eq, not_false_eq_true, if_true]
        obtain ⟨g, hqg, hgmem, hgsz, _, _, _⟩ := hnonnull hq
        have hmem1 : h ∈ l1 := by
          rcases hl1 with h1 | h1
          · rw [h1]; exact hmem
          · rw [h1]; exact List.mem_append_left _ hmem
        have hc : hsize s1.mem h = hsize s.mem h := (hold h hmem).1
        -- the copied bytes lie in the payload of the new block
        have hpay : ∀ y, q ≤ y → y < q + hsize s1.mem h →
            ∀ x ∈ l1, y < x ∨ x + HEADER_SIZE ≤ y := by
          intro y h1 h2 x hx
          exact hinv1.tiles.payload_header_disjoint hgmem hx y (by omega) (by omega)
        have hinv2 : Inv b0 { s1 with mem := copy_loop q block h WORD s1.mem 0 } l1 := by
          apply hinv1.frame
          intro x hx y hy1 hy2
          apply copy_loop_outside q block h (hsize s1.mem h)
            (fun y h1 h2 => hpay y h1 h2 h hmem1) WORD s1.mem 0 rfl
          by_contra hcon
          have := hpay y (by omega) (by omega) x hx
          omega
        have hlen : l1.length ≤ fuel := by
          rcases hl1 with h1 | h1
          · rw [h1]; omega
          · rw [h1, List.length_append]; simpa using hf
        obtain ⟨s3, l3, hfr, hinv3, hlim3, _⟩ :=
          free_inv b0 fuel _ l1 h hinv2 hmem1 hlen
        rw [← hbh] at hfr
        rw [hfr]
        exact ⟨q, s3, l3, rfl, hinv3, by rw [hlim3]; exact hlim⟩

/-! ## Reachable states -/

/-- A ledger listing shorter than the fuel is the whole chain. -/
theorem ledger_from_complete (m : Mem) : ∀ (l : List Nat) (fuel h : Nat),
    Chain m h l → (ledger_from m fuel h).length < fuel →
    ledger_from m fuel h = l ∧ l.length < fuel := by
  intro l
  induction l with
  | nil =>
    intro fuel h hc hlen
    have : h = NULL := hc
    subst this
    cases fuel with
    | zero => simp at hlen
    | succ fuel => simp [ledger_from]
  | cons y ys ih =>
    intro fuel h hc hlen
    obtain ⟨h1, hy, hrest⟩ := hc
    subst h1
    cases fuel with
    | zero => simp at hlen
    | succ fuel =>
      simp only [ledger_from, if_neg hy, List.length_cons] at hlen ⊢
      have := ih fuel _ hrest (by omega)
      rw [this.1]
      exact ⟨rfl, by omega⟩

/-- A pointer in use, in a state that satisfies the layout invariant, is the user pointer of
a ledger entry that is not free. -/
theorem in_use_header {b0 fuel : Nat} {s : State} {l : List Nat} (hinv : Inv b0 s l)
    (hfuel : (ledger fuel s).length < fuel) {p : Nat} (hp : p < WORD) (huse : in_use fuel s p) :
    ∃ h ∈ l, p = h + HEADER_SIZE ∧ hfree s.mem h = 0 := by
  obtain ⟨_, hmem, hfr⟩ := huse
  have hl := (ledger_from_complete s.mem l fuel s.head hinv.chain hfuel).1
  have hmem' : header_of p ∈ l := by
    unfold ledger at hmem
    rw [hl] at hmem
    exact hmem
  refine ⟨header_of p, hmem', ?_, hfr⟩
  have hlt := hinv.wf.block_lt hmem'
  unfold header_of at *
  rw [WORD_eq, HEADER_SIZE_eq] at *
  omega

/-- One admissible, bounded call on a state that satisfies the layout invariant returns and
gives a state that satisfies it. -/
theorem step_inv (b0 fuel : Nat) (op : Op) (s : State) (l : List Nat) (hinv : Inv b0 s l)
    (hfuel : (ledger fuel s).length < fuel) (hadm : admissible fuel s op) (hb : bounded op) :
    ∃ s' l', step fuel op s = some s' ∧ Inv b0 s' l' ∧ s'.limit = s.limit := by
  have hlen := (ledger_from_complete s.mem l fuel s.head hinv.chain hfuel).2
  cases op with
  | allocate n =>
    obtain ⟨p, s', l', hmal, hinv', hlim, _⟩ := malloc_inv b0 fuel n s l hinv (by omega) hb
    exact ⟨s', l', by simp [step, hmal], hinv', hlim⟩
  | release p =>
    obtain ⟨hpW, hp⟩ := hadm
    rcases hp with hp | hp
    · exact ⟨s, l, by simp [step, free, hp], hinv, rfl⟩
    · obtain ⟨h, hmem, hph, _⟩ := in_use_header hinv hfuel hpW hp
      obtain ⟨s', l', hfr, hinv', hlim, _⟩ := free_inv b0 fuel s l h hinv hmem (by omega)
      exact ⟨s', l', by simp [step, hph, hfr], hinv', hlim⟩
  | zero_allocate num size =>
    obtain ⟨p, s', l', hcal, hinv', hlim, _⟩ := calloc_inv b0 fuel num size s l hinv (by omega) hb
    exact ⟨s', l', by simp [step, hcal], hinv', hlim⟩
  | resize p n =>
    obtain ⟨hpW, _, hp⟩ := hadm
    have hblock : p = NULL ∨ ∃ h ∈ l, p = h + HEADER_SIZE := by
      rcases hp with hp | hp
      · exact Or.inl hp
      · obtain ⟨h, hmem, hph, _⟩ := in_use_header hinv hfuel hpW hp
        exact Or.inr ⟨h, hmem, hph⟩
    obtain ⟨q, s', l', hre, hinv', hlim⟩ := realloc_inv b0 fuel n s l p hinv (by omega) hb hblock
    exact ⟨s', l', by simp [step, hre], hinv', hlim⟩

/-- The empty ledger satisfies the layout invariant. -/
theorem init_inv (m0 : Mem) (b0 limit : Nat) (hb : 0 < b0) (hbl : b0 ≤ limit)
    (hlim : limit < WORD / 2) : Inv b0 (init_state m0 b0 limit) [] :=
  ⟨rfl, rfl, rfl, hb, hbl, hlim⟩

/-- Every state reached from the empty ledger by admissible, bounded calls satisfies the
layout invariant for some ledger. -/
theorem reachable_inv (m0 : Mem) (b0 limit : Nat) (hb : 0 < b0) (hbl : b0 ≤ limit)
    (hlim : limit < WORD / 2) (s : State) (hr : Reachable m0 b0 limit s) :
    ∃ l, Inv b0 s l := by
  induction hr with
  | init => exact ⟨[], init_inv m0 b0 limit hb hbl hlim⟩
  | step fuel op s s' _ hfuel hadm hbd hstep ih =>
    obtain ⟨l, hinv⟩ := ih
    obtain ⟨s'', l', hstep', hinv', _⟩ := step_inv b0 fuel op s l hinv hfuel hadm hbd
    rw [hstep] at hstep'
    exact ⟨l', (Option.some.inj hstep') ▸ hinv'⟩

/-- The shape of the ledger under the layout invariant: `head` is null exactly when `tail`
is, the chain from `head` ends in `tail`, whose `next` link is null, and the header
addresses ascend strictly along the chain. -/
theorem Inv.ledger_shape {b0 : Nat} {s : State} {l : List Nat} (hinv : Inv b0 s l) :
    (s.head = NULL ↔ s.tail = NULL) ∧ Chain s.mem s.head l ∧ s.tail = l.getLastD NULL ∧
      (l ≠ [] → hnext s.mem s.tail = NULL) ∧ l.Pairwise (fun x y => x < y) := by
  have hwf := hinv.wf
  refine ⟨?_, hinv.chain, hinv.tail_last, ?_, ?_⟩
  · by_cases hl : l = []
    · subst hl
      exact ⟨fun _ => hinv.tail_last, fun _ => hinv.chain⟩
    · exact ⟨fun h => absurd h (hwf.head_ne hl),
        fun h => absurd h (hwf.ne_null _ (hwf.tail_mem hl))⟩
  · intro hl
    rcases List.eq_nil_or_concat l with hnil | ⟨pre, t, hpt⟩
    · exact absurd hnil hl
    · rw [List.concat_eq_append] at hpt
      subst hpt
      have htail : s.tail = t := by rw [hinv.tail_last, List.getLastD_concat]
      rw [htail]
      have hc := hinv.chain
      clear hl hwf hinv htail
      revert hc
      generalize s.head = c
      induction pre generalizing c with
      | nil => intro hc; exact hc.2.2
      | cons x xs ih => intro hc; exact ih _ hc.2.2
  · exact hinv.tiles.pairwise.imp (fun {x y} hxy => by rw [HEADER_SIZE_eq] at hxy; omega)

/-- Under the layout invariant the block whose payload ends at the break is the tail of the
ledger. -/
theorem Inv.heap_end_is_tail {b0 : Nat} {s : State} {l : List Nat} (hinv : Inv b0 s l)
    {h : Nat} (hh : h ∈ l) (hend : h + HEADER_SIZE + hsize s.mem h = s.brk) :
    s.tail = h ∧ ∃ init, l = init ++ [h] := by
  obtain ⟨init, hinit⟩ := hinv.tiles.ends_last h hh hend
  refine ⟨?_, init, hinit⟩
  rw [hinv.tail_last, hinit, List.getLastD_concat]

/-- Under the layout invariant and for a request whose total size does not wrap, the `n`
bytes at a non-null result of `malloc` lie below the break, contain no byte of any header of
the ledger and no byte of the payload of any other block. -/
theorem malloc_region (b0 fuel n : Nat) (s : State) (l : List Nat) (hinv : Inv b0 s l)
    (hf : l.length ≤ fuel) (hrep : HEADER_SIZE + n < WORD / 2) :
    ∃ p s' l', malloc fuel n s = some (p, s') ∧ Inv b0 s' l' ∧
      (p ≠ NULL → p + n ≤ s'.brk ∧
        (∀ x ∈ l', ∀ y, p ≤ y → y < p + n → y < x ∨ x + HEADER_SIZE ≤ y) ∧
        (∀ x ∈ l', x + HEADER_SIZE ≠ p → ∀ y, p ≤ y → y < p + n →
          y < x + HEADER_SIZE ∨ x + HEADER_SIZE + hsize s'.mem x ≤ y)) := by
  obtain ⟨p, s', l', hmal, hinv', _, _, _, _, _, hnonnull⟩ :=
    malloc_inv b0 fuel n s l hinv hf hrep
  refine ⟨p, s', l', hmal, hinv', fun hp => ?_⟩
  obtain ⟨h, hph, hmem, hsz, _, _, _⟩ := hnonnull hp
  have hb := hinv'.tiles.bounds h hmem
  refine ⟨by omega, ?_, ?_⟩
  · intro x hx y h1 h2
    exact hinv'.tiles.payload_header_disjoint hmem hx y (by omega) (by omega)
  · intro x hx hxp y h1 h2
    have hxh : h ≠ x := fun he => hxp (by rw [← he, hph])
    have hp : l'.Pairwise (fun u v => u + HEADER_SIZE + hsize s'.mem u ≤ v ∨
        v + HEADER_SIZE + hsize s'.mem v ≤ u) :=
      hinv'.tiles.pairwise.imp (fun huv => Or.inl huv)
    rcases hp.forall (fun _ _ huv => Or.symm huv) hmem hx hxh with hlt | hgt
    · left; omega
    · right; omega

/-! ## Further paths of `calloc` and `realloc`, and runs of bounded calls -/

/-- The failure path of `realloc`: when the request exceeds the recorded size and the inner
`malloc` returns null with the state unchanged, `realloc` returns null with the state
unchanged. -/
theorem realloc_denied (fuel block n : Nat) (s : State) (hb : block ≠ NULL)
    (hgrow : hsize s.mem (header_of block) < n) (hmal : malloc fuel n s = some (NULL, s)) :
    realloc fuel block n s = some (NULL, s) := by
  have hn0 : n ≠ 0 := Nat.ne_of_gt (Nat.lt_of_le_of_lt (Nat.zero_le _) hgrow)
  have hcond : ¬ (block = NULL ∨ n = 0) := fun h0 => h0.elim hb hn0
  have hsmall : ¬ hsize s.mem (header_of block) ≥ n := Nat.not_le.mpr hgrow
  unfold realloc
  rw [if_neg hcond]
  simp only []
  rw [if_neg hsmall, hmal]
  simp only [ne_eq, not_true_eq_false, if_false]

/-- A sequence of calls accepted by `run_bounded` leads from reachable states to reachable
states. -/
theorem run_bounded_reachable (m0 : Mem) (b0 limit fuel : Nat) : ∀ (ops : List Op) (s s' : State),
    Reachable m0 b0 limit s → run_bounded fuel ops s = some s' → Reachable m0 b0 limit s' := by
  intro ops
  induction ops with
  | nil =>
    intro s s' hr hrun
    simp only [run_bounded] at hrun
    exact (Option.some.inj hrun) ▸ hr
  | cons op ops ih =>
    intro s s' hr hrun
    simp only [run_bounded] at hrun
    split at hrun
    · rename_i hc
      cases hstep : step fuel op s with
      | none => rw [hstep] at hrun; cases hrun
      | some s1 =>
        rw [hstep] at hrun
        exact ih s1 s' (Reachable.step fuel op s s1 hr hc.1 hc.2.1 hc.2.2 hstep) hrun
    · cases hrun

/-- In a tiling every header is followed at once by the header of the next block. -/
theorem Tiles.successors {m : Mem} : ∀ {l : List Nat} {a e : Nat}, Tiles m a l e →
    l.Chain' (fun h h' => h' = h + HEADER_SIZE + hsize m h) := by
  intro l
  induction l with
  | nil => intro a e _; exact List.chain'_nil
  | cons y ys ih =>
    intro a e ht
    obtain ⟨_, _, h3⟩ := ht
    cases ys with
    | nil => exact List.chain'_singleton y
    | cons z zs =>
      exact List.chain'_cons.mpr ⟨h3.1, ih h3⟩

/-- A load from bytes that are all zero is zero. -/
theorem load_zero (m : Mem) (w : Nat) : ∀ a : Nat,
    (∀ x, a ≤ x → x < a + w → m x = 0) → load m a w = 0 := by
  induction w with
  | zero => intro a _; rfl
  | succ w ih =>
    intro a h
    simp only [load]
    rw [h a (le_refl a) (by omega), ih (a + 1) (fun x h1 h2 => h x (by omega) (by omega))]

/-- Zeroing at least a header's worth of bytes from `b` clears the size field at `b`. -/
theorem hsize_zero_loop (m : Mem) (b k : Nat) (hk : HEADER_SIZE ≤ k) :
    hsize (zero_loop m b k) b = 0 := by
  unfold hsize
  apply load_zero
  intro x h1 h2
  rw [HEADER_SIZE_eq] at hk
  have h8 : SIZE_T_BYTES = 8 := rfl
  rw [h8] at h2
  exact zero_loop_inside m b k x (by omega) (by simp only [OFF_SIZE_eq] at h2; omega)

/-- Zeroing at least a header's worth of bytes from `b` clears the `next` link at `b`. -/
theorem hnext_zero_loop (m : Mem) (b k : Nat) (hk : HEADER_SIZE ≤ k) :
    hnext (zero_loop m b k) b = 0 := by
  unfold hnext
  apply load_zero
  intro x h1 h2
  rw [HEADER_SIZE_eq] at hk
  have h8 : POINTER_BYTES = 8 := rfl
  rw [h8] at h2
  exact zero_loop_inside m b k x (by omega) (by simp only [OFF_NEXT_eq] at h2; omega)

/-- The zeroing loop leaves the `next` link of a header outside the zeroed bytes alone. -/
theorem hnext_zero_loop_other (m : Mem) (b k h : Nat)
    (hd : h + HEADER_SIZE ≤ b ∨ b + k ≤ h) :
    hnext (zero_loop m b k) h = hnext m h := by
  apply hnext_frame
  intro x h1 h2
  exact zero_loop_outside m b k x (by omega)

/-- The end-to-end scenario of the specification with its own sizes 64, 128 and 32, from the
empty ledger at break 4096: every step behaves as described. -/
theorem scenario_64_128_32 :
    ∃ s1 s2 s3 s4 s5, malloc 0 64 (init_state zero_mem 4096 (2 ^ 40)) = some (4120, s1) ∧
      malloc 1 128 s1 = some (4120 + 64 + HEADER_SIZE, s2) ∧
      free 2 4120 s2 = some s3 ∧ hfree s3.mem 4096 = 1 ∧
      s3.brk = 4096 + 2 * HEADER_SIZE + 192 ∧ ledger 3 s3 = [4096, 4184] ∧
      malloc 2 32 s3 = some (4120, s4) ∧ hsize s4.mem 4096 = 64 ∧
      free 2 (4120 + 64 + HEADER_SIZE) s4 = some s5 ∧
      s5.brk = s4.brk - (HEADER_SIZE + 128) ∧ ledger 3 s5 = [4096] ∧
      s5.head = 4096 ∧ s5.tail = 4096 ∧ hnext s5.mem 4096 = NULL ∧ hfree s5.mem 4096 = 0 :=
  ⟨_, _, _, _, _, rfl, rfl, rfl, by decide, by decide, by decide, rfl, by decide, rfl,
    by decide, by decide, by decide, by decide, by decide, by decide⟩

/-! ## The calls under the layout invariant, for sizes that do not wrap -/

/-- The listing of a chain depends only on the `next` links of its headers. -/
theorem ledger_from_congr {m m' : Mem} : ∀ (l : List Nat) (fuel h : Nat), Chain m h l →
    (∀ x ∈ l, hnext m' x = hnext m x) → ledger_from m' fuel h = ledger_from m fuel h := by
  intro l
  induction l with
  | nil =>
    intro fuel h hc _
    have : h = NULL := hc
    subst this
    cases fuel <;> simp [ledger_from]
  | cons y ys ih =>
    intro fuel h hc hsame
    obtain ⟨h1, hy, hrest⟩ := hc
    subst h1
    cases fuel with
    | zero => rfl
    | succ fuel =>
      simp only [ledger_from, if_neg hy]
      rw [hsame h (List.mem_cons_self _ _)]
      rw [ih fuel _ hrest (fun x hx => hsame x (List.mem_cons_of_mem _ hx))]

/-- Under the layout invariant and for a non-zero count and element size whose total size
does not wrap, `calloc` is `malloc` of the product followed by the zeroing loop: a null result
of `malloc` is passed on with the state of `malloc`; otherwise the pointer, the break, `head`,
`tail` and the ledger are those of `malloc`, every byte of the region is zero, no byte
outside the region is written and the header fields of every ledger entry are as `malloc`
left them. -/
theorem calloc_agrees_with_malloc (b0 fuel num size : Nat) (s : State) (l : List Nat)
    (hinv : Inv b0 s l) (hf : l.length ≤ fuel) (hnum : num ≠ 0) (hsz0 : size ≠ 0)
    (hrep : HEADER_SIZE + num * size < WORD / 2) :
    ∃ p s1 s2 l1, malloc fuel (num * size) s = some (p, s1) ∧
      calloc fuel num size s = some (p, s2) ∧ Inv b0 s1 l1 ∧ Inv b0 s2 l1 ∧
      (p = NULL → s2 = s1) ∧
      s2.brk = s1.brk ∧ s2.head = s1.head ∧ s2.tail = s1.tail ∧ s2.limit = s1.limit ∧
      (∀ k, ledger k s2 = ledger k s1) ∧
      (∀ h ∈ l1, hsize s2.mem h = hsize s1.mem h ∧ hfree s2.mem h = hfree s1.mem h ∧
        hnext s2.mem h = hnext s1.mem h) ∧
      (p ≠ NULL → (∀ x, p ≤ x → x < p + num * size → s2.mem x = 0) ∧
        (∀ x, (x < p ∨ p + num * size ≤ x) → s2.mem x = s1.mem x)) := by
  have h0 : ¬ (num = 0 ∨ size = 0) := fun h => h.elim hnum hsz0
  have hlt : num * size < WORD := by rw [WORD_eq, HEADER_SIZE_eq] at *; omega
  have hchk : ¬ size ≠ (num * size) % WORD / num := fun h =>
    h ((calloc_check num size (Nat.pos_of_ne_zero hnum)).mpr hlt)
  obtain ⟨p, s1, l1, hmal, hinv1, _, _, _, _, _, hnonnull⟩ :=
    malloc_inv b0 fuel (num * size) s l hinv hf hrep
  have hcal : calloc fuel num size s =
      if p = NULL then some (NULL, s1)
      else some (p, { s1 with mem := zero_loop s1.mem p (num * size) }) := by
    rw [Nat.mod_eq_of_lt hlt] at hchk
    unfold calloc
    rw [if_neg h0]
    simp only [Nat.mod_eq_of_lt hlt]
    rw [if_neg hchk, hmal]
  by_cases hp : p = NULL
  · rw [if_pos hp] at hcal
    subst hp
    exact ⟨NULL, s1, s1, l1, hmal, hcal, hinv1, hinv1, fun _ => rfl, rfl, rfl, rfl, rfl,
      fun _ => rfl, fun _ _ => ⟨rfl, rfl, rfl⟩, fun h => absurd rfl h⟩
  · rw [if_neg hp] at hcal
    obtain ⟨h, hph, hmem, hsz, _, _, _⟩ := hnonnull hp
    have hout : ∀ g ∈ l1, ∀ x, g ≤ x → x < g + HEADER_SIZE →
        zero_loop s1.mem p (num * size) x = s1.mem x := by
      intro g hg x hx1 hx2
      apply zero_loop_outside
      by_contra hcon
      have hin := hinv1.tiles.payload_header_disjoint hmem hg x (by omega) (by omega)
      omega
    refine ⟨p, s1, _, l1, hmal, hcal, hinv1, hinv1.frame _ hout, fun h => absurd h hp,
      rfl, rfl, rfl, rfl, ?_, ?_, fun _ => ⟨?_, ?_⟩⟩
    · intro k
      exact ledger_from_congr l1 k s1.head hinv1.chain (fun x hx => hnext_frame (hout x hx))
    · intro g hg
      exact ⟨hsize_frame (hout g hg), hfree_frame (hout g hg), hnext_frame (hout g hg)⟩
    · intro x h1 h2
      exact zero_loop_inside s1.mem p (num * size) x h1 h2
    · intro x hx
      exact zero_loop_outside s1.mem p (num * size) x hx

/-- The extension path of `malloc` under the layout invariant: the new block is appended at
the old break, the invariant holds for the longer ledger, and the old blocks keep size and
flag. -/
theorem malloc_extend_inv (b0 fuel n : Nat) (s : State) (l : List Nat) (hinv : Inv b0 s l)
    (hf : l.length ≤ fuel) (hn : 0 < n) (hrep : HEADER_SIZE + n < WORD / 2)
    (hno : ∀ h ∈ l, ¬ fits s.mem n h) (hos : s.brk + (HEADER_SIZE + n) ≤ s.limit) :
    ∃ s', malloc fuel n s = some (s.brk + HEADER_SIZE, s') ∧ Inv b0 s' (l ++ [s.brk]) ∧
      s'.brk = s.brk + (HEADER_SIZE + n) ∧ s'.limit = s.limit ∧
      hsize s'.mem s.brk = n ∧ hfree s'.mem s.brk = 0 ∧
      (∀ h ∈ l, hsize s'.mem h = hsize s.mem h ∧ hfree s'.mem h = hfree s.mem h) := by
  have hwf := hinv.wf
  obtain ⟨s', hmal, hbrk, hchain, _, htail, hsz, hfr, _, hold, hwf'⟩ :=
    malloc_extend fuel n s l hwf hf hn hrep hno hos
  have hlim : s'.limit = s.limit := by
    have := malloc_fresh_state fuel n s l hwf hf hn hrep hno hos
    rw [this] at hmal
    have h2 := (Prod.mk.inj (Option.some.inj hmal)).2
    rw [← h2]
  refine ⟨s', hmal, ⟨hchain, ?_, ?_, hinv.base_pos, hwf'.brk_le, hwf'.limit_lt⟩, hbrk, hlim,
    hsz, hfr, hold⟩
  · rw [htail, List.getLastD_concat]
  · rw [hbrk]
    have h1 : Tiles s'.mem b0 l s.brk :=
      Tiles.sizes_congr (fun x hx => (hold x hx).1) hinv.tiles
    have := Tiles.extend_one hn hsz h1
    rw [Nat.add_assoc] at this
    exact this

/-- The end-to-end scenario for sizes `a`, `c`, `k` with `0 < k ≤ a`, `0 < c`, from the empty
ledger at break `b0`, when the operating system grants both extensions below `2 ^ 63`:
`A = malloc a` and `B = malloc c` are `b0 + sizeof(header_t)` and
`A + a + sizeof(header_t)`; `free A` only sets the flag of the header of `A`; `malloc k`
returns `A`, whose recorded size is still `a`; `free B` lowers the break by
`sizeof(header_t) + c` and leaves the header of `A` as the only entry of the ledger, `head`
and `tail`, with a null `next` link and in use. -/
theorem scenario_bounded_sizes (m0 : Mem) (b0 limit fuel a c k : Nat) (hb : 0 < b0)
    (hfuel : 2 ≤ fuel) (hk : 0 < k) (hka : k ≤ a) (hc : 0 < c)
    (hroom : b0 + (HEADER_SIZE + a) + (HEADER_SIZE + c) ≤ limit) (hlim : limit < WORD / 2) :
    ∃ s1 s2 s3 s4 s5, malloc fuel a (init_state m0 b0 limit) = some (b0 + HEADER_SIZE, s1) ∧
      malloc fuel c s1 = some (b0 + HEADER_SIZE + a + HEADER_SIZE, s2) ∧
      s2.brk = b0 + 2 * HEADER_SIZE + (a + c) ∧
      free fuel (b0 + HEADER_SIZE) s2 = some s3 ∧
      s3 = { s2 with mem := set_free s2.mem b0 1 } ∧
      malloc fuel k s3 = some (b0 + HEADER_SIZE, s4) ∧
      hsize s4.mem b0 = a ∧ s4.brk = s2.brk ∧
      free fuel (b0 + HEADER_SIZE + a + HEADER_SIZE) s4 = some s5 ∧
      s5.brk + (HEADER_SIZE + c) = s4.brk ∧ ledger fuel s5 = [b0] ∧
      s5.head = b0 ∧ s5.tail = b0 ∧ hnext s5.mem b0 = NULL ∧ hfree s5.mem b0 = 0 := by
  have ha : 0 < a := Nat.lt_of_lt_of_le hk hka
  have hinv0 := init_inv m0 b0 limit hb (by omega) hlim
  -- A = malloc a
  obtain ⟨s1, hm1, hinv1, hbrk1, hlim1, hsz1, hfr1, _⟩ :=
    malloc_extend_inv b0 fuel a (init_state m0 b0 limit) [] hinv0 (Nat.zero_le _) ha
      (by omega) (fun _ hh => absurd hh (List.not_mem_nil _))
      (by show b0 + (HEADER_SIZE + a) ≤ limit; omega)
  have hb1 : (init_state m0 b0 limit).brk = b0 := rfl
  rw [hb1] at hm1 hinv1 hbrk1 hsz1 hfr1
  have hl1 : (init_state m0 b0 limit).limit = limit := rfl
  rw [hl1] at hlim1
  -- B = malloc c
  obtain ⟨s2, hm2, hinv2, hbrk2, hlim2, hsz2, hfr2, hold2⟩ :=
    malloc_extend_inv b0 fuel c s1 [b0] hinv1 (by simpa using by omega) hc
      (by omega) (fun h hh => by
        rw [List.mem_singleton] at hh
        subst hh
        exact fun hfit => hfit.1 hfr1)
      (by rw [hbrk1, hlim1]; omega)
  rw [hbrk1] at hm2 hinv2 hbrk2 hsz2 hfr2
  have hmem0 : b0 ∈ [b0] ++ [b0 + (HEADER_SIZE + a)] := by simp
  have hmem1 : b0 + (HEADER_SIZE + a) ∈ [b0] ++ [b0 + (HEADER_SIZE + a)] := by simp
  have hA2 := hold2 b0 (List.mem_singleton_self _)
  -- free A
  have hf3 := free_interior_eq fuel s2 _ b0 hinv2.wf hmem0 (by
    rw [hA2.1, hsz1, hbrk2]; omega)
  have hinv3 := hinv2.flag_write hmem0 1
  have hsep : Sep b0 (b0 + (HEADER_SIZE + a)) := Or.inl (by omega)
  -- malloc k
  have hfit : fits (set_free s2.mem b0 1) k b0 := by
    constructor
    · rw [hfree_set_free]; decide
    · rw [hsize_set_free s2.mem b0 b0 1 (Or.inl rfl), hA2.1, hsz1]
      exact hka
  have hm4 := malloc_reuse_eq fuel k { s2 with mem := set_free s2.mem b0 1 } _ []
    [b0 + (HEADER_SIZE + a)] b0 hinv3.wf (by simpa using by omega) hk rfl hfit
    (fun _ hh => absurd hh (List.not_mem_nil _))
  have hinv4 := hinv3.flag_write hmem0 0
  -- free B
  obtain ⟨s5, hf5, hinv5, hend5, hbrk5, _, hhead5, hold5, _⟩ :=
    free_last b0 fuel _ [b0] (b0 + (HEADER_SIZE + a)) hinv4 (by simpa using by omega)
  have hB4 : hsize (set_free (set_free s2.mem b0 1) b0 0) (b0 + (HEADER_SIZE + a)) = c := by
    rw [hsize_set_free _ b0 _ 0 (Or.inr hsep), hsize_set_free _ b0 _ 1 (Or.inr hsep)]
    exact hsz2
  have hA4 : hsize (set_free (set_free s2.mem b0 1) b0 0) b0 = a := by
    rw [hsize_set_free _ b0 _ 0 (Or.inl rfl), hsize_set_free _ b0 _ 1 (Or.inl rfl), hA2.1]
    exact hsz1
  have hc5 := hinv5.chain
  have hadd : b0 + HEADER_SIZE + a + HEADER_SIZE = b0 + (HEADER_SIZE + a) + HEADER_SIZE := by
    omega
  refine ⟨s1, s2, _, _, s5, hm1, by rw [hadd]; exact hm2, by rw [hbrk2]; omega, hf3, rfl,
    hm4, hA4, rfl, by rw [hadd]; exact hf5, ?_, ?_, hc5.1, ?_, hc5.2.2, ?_⟩
  · show s5.brk + (HEADER_SIZE + c) = s2.brk
    rw [hbrk5, hbrk2]
  · exact ledger_from_chain s5.mem [b0] fuel s5.head hc5 (by simpa using by omega)
  · rw [hinv5.tail_last]; rfl
  · rw [(hold5 b0 (List.mem_singleton_self _)).2]
    show hfree (set_free (set_free s2.mem b0 1) b0 0) b0 = 0
    rw [hfree_set_free]; rfl

/-- What the copy loop of `realloc` leaves in the destination: when the `c` destination
bytes overlap neither `header` nor the `c` source bytes, and the iterations left suffice,
the bytes from index `i` on are the source bytes and the bytes below `i` are untouched. -/
theorem copy_loop_inside (dst src header c : Nat)
    (hdisj : ∀ y, dst ≤ y → y < dst + c → y < header ∨ header + HEADER_SIZE ≤ y)
    (hsrc : dst + c ≤ src ∨ src + c ≤ dst) :
    ∀ (k : Nat) (m : Mem) (i : Nat), hsize m header = c → c ≤ i + k →
    ∀ j, j < c → copy_loop dst src header k m i (dst + j) =
      if i ≤ j then m (src + j) % 256 else m (dst + j) := by
  intro k
  induction k with
  | zero =>
    intro m i _ hk j hj
    rw [if_neg (by omega)]
    rfl
  | succ k ih =>
    intro m i hc hk j hj
    simp only [copy_loop]
    by_cases hi : i < hsize m header
    · rw [if_pos hi]
      rw [hc] at hi
      have hsz : hsize (store m (dst + i) 1 (m (src + i))) header = c := by
        rw [← hc]
        apply hsize_frame
        intro y h1 h2
        apply store_outside
        have := hdisj (dst + i) (by omega) (by omega)
        omega
      rw [ih _ (i + 1) hsz (by omega) j hj]
      by_cases hij : i + 1 ≤ j
      · rw [if_pos hij, if_pos (by omega), store_outside _ _ _ _ _ (by omega)]
      · rw [if_neg hij]
        by_cases hji : j = i
        · subst hji
          rw [if_pos (le_refl _)]
          unfold store
          rw [if_pos (by omega)]
          simp
        · rw [if_neg (by omega), store_outside _ _ _ _ _ (by omega)]
    · rw [if_neg hi]
      rw [hc] at hi
      rw [if_neg (by omega)]

/-- What `realloc` does when it has to grow a block in use, under the layout invariant and
for a request whose total size does not wrap: the call returns and keeps the invariant; a
null result leaves the state as it was; a non-null result differs from the old pointer, its
first bytes are the bytes the old block held when the call was made (as many as the old
recorded size), the old header is marked free or has left the ledger, and the header of the
result is in the ledger, in use, with at least the requested size. -/
theorem realloc_grow_inv (b0 fuel n : Nat) (s : State) (l : List Nat) (h : Nat)
    (hinv : Inv b0 s l) (hf : l.length + 1 ≤ fuel) (hrep : HEADER_SIZE + n < WORD / 2)
    (hh : h ∈ l) (huse : hfree s.mem h = 0) (hgrow : hsize s.mem h < n) :
    ∃ q s' l', realloc fuel (h + HEADER_SIZE) n s = some (q, s') ∧ Inv b0 s' l' ∧
      (q = NULL → s' = s) ∧
      (q ≠ NULL → q ≠ h + HEADER_SIZE ∧
        (∀ j, j < hsize s.mem h → s'.mem (q + j) = s.mem (h + HEADER_SIZE + j) % 256) ∧
        (h ∉ l' ∨ hfree s'.mem h = 1) ∧
        ∃ g ∈ l', q = g + HEADER_SIZE ∧ hfree s'.mem g = 0 ∧ n ≤ hsize s'.mem g) := by
  obtain ⟨block, hbh⟩ : ∃ block, block = h + HEADER_SIZE := ⟨_, rfl⟩
  rw [← hbh]
  have hwf := hinv.wf
  have hn0 : n ≠ 0 := Nat.ne_of_gt (Nat.lt_of_le_of_lt (Nat.zero_le _) hgrow)
  have hb0 : block ≠ NULL := by rw [hbh]; unfold NULL; rw [HEADER_SIZE_eq]; omega
  have hhdr : header_of block = h := by
    rw [hbh]
    exact header_of_user_pointer (by have := hwf.block_lt hh; rw [WORD_eq] at *; omega)
  unfold realloc
  rw [if_neg (fun h0 => h0.elim hb0 hn0)]
  simp only [hhdr]
  rw [if_neg (by omega)]
  obtain ⟨q, s1, l1, hmal, hinv1, _, hl1, hframe, hold, hnull, hnonnull⟩ :=
    malloc_inv b0 fuel n s l hinv (by omega) hrep
  rw [hmal]
  by_cases hq : q = NULL
  · simp only [hq, ne_eq, not_true_eq_false, if_false]
    exact ⟨NULL, s1, l1, rfl, hinv1, fun _ => (hnull hq).1, fun h0 => absurd rfl h0⟩
  · simp only [hq, ne_eq, not_false_eq_true, if_true]
    obtain ⟨g, hqg, hgmem, hgsz, hgfree, hgnew, _⟩ := hnonnull hq
    have hgh : g ≠ h := fun he => hgnew (he ▸ hh) (he ▸ huse)
    have hmem1 : h ∈ l1 := by
      rcases hl1 with h1 | h1
      · rw [h1]; exact hh
      · rw [h1]; exact List.mem_append_left _ hh
    have hc : hsize s1.mem h = hsize s.mem h := (hold h hh).1
    -- the copied bytes lie in the payload of the new block
    have hpay : ∀ y, q ≤ y → y < q + hsize s1.mem h →
        ∀ x ∈ l1, y < x ∨ x + HEADER_SIZE ≤ y := by
      intro y h1 h2 x hx
      exact hinv1.tiles.payload_header_disjoint hgmem hx y (by omega) (by omega)
    obtain ⟨m2, hm2⟩ : ∃ m2, m2 = copy_loop q block h WORD s1.mem 0 := ⟨_, rfl⟩
    rw [← hm2]
    have hcopy_out : ∀ x ∈ l1, ∀ y, x ≤ y → y < x + HEADER_SIZE → m2 y = s1.mem y := by
      intro x hx y hy1 hy2
      rw [hm2]
      apply copy_loop_outside q block h (hsize s1.mem h)
        (fun y h1 h2 => hpay y h1 h2 h hmem1) WORD s1.mem 0 rfl
      by_contra hcon
      have := hpay y (by omega) (by omega) x hx
      omega
    have hinv2 : Inv b0 { s1 with mem := m2 } l1 := hinv1.frame _ hcopy_out
    have hlen : l1.length ≤ fuel := by
      rcases hl1 with h1 | h1
      · rw [h1]; omega
      · rw [h1, List.length_append]; simpa using hf
    -- the two payloads do not overlap
    have hp : l1.Pairwise (fun u v => u + HEADER_SIZE + hsize s1.mem u ≤ v ∨
        v + HEADER_SIZE + hsize s1.mem v ≤ u) :=
      hinv1.tiles.pairwise.imp (fun huv => Or.inl huv)
    have hsep := hp.forall (fun _ _ huv => Or.symm huv) hgmem hmem1 hgh
    have hsrc : q + hsize s1.mem h ≤ block ∨ block + hsize s1.mem h ≤ q := by
      rcases hsep with h1 | h1
      · left; omega
      · right; omega
    have hcopy : ∀ j, j < hsize s1.mem h → m2 (q + j) = s1.mem (block + j) % 256 := by
      intro j hj
      rw [hm2, copy_loop_inside q block h (hsize s1.mem h)
        (fun y h1 h2 => hpay y h1 h2 h hmem1)
        hsrc WORD s1.mem 0 rfl (by have := hsize_lt s1.mem h; omega) j hj]
      rw [if_pos (Nat.zero_le _)]
    obtain ⟨s3, l3, hfr, hinv3, _, hcase, hframe3, hold3⟩ :=
      free_inv b0 fuel _ l1 h hinv2 hmem1 hlen
    rw [← hbh] at hfr
    rw [hfr]
    have hg3 : g ∈ l3 := by
      rcases hcase with ⟨_, h1, _⟩ | ⟨_, h1, _⟩
      · rw [h1] at hgmem
        rcases List.mem_append.mp hgmem with h2 | h2
        · exact h2
        · exact absurd (List.mem_singleton.mp h2) hgh
      · rw [h1]; exact hgmem
    refine ⟨q, s3, l3, rfl, hinv3, fun h0 => absurd h0 hq,
      fun _ => ⟨?_, ?_, ?_, g, hg3, hqg, ?_, ?_⟩⟩
    · rw [hqg, hbh]
      omega
    · intro j hj
      rw [← hc] at hj
      have hout := hpay (q + j) (by omega) (by omega)
      rw [hframe3 (q + j) hout]
      show m2 (q + j) = s.mem (block + j) % 256
      rw [hcopy j hj]
      have hsrc_out : ∀ x ∈ l1, block + j < x ∨ x + HEADER_SIZE ≤ block + j := fun x hx =>
        hinv1.tiles.payload_header_disjoint hmem1 hx (block + j) (by omega) (by omega)
      rw [hframe (block + j) hsrc_out]
    · rcases hcase with ⟨_, h1, _⟩ | ⟨_, _, _, h1⟩
      · left
        have hnd := hinv1.wf.nodup
        rw [h1] at hnd
        intro hin
        exact (List.disjoint_of_nodup_append hnd) hin (List.mem_singleton_self _)
      · right; exact h1
    · rw [(hold3 g hg3).2 hgh]
      show hfree m2 g = 0
      rw [hfree_frame (hcopy_out g hgmem)]
      exact hgfree
    · rw [(hold3 g hg3).1]
      show n ≤ hsize m2 g
      rw [hsize_frame (hcopy_out g hgmem)]
      exact hgsz

/-! ## The lock discipline -/

/-- Under the lock a guarded access records nothing. -/
theorem guarded_held (a : Access) (k : Mutex) (h : k.held = true) : guarded a k = k := by
  unfold guarded
  rw [if_pos h]

/-- Without the lock a guarded access is recorded. -/
theorem guarded_free (a : Access) (k : Mutex) (h : k.held = false) :
    guarded a k = { k with faults := k.faults ++ [a] } := by
  unfold guarded
  rw [if_neg (by rw [h]; decide)]

/-- Taking the free lock: the lock is held and nothing is recorded. -/
theorem lock_free (k : Mutex) (h : k.held = false) :
    pthread_mutex_lock k = { held := true, faults := k.faults } := by
  unfold pthread_mutex_lock
  rw [if_neg (by rw [h]; decide)]

/-- Taking and releasing the free lock gives the lock back as it was. -/
theorem unlock_lock (k : Mutex) (h : k.held = false) :
    pthread_mutex_unlock (pthread_mutex_lock k) = k := by
  rw [lock_free k h]
  unfold pthread_mutex_unlock
  rw [if_pos rfl]
  cases k
  simp only at h
  subst h
  rfl

/-- Under the lock the finder loop records nothing and finds what `find_loop` finds. -/
theorem find_loop_traced_held (m : Mem) (size : Nat) (k : Mutex) (h : k.held = true) :
    ∀ (fuel curr : Nat), find_loop_traced m size fuel curr k =
      (find_loop m size fuel curr).map (fun x => (x, k)) := by
  intro fuel
  induction fuel with
  | zero =>
    intro curr
    simp only [find_loop_traced, find_loop]
    split_ifs <;> rfl
  | succ fuel ih =>
    intro curr
    simp only [find_loop_traced, find_loop, guarded_held _ k h, ite_self]
    rw [ih]
    split_ifs <;> rfl

/-- Under the lock the unlink loop records nothing and does what `free_loop` does. -/
theorem free_loop_traced_held (k : Mutex) (h : k.held = true) :
    ∀ (fuel : Nat) (s : State) (tmp : Nat), free_loop_traced fuel s tmp k =
      (free_loop fuel s tmp).map (fun x => (x, k)) := by
  intro fuel
  induction fuel with
  | zero =>
    intro s tmp
    simp only [free_loop_traced, free_loop]
    split_ifs <;> rfl
  | succ fuel ih =>
    intro s tmp
    simp only [free_loop_traced, free_loop, guarded_held _ k h, ite_self]
    rw [ih]
    split_ifs <;> rfl

/-- Called with the lock free, `malloc` computes what the function `malloc` computes, makes
every guarded access while it holds the lock, and returns with the lock free. -/
theorem malloc_traced_eq (fuel size : Nat) (s : State) (k : Mutex) (h : k.held = false) :
    malloc_traced fuel size s k = (malloc fuel size s).map (fun r => (r.1, r.2, k)) := by
  have hl : (pthread_mutex_lock k).held = true := by rw [lock_free k h]
  have hu := unlock_lock k h
  unfold malloc_traced malloc get_free_block_traced get_free_block_from_linked_list
  by_cases h0 : size = 0
  · rw [if_pos h0, if_pos h0]
    rfl
  · rw [if_neg h0, if_neg h0]
    generalize pthread_mutex_lock k = k1 at hl hu ⊢
    simp only []
    rw [guarded_held _ k1 hl, find_loop_traced_held s.mem size k1 hl]
    cases find_loop s.mem size fuel s.head with
    | none => rfl
    | some header =>
      simp only [Option.map_some', guarded_held _ k1 hl, ite_self, hu]
      split_ifs <;> rfl

/-- Called with the lock free, `free` computes what the function `free` computes, makes
every guarded access while it holds the lock, and returns with the lock free. -/
theorem free_traced_eq (fuel block : Nat) (s : State) (k : Mutex) (h : k.held = false) :
    free_traced fuel block s k = (free fuel block s).map (fun x => (x, k)) := by
  have hl : (pthread_mutex_lock k).held = true := by rw [lock_free k h]
  have hu := unlock_lock k h
  unfold free_traced free
  by_cases h0 : block = NULL
  · rw [if_pos h0, if_pos h0]
    rfl
  · rw [if_neg h0, if_neg h0]
    generalize pthread_mutex_lock k = k1 at hl hu ⊢
    simp only [guarded_held _ k1 hl, hu, free_loop_traced_held k1 hl]
    by_cases hend : (block + hsize s.mem (header_of block)) % WORD = (sbrk 0 s).1
    · rw [if_pos hend, if_pos hend]
      by_cases hht : s.head = s.tail
      · rw [if_pos hht, if_pos hht]
        simp only [guarded_held _ k1 hl, hu]
        rfl
      · rw [if_neg hht, if_neg hht]
        cases free_loop fuel s s.head with
        | none => rfl
        | some s1 =>
          simp only [Option.map_some', guarded_held _ k1 hl, hu]
    · rw [if_neg hend, if_neg hend]
      rfl

/-- Called with the lock free, `calloc` computes what the function `calloc` computes, makes
no guarded access without the lock, and returns with the lock free. -/
theorem calloc_traced_eq (fuel num size : Nat) (s : State) (k : Mutex) (h : k.held = false) :
    calloc_traced fuel num size s k = (calloc fuel num size s).map (fun r => (r.1, r.2, k)) := by
  unfold calloc_traced calloc
  by_cases h0 : num = 0 ∨ size = 0
  · rw [if_pos h0, if_pos h0]
    rfl
  · rw [if_neg h0, if_neg h0]
    simp only [malloc_traced_eq fuel _ s k h]
    by_cases hc : size ≠ (num * size) % WORD / num
    · rw [if_pos hc, if_pos hc]
      rfl
    · rw [if_neg hc, if_neg hc]
      cases malloc fuel ((num * size) % WORD) s with
      | none => rfl
      | some r =>
        obtain ⟨block, s1⟩ := r
        simp only [Option.map_some']
        split_ifs <;> rfl

/-- Recording nothing more leaves the lock as it was. -/
theorem faults_append_nil (k : Mutex) : { k with faults := k.faults ++ [] } = k := by
  cases k
  simp

/-- Run without the lock, the copy loop of `realloc` computes what `copy_loop` computes and
records one read of `header->s.size` for every test of its condition. -/
theorem copy_loop_traced_free (dst src header : Nat) :
    ∀ (n : Nat) (m : Mem) (i : Nat) (k : Mutex), k.held = false →
    ∃ c, copy_loop_traced dst src header n m i k =
        (copy_loop dst src header n m i,
          { k with faults := k.faults ++ List.replicate c (Access.read_size header) }) ∧
      (0 < n → 0 < c) := by
  intro n
  induction n with
  | zero =>
    intro m i k _
    refine ⟨0, ?_, fun h => absurd h (Nat.lt_irrefl 0)⟩
    simp only [copy_loop_traced, copy_loop, List.replicate_zero, faults_append_nil]
  | succ n ih =>
    intro m i k hk
    simp only [copy_loop_traced, copy_loop, guarded_free _ k hk]
    by_cases hi : i < hsize m header
    · rw [if_pos hi, if_pos hi]
      obtain ⟨c, hc, _⟩ := ih (store m (dst + i) 1 (m (src + i))) (i + 1)
        { k with faults := k.faults ++ [Access.read_size header] } hk
      refine ⟨c + 1, ?_, fun _ => Nat.succ_pos c⟩
      rw [hc]
      simp only [List.append_assoc, List.singleton_append, List.replicate_succ]
    · rw [if_neg hi, if_neg hi]
      exact ⟨1, rfl, fun _ => Nat.one_pos⟩

/-- Called with the lock free, `realloc` computes what the function `realloc` computes and
returns with the lock free; the guarded accesses it makes without the lock are reads of the
`size` field of the header of its argument, `c` of them: none when it hands over to `malloc`
(null pointer or size 0), at least one otherwise. -/
theorem realloc_traced_eq (fuel block size : Nat) (s : State) (k : Mutex)
    (h : k.held = false) :
    ∃ c, realloc_traced fuel block size s k =
        (realloc fuel block size s).map (fun r => (r.1, r.2,
          { k with faults := k.faults ++ List.replicate c (Access.read_size (header_of block)) })) ∧
      (block = NULL ∨ size = 0 → c = 0) ∧ (block ≠ NULL → size ≠ 0 → 0 < c) := by
  unfold realloc_traced realloc
  by_cases h0 : block = NULL ∨ size = 0
  · rw [if_pos h0, if_pos h0]
    refine ⟨0, ?_, fun _ => rfl, fun hb hs => absurd h0 (fun h1 => h1.elim hb hs)⟩
    rw [malloc_traced_eq fuel size s k h]
    simp only [List.replicate_zero, faults_append_nil]
  · rw [if_neg h0, if_neg h0]
    simp only []
    have hk1 : (guarded (Access.read_size (header_of block)) k).held = false := by
      rw [guarded_free _ k h]
      exact h
    have hg : guarded (Access.read_size (header_of block)) k =
        { k with faults := k.faults ++ List.replicate 1 (Access.read_size (header_of block)) } :=
      guarded_free _ k h
    generalize guarded (Access.read_size (header_of block)) k = k1 at hk1 hg ⊢
    by_cases hbig : hsize s.mem (header_of block) ≥ size
    · rw [if_pos hbig, if_pos hbig]
      exact ⟨1, by rw [hg]; rfl, fun h1 => absurd h1 h0, fun _ _ => Nat.one_pos⟩
    · rw [if_neg hbig, if_neg hbig, malloc_traced_eq fuel size s k1 hk1]
      cases malloc fuel size s with
      | none => exact ⟨1, rfl, fun h1 => absurd h1 h0, fun _ _ => Nat.one_pos⟩
      | some r =>
        obtain ⟨q, s1⟩ := r
        simp only [Option.map_some']
        by_cases hq : q ≠ NULL
        · rw [if_pos hq, if_pos hq]
          obtain ⟨c, hc, _⟩ := copy_loop_traced_free q block (header_of block) WORD s1.mem 0 k1 hk1
          rw [hc]
          simp only []
          have hk2 : ∀ f, ({ held := k1.held, faults := f } : Mutex).held = false :=
            fun _ => hk1
          rw [free_traced_eq fuel block _ _ (hk2 _)]
          refine ⟨c + 1, ?_, fun h1 => absurd h1 h0, fun _ _ => Nat.succ_pos c⟩
          cases free fuel block
            { s1 with mem := copy_loop q block (header_of block) WORD s1.mem 0 } with
          | none => rfl
          | some s3 =>
            subst hg
            simp only [Option.map_some', List.append_assoc]
            rw [← List.replicate_add, Nat.add_comm 1 c]
        · rw [if_neg hq, if_neg hq]
          exact ⟨1, by rw [hg]; rfl, fun h1 => absurd h1 h0, fun _ _ => Nat.one_pos⟩

/-! ## The layout of reachable states -/

/-- The layout of reachable states: in every state reached from the empty ledger at break
`b0` by admissible calls whose total size `sizeof(header_t) + n` is a positive `intptr_t`
(below `2 ^ 63`), the blocks of the ledger tile the heap: every recorded size is above zero,
the first header is at `b0`, every header is followed at once by the header of its
successor, the payload of `tail` ends at the break, and the break is `b0` when the ledger is
empty. So a block whose payload ends at the break is the tail. -/
theorem reachable_blocks_tile_heap (m0 : Mem) (b0 limit : Nat) (hb : 0 < b0)
    (hbl : b0 ≤ limit) (hlim : limit < WORD / 2) (s : State)
    (hr : Reachable m0 b0 limit s) :
    ∃ l, Chain s.mem s.head l ∧ s.tail = l.getLastD NULL ∧
      (∀ h ∈ l, 0 < hsize s.mem h) ∧
      (l = [] → s.brk = b0) ∧
      (l ≠ [] → s.head = b0 ∧ s.tail + HEADER_SIZE + hsize s.mem s.tail = s.brk) ∧
      l.Chain' (fun h h' => h' = h + HEADER_SIZE + hsize s.mem h) ∧
      (∀ h ∈ l, h + HEADER_SIZE + hsize s.mem h = s.brk → h = s.tail) := by
  obtain ⟨l, hinv⟩ := reachable_inv m0 b0 limit hb hbl hlim s hr
  refine ⟨l, hinv.chain, hinv.tail_last, fun h hh => (hinv.tiles.bounds h hh).2.1, ?_, ?_,
    hinv.tiles.successors, fun h hh hend => (hinv.heap_end_is_tail hh hend).1.symm⟩
  · intro hl
    subst hl
    exact (show b0 = s.brk from hinv.tiles).symm
  · intro hl
    rcases List.eq_nil_or_concat l with hnil | ⟨pre, t, hpt⟩
    · exact absurd hnil hl
    · rw [List.concat_eq_append] at hpt
      subst hpt
      have htail : s.tail = t := by rw [hinv.tail_last, List.getLastD_concat]
      refine ⟨?_, by rw [htail]; exact hinv.tiles.split_last.2.2⟩
      have hc := hinv.chain
      have ht := hinv.tiles
      cases pre with
      | nil => rw [hc.1]; exact ht.1
      | cons x xs => rw [hc.1]; exact ht.1

/-- An instance of the layout of reachable states: the state after four calls, with blocks of 64 and 128 bytes at 4096 and
4184 and the break at 4336. -/
theorem reachable_blocks_tile_heap_witness :
    Reachable zero_mem 4096 (2 ^ 40) reached_state ∧ ledger 3 reached_state = [4096, 4184] ∧
    ∃ l, Chain reached_state.mem reached_state.head l ∧ reached_state.tail = l.getLastD NULL ∧
      (∀ h ∈ l, 0 < hsize reached_state.mem h) ∧
      (l = [] → reached_state.brk = 4096) ∧
      (l ≠ [] → reached_state.head = 4096 ∧
        reached_state.tail + HEADER_SIZE + hsize reached_state.mem reached_state.tail =
          reached_state.brk) ∧
      l.Chain' (fun h h' => h' = h + HEADER_SIZE + hsize reached_state.mem h) ∧
      (∀ h ∈ l, h + HEADER_SIZE + hsize reached_state.mem h = reached_state.brk →
        h = reached_state.tail) :=
  ⟨run_bounded_reachable zero_mem 4096 (2 ^ 40) 4
      [Op.allocate 64, Op.allocate 128, Op.release 4120, Op.zero_allocate 4 8] _ _
      Reachable.init (by rfl), by decide,
    reachable_blocks_tile_heap zero_mem 4096 (2 ^ 40) (by decide) (by decide) (by decide)
      reached_state
      (run_bounded_reachable zero_mem 4096 (2 ^ 40) 4
      [Op.allocate 64, Op.allocate 128, Op.release 4120, Op.zero_allocate 4 8] _ _
      Reachable.init (by rfl))⟩

/-! ## The claims -/

/-- C1 (the code breaks it): from the empty ledger at break 4096, `malloc (2 ^ 64 - 1)`
computes `total_size = 23` by wrap-around, the heap grows by 23 bytes only, and the call
still returns the non-null pointer 4120: the region of `2 ^ 64 - 1` bytes at the returned
pointer does not end at or before the break 4119; even the header recorded for it, which
claims that size, is not inside the heap. -/
theorem malloc_total_size_wraps :
    ∃ p s', malloc 0 (2 ^ 64 - 1) (init_state zero_mem 4096 (2 ^ 40)) = some (p, s') ∧
      p = 4120 ∧ p ≠ NULL ∧ s'.brk = 4119 ∧ ¬ (p + (2 ^ 64 - 1) ≤ s'.brk) ∧
      hsize s'.mem (header_of p) = 2 ^ 64 - 1 :=
  ⟨_, _, rfl, rfl, by decide, by decide, by decide, by decide⟩

/-- C2 (the code breaks it): three admissible calls from the empty ledger at break 4096,
`malloc 100`, `malloc (2 ^ 64 - 24)` and `malloc (2 ^ 64 - 24)`, reach a state whose chain is
cyclic. In the last two calls `total_size` wraps to 0, `sbrk 0` returns the break 4220
without moving it, and the same address is linked after itself: `tail` is 4220, the `next`
link of `tail` is 4220 and not null, and the chain 4096, 4220, 4220, ... is not strictly
ascending. -/
theorem ledger_cycle_after_wrapped_requests :
    ∃ s, run 3 [Op.allocate 100, Op.allocate (2 ^ 64 - 24), Op.allocate (2 ^ 64 - 24)]
        (init_state zero_mem 4096 (2 ^ 40)) = some s ∧
      s.head = 4096 ∧ s.tail = 4220 ∧ hnext s.mem s.head = 4220 ∧
      hnext s.mem s.tail = 4220 ∧ hnext s.mem s.tail ≠ NULL ∧
      ¬ (s.tail < hnext s.mem s.tail) ∧ ledger 5 s = [4096, 4220, 4220, 4220, 4220] :=
  ⟨_, rfl, by decide, by decide, by decide, by decide, by decide, by decide, by decide⟩

/-- C4: on every ledger (the chain `l` that starts at `head`, possibly empty) and for every
requested size, `get_free_block_from_linked_list` returns a result `r`; `r` is null exactly
when no header of the ledger is both free and large enough; otherwise `r` is the first
header in ledger order that is free and large enough. The function only reads: the embedded
function returns the pointer alone because the C function performs no write. -/
theorem get_free_block_first_fit (fuel : Nat) (s : State) (size : Nat) (l : List Nat)
    (hc : Chain s.mem s.head l) (hf : l.length ≤ fuel) :
    ∃ r, get_free_block_from_linked_list fuel s size = some r ∧
      (r = NULL ↔ ∀ h ∈ l, ¬ fits s.mem size h) ∧
      (r ≠ NULL → ∃ pre post, l = pre ++ r :: post ∧ fits s.mem size r ∧
        ∀ h ∈ pre, ¬ fits s.mem size h) := by
  unfold get_free_block_from_linked_list
  rcases find_loop_chain s.mem size l fuel s.head hc hf with
    ⟨hr, hall⟩ | ⟨pre, h, post, hl, hr, hfh, hpre⟩
  · exact ⟨NULL, hr, ⟨fun _ => hall, fun _ => rfl⟩, fun hne => absurd rfl hne⟩
  · have hmem : h ∈ l := by rw [hl]; simp
    have hne : h ≠ NULL := hc.links_ne_null h hmem
    refine ⟨h, hr, ⟨fun h0 => absurd h0 hne, fun hall => absurd hfh (hall h hmem)⟩, ?_⟩
    intro _
    exact ⟨pre, post, hl, hfh, hpre⟩

/-- Witness of C4 on the example ledger, for a request of 32 bytes. -/
theorem get_free_block_first_fit_witness :
    Chain example_state.mem example_state.head [4096, 4136, 4224] ∧
    ∃ r, get_free_block_from_linked_list 3 example_state 32 = some r ∧
      (r = NULL ↔ ∀ h ∈ [4096, 4136, 4224], ¬ fits example_state.mem 32 h) ∧
      (r ≠ NULL → ∃ pre post, [4096, 4136, 4224] = pre ++ r :: post ∧
        fits example_state.mem 32 r ∧ ∀ h ∈ pre, ¬ fits example_state.mem 32 h) :=
  ⟨by decide, get_free_block_first_fit 3 example_state 32 [4096, 4136, 4224] (by decide)
    (by decide)⟩

/-- C5: for `n > 0` and a well-formed ledger whose first free block of size at least `n` is
`h`, `malloc n` returns `h + sizeof(header_t)` and changes only the `is_free` flag of `h`,
which becomes 0: `head`, `tail`, the break and every byte of memory outside that flag are
unchanged, so every size (that of `h` included, it is not shrunk to `n`), every `next` link
and the flag of every other header keep their values, and the ledger is the same list. -/
theorem malloc_reuses_first_fit (fuel n : Nat) (s : State) (l pre post : List Nat) (h : Nat)
    (hwf : WF s l) (hf : l.length ≤ fuel) (hn : 0 < n) (hl : l = pre ++ h :: post)
    (hfit : fits s.mem n h) (hpre : ∀ h' ∈ pre, ¬ fits s.mem n h') :
    ∃ s', malloc fuel n s = some (h + HEADER_SIZE, s') ∧
      s'.head = s.head ∧ s'.tail = s.tail ∧ s'.brk = s.brk ∧ s'.limit = s.limit ∧
      hfree s'.mem h = 0 ∧ hsize s'.mem h = hsize s.mem h ∧
      (∀ x, x < h + OFF_IS_FREE ∨ h + OFF_IS_FREE + UNSIGNED_BYTES ≤ x → s'.mem x = s.mem x) ∧
      (∀ h' ∈ l, hsize s'.mem h' = hsize s.mem h' ∧ hnext s'.mem h' = hnext s.mem h' ∧
        (h' ≠ h → hfree s'.mem h' = hfree s.mem h')) ∧
      WF s' l := by
  have hmem : h ∈ l := by rw [hl]; simp
  refine ⟨{ s with mem := set_free s.mem h 0 },
    malloc_reuse_eq fuel n s l pre post h hwf hf hn hl hfit hpre,
    rfl, rfl, rfl, rfl, ?_, ?_, ?_, ?_, hwf.set_free hmem 0⟩
  · show hfree (set_free s.mem h 0) h = 0
    rw [hfree_set_free]
    rfl
  · exact hsize_set_free s.mem h h 0 (Or.inl rfl)
  · intro x hx
    exact set_free_outside s.mem h 0 x hx
  · intro h' hh'
    refine ⟨hsize_set_free s.mem h h' 0 (hwf.eq_or_sep hmem hh'),
      hnext_set_free s.mem h h' 0 (hwf.eq_or_sep hmem hh'), ?_⟩
    intro hne'
    exact hfree_set_free_other s.mem h h' 0 (hwf.sep_of_ne hmem hh' (Ne.symm hne'))

/-- Witness of C5: a request of 8 bytes on the example ledger reuses the free block at 4096,
whose recorded size 16 is kept. -/
theorem malloc_reuses_first_fit_witness :
    WF example_state [4096, 4136, 4224] ∧ fits example_state.mem 8 4096 ∧
    ∃ s', malloc 3 8 example_state = some (4096 + HEADER_SIZE, s') ∧
      s'.head = example_state.head ∧ s'.tail = example_state.tail ∧
      s'.brk = example_state.brk ∧ s'.limit = example_state.limit ∧
      hfree s'.mem 4096 = 0 ∧ hsize s'.mem 4096 = hsize example_state.mem 4096 ∧
      (∀ x, x < 4096 + OFF_IS_FREE ∨ 4096 + OFF_IS_FREE + UNSIGNED_BYTES ≤ x →
        s'.mem x = example_state.mem x) ∧
      (∀ h' ∈ [4096, 4136, 4224], hsize s'.mem h' = hsize example_state.mem h' ∧
        hnext s'.mem h' = hnext example_state.mem h' ∧
        (h' ≠ 4096 → hfree s'.mem h' = hfree example_state.mem h')) ∧
      WF s' [4096, 4136, 4224] :=
  ⟨⟨by decide, by decide, by decide, by decide, by decide, by decide, by decide⟩, by decide,
    malloc_reuses_first_fit 3 8 example_state [4096, 4136, 4224] [] [4136, 4224] 4096
      ⟨by decide, by decide, by decide, by decide, by decide, by decide, by decide⟩ (by decide) (by decide) rfl (by decide) (by decide)⟩

/-- C6: for `n > 0` with `sizeof(header_t) + n` a positive `intptr_t`, a well-formed ledger `l`
with no free block of size at least `n`, and an operating system that grants the extension,
`malloc n` raises the break by exactly `sizeof(header_t) + n`, returns the old break plus
`sizeof(header_t)`, and the new ledger is `l` with one header appended, at the old break,
with `size = n`, `is_free = 0`, `next = NULL`; `head` is that header when `l` was empty and is
unchanged otherwise, `tail` is that header, and every header of `l` keeps `size` and
`is_free`. -/
theorem malloc_extends_heap (fuel n : Nat) (s : State) (l : List Nat)
    (hwf : WF s l) (hf : l.length ≤ fuel) (hn : 0 < n) (hrep : HEADER_SIZE + n < WORD / 2)
    (hno : ∀ h ∈ l, ¬ fits s.mem n h) (hos : s.brk + (HEADER_SIZE + n) ≤ s.limit) :
    ∃ s', malloc fuel n s = some (s.brk + HEADER_SIZE, s') ∧
      s'.brk = s.brk + (HEADER_SIZE + n) ∧
      Chain s'.mem s'.head (l ++ [s.brk]) ∧
      s'.head = (if l = [] then s.brk else s.head) ∧ s'.tail = s.brk ∧
      hsize s'.mem s.brk = n ∧ hfree s'.mem s.brk = 0 ∧ hnext s'.mem s.brk = NULL ∧
      (∀ h ∈ l, hsize s'.mem h = hsize s.mem h ∧ hfree s'.mem h = hfree s.mem h) ∧
      WF s' (l ++ [s.brk]) :=
  malloc_extend fuel n s l hwf hf hn hrep hno hos

/-- Witness of C6: a request of 100 bytes on the example ledger, in which nothing fits,
appends a header at the break 4312. -/
theorem malloc_extends_heap_witness :
    WF example_state [4096, 4136, 4224] ∧
    (∀ h ∈ [4096, 4136, 4224], ¬ fits example_state.mem 100 h) ∧
    ∃ s', malloc 3 100 example_state = some (example_state.brk + HEADER_SIZE, s') ∧
      s'.brk = example_state.brk + (HEADER_SIZE + 100) ∧
      Chain s'.mem s'.head ([4096, 4136, 4224] ++ [example_state.brk]) ∧
      s'.head = (if [4096, 4136, 4224] = [] then example_state.brk else example_state.head) ∧
      s'.tail = example_state.brk ∧
      hsize s'.mem example_state.brk = 100 ∧ hfree s'.mem example_state.brk = 0 ∧
      hnext s'.mem example_state.brk = NULL ∧
      (∀ h ∈ [4096, 4136, 4224], hsize s'.mem h = hsize example_state.mem h ∧
        hfree s'.mem h = hfree example_state.mem h) ∧
      WF s' ([4096, 4136, 4224] ++ [example_state.brk]) :=
  ⟨⟨by decide, by decide, by decide, by decide, by decide, by decide, by decide⟩, by decide,
    malloc_extends_heap 3 100 example_state [4096, 4136, 4224]
      ⟨by decide, by decide, by decide, by decide, by decide, by decide, by decide⟩ (by decide) (by decide) (by decide) (by decide) (by decide)⟩

/-- C7 (the code breaks it): after `malloc 100` and `malloc (2 ^ 64 - 24)` from the empty
ledger at break 4096, the pointer 4120 is in use and its payload ends at the break 4220, yet
its header 4096 is `head` and not `tail`: the second call wrapped `total_size` to 0 and put
its header at the break without moving it. `free 4120` then unlinks the other block (the
`tail`, 4220), keeps the header of 4120 in the ledger, still marked in use, and lowers the
break to 4096. -/
theorem free_at_heap_end_unlinks_other_block :
    ∃ s s', run 2 [Op.allocate 100, Op.allocate (2 ^ 64 - 24)]
        (init_state zero_mem 4096 (2 ^ 40)) = some s ∧
      in_use 2 s 4120 ∧ 4120 + hsize s.mem (header_of 4120) = s.brk ∧
      header_of 4120 = 4096 ∧ s.tail = 4220 ∧ header_of 4120 ≠ s.tail ∧
      ledger 2 s = [4096, 4220] ∧ hfree s.mem 4220 = 0 ∧
      free 2 4120 s = some s' ∧
      ledger 2 s' = [4096] ∧ hfree s'.mem 4096 = 0 ∧ s'.tail = 4096 ∧ s'.brk = 4096 :=
  ⟨_, _, rfl, by decide, by decide, by decide, by decide, by decide, by decide, by decide,
    rfl, by decide, by decide, by decide, by decide⟩

/-- C8: for a block `h` of a well-formed ledger that is in use and whose payload does not
end at the break, `free` of its user pointer returns and changes exactly the `is_free` flag of
`h`, which becomes 1: the break, `head`, `tail` and every byte outside that flag are
unchanged, so every `size`, every `next` link, the flag of every other header and the list
of ledger entries stay as they were, whatever the flags of the neighbouring blocks. -/
theorem free_interior_flags_only (fuel : Nat) (s : State) (l : List Nat) (h : Nat)
    (hwf : WF s l) (hh : h ∈ l) (_huse : hfree s.mem h = 0)
    (hint : h + HEADER_SIZE + hsize s.mem h ≠ s.brk) :
    ∃ s', free fuel (h + HEADER_SIZE) s = some s' ∧
      s'.brk = s.brk ∧ s'.head = s.head ∧ s'.tail = s.tail ∧ s'.limit = s.limit ∧
      hfree s'.mem h = 1 ∧
      (∀ x, x < h + OFF_IS_FREE ∨ h + OFF_IS_FREE + UNSIGNED_BYTES ≤ x → s'.mem x = s.mem x) ∧
      (∀ h' ∈ l, hsize s'.mem h' = hsize s.mem h' ∧ hnext s'.mem h' = hnext s.mem h' ∧
        (h' ≠ h → hfree s'.mem h' = hfree s.mem h')) ∧
      WF s' l := by
  refine ⟨_, free_interior_eq fuel s l h hwf hh hint, rfl, rfl, rfl, rfl, ?_, ?_, ?_,
    hwf.set_free hh 1⟩
  · show hfree (set_free s.mem h 1) h = 1
    rw [hfree_set_free]
    rfl
  · intro x hx
    exact set_free_outside s.mem h 1 x hx
  · intro h' hh'
    refine ⟨hsize_set_free s.mem h h' 1 (hwf.eq_or_sep hh hh'),
      hnext_set_free s.mem h h' 1 (hwf.eq_or_sep hh hh'), ?_⟩
    intro hne'
    exact hfree_set_free_other s.mem h h' 1 (hwf.sep_of_ne hh hh' (Ne.symm hne'))

/-- Witness of C8: releasing the in-use block at 4136 of the example ledger, whose
predecessor is free. -/
theorem free_interior_flags_only_witness :
    WF example_state [4096, 4136, 4224] ∧ hfree example_state.mem 4136 = 0 ∧
    4136 + HEADER_SIZE + hsize example_state.mem 4136 ≠ example_state.brk ∧
    ∃ s', free 3 (4136 + HEADER_SIZE) example_state = some s' ∧
      s'.brk = example_state.brk ∧ s'.head = example_state.head ∧
      s'.tail = example_state.tail ∧ s'.limit = example_state.limit ∧
      hfree s'.mem 4136 = 1 ∧
      (∀ x, x < 4136 + OFF_IS_FREE ∨ 4136 + OFF_IS_FREE + UNSIGNED_BYTES ≤ x →
        s'.mem x = example_state.mem x) ∧
      (∀ h' ∈ [4096, 4136, 4224], hsize s'.mem h' = hsize example_state.mem h' ∧
        hnext s'.mem h' = hnext example_state.mem h' ∧
        (h' ≠ 4136 → hfree s'.mem h' = hfree example_state.mem h')) ∧
      WF s' [4096, 4136, 4224] :=
  ⟨⟨by decide, by decide, by decide, by decide, by decide, by decide, by decide⟩, by decide, by decide,
    free_interior_flags_only 3 example_state [4096, 4136, 4224] 4136
      ⟨by decide, by decide, by decide, by decide, by decide, by decide, by decide⟩ (by decide) (by decide) (by decide)⟩

/-- C9: from the empty ledger with break `b`, for every `n > 0` of `size_t`, `malloc n`
returns, and when its result `p` is not null, `free p` returns and leaves the break equal
to `b` and the ledger empty (`head = tail = NULL`). The break `b` is within what the
operating system grants, and that limit is in the lower half of the address space. -/
theorem release_allocate_round_trip (fuel n : Nat) (m : Mem) (b limit : Nat)
    (hbl : b ≤ limit) (hlim : limit < WORD / 2) (hn : 0 < n) (hnW : n < WORD) :
    ∃ p s1, malloc fuel n (init_state m b limit) = some (p, s1) ∧
      (p ≠ NULL → ∃ s2, free fuel p s1 = some s2 ∧
        s2.brk = b ∧ s2.head = NULL ∧ s2.tail = NULL) := by
  have hfind : get_free_block_from_linked_list fuel (init_state m b limit) n = some NULL :=
    find_loop_null m n fuel
  by_cases hos : (sbrk (to_intptr ((HEADER_SIZE + n) % WORD)) (init_state m b limit)).1 = SBRK_FAILED
  · exact ⟨NULL, _, malloc_denied fuel n _ (by omega) hfind hos, fun h => absurd rfl h⟩
  · have hmal := malloc_fresh fuel n _ (by omega) hfind hos
    have hp : (b + HEADER_SIZE) % WORD = b + HEADER_SIZE :=
      Nat.mod_eq_of_lt (by rw [WORD_eq, HEADER_SIZE_eq] at *; omega)
    have hpW : b + HEADER_SIZE < WORD := by rw [WORD_eq, HEADER_SIZE_eq] at *; omega
    have hsz : hsize (set_next (set_free (set_size m b n) b 0) b NULL) b = n := by
      rw [hsize_set_next _ _ _ _ (Or.inl rfl), hsize_set_free _ _ _ _ (Or.inl rfl),
        hsize_set_size, Nat.mod_eq_of_lt hnW]
    have hT : (HEADER_SIZE + n) % WORD < WORD := Nat.mod_lt _ (by rw [WORD_eq]; omega)
    -- the three ways the heap primitive can succeed
    by_cases h0 : (HEADER_SIZE + n) % WORD = 0
    · rw [h0, sbrk_zero] at hmal
      simp only [init_state, ne_eq, not_true_eq_false, if_false, if_true, hp] at hmal
      refine ⟨_, _, hmal, fun _ => ?_⟩
      apply free_sole_block fuel n b limit b _ hpW hsz
      · rw [WORD_eq, HEADER_SIZE_eq] at *; omega
      · have hU : (WORD - HEADER_SIZE + (WORD - n)) % WORD = 0 := by
          rw [WORD_eq, HEADER_SIZE_eq] at *; omega
        rw [hU, sbrk_zero]
    · by_cases hsmall : (HEADER_SIZE + n) % WORD < WORD / 2
      · by_cases hroom : b + (HEADER_SIZE + n) % WORD ≤ limit
        · rw [sbrk_grow (init_state m b limit) _ (by omega) hsmall hroom] at hmal
          simp only [init_state, ne_eq, not_true_eq_false, if_false, if_true, hp] at hmal
          refine ⟨_, _, hmal, fun _ => ?_⟩
          apply free_sole_block fuel n b limit _ _ hpW hsz
          · rw [WORD_eq, HEADER_SIZE_eq] at *; omega
          · have hU : (WORD - HEADER_SIZE + (WORD - n)) % WORD = WORD - (HEADER_SIZE + n) % WORD := by
              rw [WORD_eq, HEADER_SIZE_eq] at *; omega
            rw [hU, sbrk_shrink _ _ (by rw [WORD_eq] at *; omega) (by omega)
              (by show WORD - (WORD - (HEADER_SIZE + n) % WORD) ≤ b + (HEADER_SIZE + n) % WORD; omega)]
            show b + (HEADER_SIZE + n) % WORD - (WORD - (WORD - (HEADER_SIZE + n) % WORD)) = b
            omega
        · exact absurd (by rw [sbrk_grow_denied (init_state m b limit) _ (by omega) hsmall hroom])
            hos
      · by_cases hroom : WORD - (HEADER_SIZE + n) % WORD ≤ b
        · rw [sbrk_shrink (init_state m b limit) _ (by omega) hT hroom] at hmal
          simp only [init_state, ne_eq, not_true_eq_false, if_false, if_true, hp] at hmal
          refine ⟨_, _, hmal, fun _ => ?_⟩
          apply free_sole_block fuel n b limit _ _ hpW hsz
          · rw [WORD_eq, HEADER_SIZE_eq] at *; omega
          · have hU : (WORD - HEADER_SIZE + (WORD - n)) % WORD = WORD - (HEADER_SIZE + n) % WORD := by
              rw [WORD_eq, HEADER_SIZE_eq] at *; omega
            rw [hU, sbrk_grow _ _ (by omega) (by rw [WORD_eq] at *; omega)
              (by show b - (WORD - (HEADER_SIZE + n) % WORD) + (WORD - (HEADER_SIZE + n) % WORD) ≤ limit; omega)]
            show b - (WORD - (HEADER_SIZE + n) % WORD) + (WORD - (HEADER_SIZE + n) % WORD) = b
            omega
        · exact absurd (by rw [sbrk_shrink_failed (init_state m b limit) _ (by omega) hT hroom])
            hos

/-- Witness of C9: a block of 64 bytes from the empty ledger at break 4096; the call
succeeds with the pointer 4120. -/
theorem release_allocate_round_trip_witness :
    (malloc 0 64 (init_state zero_mem 4096 (2 ^ 40))).map Prod.fst = some 4120 ∧
    ∃ p s1, malloc 0 64 (init_state zero_mem 4096 (2 ^ 40)) = some (p, s1) ∧
      (p ≠ NULL → ∃ s2, free 0 p s1 = some s2 ∧
        s2.brk = 4096 ∧ s2.head = NULL ∧ s2.tail = NULL) :=
  ⟨by decide, release_allocate_round_trip 0 64 zero_mem 4096 (2 ^ 40) (by decide) (by decide)
    (by decide) (by decide)⟩

/-- C10 as stated fails: after three allocations of 64 bytes and the release of the first,
the second block (pointer 4208) is in use, is not at the heap end and has recorded size 64,
but `free 4208` followed by `malloc 32` returns 4120, the earlier free block. -/
theorem reuse_returns_earlier_free_block :
    ∃ s, run 3 [Op.allocate 64, Op.allocate 64, Op.allocate 64, Op.release 4120]
        (init_state zero_mem 4096 (2 ^ 40)) = some s ∧
      in_use 3 s 4208 ∧ 4208 + hsize s.mem (header_of 4208) ≠ s.brk ∧
      hsize s.mem (header_of 4208) = 64 ∧
      ((free 3 4208 s).bind (fun s1 => malloc 3 32 s1)).map Prod.fst = some 4120 ∧
      (4120 : Nat) ≠ 4208 :=
  ⟨_, rfl, by decide, by decide, by decide, by decide, by decide⟩

/-- C10, amended: in a well-formed ledger, for a block `h` that is in use, is not at the heap
end and has recorded size `c`, and for `0 < k ≤ c` such that no block before `h` in the
ledger is free with size at least `k`, `free` of its pointer followed by `malloc k` returns
that same pointer and leaves the break where it was. -/
theorem release_then_allocate_reuses_block (fuel k : Nat) (s : State) (l pre post : List Nat)
    (h : Nat) (hwf : WF s l) (hf : l.length ≤ fuel) (hl : l = pre ++ h :: post)
    (_huse : hfree s.mem h = 0) (hint : h + HEADER_SIZE + hsize s.mem h ≠ s.brk)
    (hk : 0 < k) (hkc : k ≤ hsize s.mem h) (hpre : ∀ h' ∈ pre, ¬ fits s.mem k h') :
    ∃ s1 s2, free fuel (h + HEADER_SIZE) s = some s1 ∧
      malloc fuel k s1 = some (h + HEADER_SIZE, s2) ∧ s2.brk = s.brk := by
  have hmem : h ∈ l := by rw [hl]; simp
  have hwf1 : WF { s with mem := set_free s.mem h 1 } l := hwf.set_free hmem 1
  have hfit : fits (set_free s.mem h 1) k h := by
    constructor
    · rw [hfree_set_free]
      decide
    · rw [hsize_set_free s.mem h h 1 (Or.inl rfl)]
      exact hkc
  have hpre1 : ∀ h' ∈ pre, ¬ fits (set_free s.mem h 1) k h' := by
    intro h' hh' hfit'
    have hmem' : h' ∈ l := by rw [hl]; exact List.mem_append_left _ hh'
    have hne : h ≠ h' := by
      intro he
      have hnd := hwf.nodup
      rw [hl] at hnd
      have := (List.nodup_append.mp hnd).2.2
      exact this (he ▸ hh') (List.mem_cons_self _ _)
    have hs := hwf.sep_of_ne hmem hmem' hne
    apply hpre h' hh'
    constructor
    · rw [← hfree_set_free_other s.mem h h' 1 hs]
      exact hfit'.1
    · rw [← hsize_set_free s.mem h h' 1 (Or.inr hs)]
      exact hfit'.2
  exact ⟨_, _, free_interior_eq fuel s l h hwf hmem hint,
    malloc_reuse_eq fuel k _ l pre post h hwf1 hf hk hl hfit hpre1, rfl⟩

/-- Witness of the amended C10: releasing the block at 4136 of the example ledger and asking
for 32 bytes, which the free block of 16 bytes before it cannot serve. -/
theorem release_then_allocate_reuses_block_witness :
    WF example_state [4096, 4136, 4224] ∧ hfree example_state.mem 4136 = 0 ∧
    32 ≤ hsize example_state.mem 4136 ∧ (∀ h' ∈ [4096], ¬ fits example_state.mem 32 h') ∧
    ∃ s1 s2, free 3 (4136 + HEADER_SIZE) example_state = some s1 ∧
      malloc 3 32 s1 = some (4136 + HEADER_SIZE, s2) ∧ s2.brk = example_state.brk :=
  ⟨⟨by decide, by decide, by decide, by decide, by decide, by decide, by decide⟩, by decide, by decide, by decide,
    release_then_allocate_reuses_block 3 32 example_state [4096, 4136, 4224] [4096] [4224] 4136
      ⟨by decide, by decide, by decide, by decide, by decide, by decide, by decide⟩ (by decide) rfl (by decide) (by decide) (by decide) (by decide) (by decide)⟩

/-- C11: `calloc num size` fails fast exactly when `num = 0`, or `size = 0`, or the exact
product `num * size` does not fit in `size_t`. The test the code makes (the wrapped product
divided by `num` differs from `size`) is true exactly when the product wrapped; on the fast
path the result is null with the state unchanged, for every fuel and every state, so `malloc`
is not called; otherwise the result is computed from `malloc (num * size)`, called with the
exact product. -/
theorem calloc_fails_fast_iff (fuel num size : Nat) (s : State) :
    ((num = 0 ∨ size = 0 ∨ size ≠ (num * size) % WORD / num) ↔
      (num = 0 ∨ size = 0 ∨ WORD ≤ num * size)) ∧
    ((num = 0 ∨ size = 0 ∨ WORD ≤ num * size) → calloc fuel num size s = some (NULL, s)) ∧
    (¬ (num = 0 ∨ size = 0 ∨ WORD ≤ num * size) →
      calloc fuel num size s =
        match malloc fuel (num * size) s with
        | none => none
        | some (block, s1) =>
          if block = NULL then some (NULL, s1)
          else some (block, { s1 with mem := zero_loop s1.mem block (num * size) })) := by
  have hchk : (num = 0 ∨ size = 0 ∨ size ≠ (num * size) % WORD / num) ↔
      (num = 0 ∨ size = 0 ∨ WORD ≤ num * size) := by
    by_cases h0 : num = 0
    · simp [h0]
    · have := calloc_check num size (Nat.pos_of_ne_zero h0)
      constructor
      · rintro (h | h | h)
        · exact Or.inl h
        · exact Or.inr (Or.inl h)
        · exact Or.inr (Or.inr (Nat.le_of_not_lt (fun hlt => h (this.mpr hlt))))
      · rintro (h | h | h)
        · exact Or.inl h
        · exact Or.inr (Or.inl h)
        · exact Or.inr (Or.inr (fun he => absurd (this.mp he) (Nat.not_lt.mpr h)))
  refine ⟨hchk, ?_, ?_⟩
  · intro h
    unfold calloc
    by_cases h0 : num = 0 ∨ size = 0
    · rw [if_pos h0]
    · rw [if_neg h0]
      have hne : size ≠ (num * size) % WORD / num := by
        rcases hchk.mpr h with h1 | h1 | h1
        · exact absurd (Or.inl h1) h0
        · exact absurd (Or.inr h1) h0
        · exact h1
      simp only [hne, ne_eq, not_false_eq_true, if_true]
  · intro h
    have h0 : ¬ (num = 0 ∨ size = 0) := fun h1 => h (h1.elim Or.inl (fun h2 => Or.inr (Or.inl h2)))
    have hlt : num * size < WORD := Nat.lt_of_not_le (fun h1 => h (Or.inr (Or.inr h1)))
    have heq : ¬ size ≠ (num * size) % WORD / num := fun h1 => h (hchk.mp (Or.inr (Or.inr h1)))
    rw [Nat.mod_eq_of_lt hlt] at heq
    unfold calloc
    rw [if_neg h0]
    simp only [Nat.mod_eq_of_lt hlt]
    rw [if_neg heq]

/-- C12 (the code breaks it): `malloc 40` and `malloc (2 ^ 64 - 48)` from the empty ledger at
break 4096 reach a state whose second header, at 4160, lies above the break 4136 (the second
total wrapped to the delta -24). There `malloc 24` returns 4160 with the ledger 4096, 4160,
4136, and `calloc 1 24` returns the same pointer and the same break, but the pointer is the
address of that second header and the zeroing loop overwrites it: its size and `next` link
become 0 and the ledger after `calloc` is 4096, 4160. -/
theorem calloc_zeroes_a_ledger_header :
    ∃ s s', run 3 [Op.allocate 40, Op.allocate (2 ^ 64 - 48)]
        (init_state zero_mem 4096 (2 ^ 40)) = some s ∧
      malloc 3 24 s = some (4160, s') ∧
      calloc 3 1 24 s = some (4160, { s' with mem := zero_loop s'.mem 4160 24 }) ∧
      s'.brk = 4184 ∧ ledger 4 s' = [4096, 4160, 4136] ∧
      hsize s'.mem 4160 = 2 ^ 64 - 48 ∧ hnext s'.mem 4160 = 4136 ∧
      ledger 4 { s' with mem := zero_loop s'.mem 4160 24 } = [4096, 4160] ∧
      hsize (zero_loop s'.mem 4160 24) 4160 = 0 ∧ hnext (zero_loop s'.mem 4160 24) 4160 = 0 := by
  refine ⟨_, _, rfl, rfl, rfl, by decide, by decide, by decide, by decide, ?_,
    hsize_zero_loop _ 4160 24 (by decide), hnext_zero_loop _ 4160 24 (by decide)⟩
  apply ledger_from_chain _ [4096, 4160] 4 _ _ (by decide)
  refine ⟨by decide, by decide, ?_, by decide, ?_⟩
  · rw [hnext_zero_loop_other _ 4160 24 4096 (Or.inl (by decide))]
    decide
  · exact hnext_zero_loop _ 4160 24 (by decide)

/-- C13 (the code breaks it): after `malloc 8` from the empty ledger at break 4096 the
pointer 4120 is in use with recorded size 8. In `realloc 4120 (2 ^ 64 - 24)` the inner
`malloc` wraps `total_size` to 0, puts its header at the unmoved break 4128 and returns 4152;
`free 4120` then finds the payload of 4120 ending at the break and unlinks the tail, which is
the new block. The call returns 4152, whose header is not in the ledger, while the header
of 4120 is still in the ledger and not marked free. -/
theorem realloc_unlinks_the_new_block :
    ∃ s r, run 1 [Op.allocate 8] (init_state zero_mem 4096 (2 ^ 40)) = some s ∧
      in_use 1 s 4120 ∧ hsize s.mem (header_of 4120) = 8 ∧
      (malloc 2 (2 ^ 64 - 24) s).map Prod.fst = some 4152 ∧
      realloc 2 4120 (2 ^ 64 - 24) s = some r ∧ r.1 = 4152 ∧
      ledger 3 r.2 = [4096] ∧ header_of 4120 ∈ ledger 3 r.2 ∧
      hfree r.2.mem (header_of 4120) = 0 ∧ header_of r.1 ∉ ledger 3 r.2 ∧ r.2.brk = 4096 :=
  ⟨_, _, rfl, by decide, by decide, by decide, rfl, by decide, by decide, by decide,
    by decide, by decide, by decide⟩

/-- C14: for a non-null pointer `p` whose header records the size `c` and for `0 < n ≤ c`,
`realloc p n` returns `p` and the state after the call is the state before it: no field is
written, no byte is copied, the recorded size stays `c`. -/
theorem realloc_within_recorded_size (fuel p n : Nat) (s : State) (hp : p ≠ NULL)
    (hn : 0 < n) (hc : n ≤ hsize s.mem (header_of p)) :
    realloc fuel p n s = some (p, s) := by
  unfold realloc
  rw [if_neg (by intro h; rcases h with h | h; exact hp h; omega)]
  simp only []
  rw [if_pos hc]

/-- Witness of C14: shrinking the in-use block at 4136 of the example ledger (64 bytes) to
10 bytes. -/
theorem realloc_within_recorded_size_witness :
    in_use 3 example_state 4160 ∧ hsize example_state.mem (header_of 4160) = 64 ∧
    realloc 3 4160 10 example_state = some (4160, example_state) :=
  ⟨by decide, by decide,
    realloc_within_recorded_size 3 4160 10 example_state (by decide) (by decide) (by decide)⟩

/-- C15: when `p` is null or `n = 0`, `realloc p n` is `malloc n`: same result and same
state after the call. In particular `realloc p 0` returns null and leaves the state as it
was, so for a non-null `p` in use the block of `p` stays in the ledger, in use. -/
theorem realloc_null_or_zero_is_malloc (fuel p n : Nat) (s : State) (h : p = NULL ∨ n = 0) :
    realloc fuel p n s = malloc fuel n s ∧
      (n = 0 → realloc fuel p n s = some (NULL, s)) := by
  have h1 : realloc fuel p n s = malloc fuel n s := by
    unfold realloc
    rw [if_pos h]
  refine ⟨h1, fun h0 => ?_⟩
  rw [h1, h0]
  simp [malloc]

/-- Witness of C15: `realloc 4160 0` on the example ledger, where 4160 is in use. -/
theorem realloc_null_or_zero_is_malloc_witness :
    in_use 3 example_state 4160 ∧
    realloc 3 4160 0 example_state = malloc 3 0 example_state ∧
      ((0 : Nat) = 0 → realloc 3 4160 0 example_state = some (NULL, example_state)) :=
  ⟨by decide, realloc_null_or_zero_is_malloc 3 4160 0 example_state (Or.inr rfl)⟩

/-- C16: for a block `h` of a well-formed ledger that is in use with recorded size below
`n`, when no block of the ledger is free with size at least `n` and the heap primitive
refuses the request of `malloc n`, `realloc` of its pointer returns null and the state after
the call is the state before it: the header of the block, its payload, the ledger and the
break are untouched. -/
theorem realloc_failure_keeps_state (fuel n : Nat) (s : State) (l : List Nat) (h : Nat)
    (hwf : WF s l) (hf : l.length ≤ fuel) (hh : h ∈ l) (_huse : hfree s.mem h = 0)
    (hgrow : hsize s.mem h < n) (hno : ∀ x ∈ l, ¬ fits s.mem n x)
    (hos : (sbrk (to_intptr ((HEADER_SIZE + n) % WORD)) s).1 = SBRK_FAILED) :
    realloc fuel (h + HEADER_SIZE) n s = some (NULL, s) := by
  have hn0 : n ≠ 0 := Nat.ne_of_gt (Nat.lt_of_le_of_lt (Nat.zero_le _) hgrow)
  have hfind : get_free_block_from_linked_list fuel s n = some NULL :=
    find_loop_none s.mem n l fuel s.head hwf.chain hf hno
  have hmal := malloc_denied fuel n s hn0 hfind hos
  have hlt : h + HEADER_SIZE < WORD := by
    have := hwf.block_lt hh
    rw [WORD_eq] at this ⊢
    omega
  have hhdr : header_of (h + HEADER_SIZE) = h := header_of_user_pointer hlt
  have hb : h + HEADER_SIZE ≠ NULL := by
    unfold NULL
    rw [HEADER_SIZE_eq]
    exact Nat.succ_ne_zero _
  exact realloc_denied fuel (h + HEADER_SIZE) n s hb (by rw [hhdr]; exact hgrow) hmal

/-- Witness of C16: growing the block at 4136 of the example ledger to 100 bytes when the
operating system grants nothing beyond the current break. -/
theorem realloc_failure_keeps_state_witness :
    WF full_state [4096, 4136, 4224] ∧ hfree full_state.mem 4136 = 0 ∧
    (∀ x ∈ [4096, 4136, 4224], ¬ fits full_state.mem 100 x) ∧
    (sbrk (to_intptr ((HEADER_SIZE + 100) % WORD)) full_state).1 = SBRK_FAILED ∧
    realloc 3 (4136 + HEADER_SIZE) 100 full_state = some (NULL, full_state) :=
  ⟨⟨by decide, by decide, by decide, by decide, by decide, by decide, by decide⟩,
    by decide, by decide, by decide,
    realloc_failure_keeps_state 3 100 full_state [4096, 4136, 4224] 4136
      ⟨by decide, by decide, by decide, by decide, by decide, by decide, by decide⟩
      (by decide) (by decide) (by decide) (by decide) (by decide) (by decide)⟩

/-- C17 (the code breaks it): with `a = 64`, `c = 2 ^ 64 - 24` and break 4096, `A = malloc a`
is 4120 and `B = malloc c` is `A + a + sizeof(header_t)`, but the second call wrapped
`total_size` to 0 and left the break at 4184, where the payload of `A` ends. `free A` then
takes the heap-end path: it unlinks the header of `B`, leaves the header of `A` in the
ledger marked in use, and lowers the break to 4096, instead of only marking `A` free. -/
theorem scenario_fails_for_wrapping_size :
    ∃ s1 s2 s3, malloc 0 64 (init_state zero_mem 4096 (2 ^ 40)) = some (4120, s1) ∧
      malloc 1 (2 ^ 64 - 24) s1 = some (4120 + 64 + HEADER_SIZE, s2) ∧
      ledger 3 s2 = [4096, 4184] ∧ s2.brk = 4184 ∧
      free 2 4120 s2 = some s3 ∧
      ledger 3 s3 = [4096] ∧ hfree s3.mem 4096 = 0 ∧ s3.brk = 4096 :=
  ⟨_, _, _, rfl, rfl, by decide, by decide, rfl, by decide, by decide, by decide⟩

/-- C18 (the code breaks it): `realloc` reads `header->s.size` while the lock is not held.
Called with the lock free on the example ledger, where 4160 is in use with recorded size 64,
`realloc 4160 10` returns 4160 with the lock free and has made one guarded access without
the lock, the read of the `size` field of the header at 4136 for the comparison. After
`malloc 8` from the empty ledger at break 4096, `realloc 4120 16` returns 4152 with the
lock free and has read the `size` field of the header at 4096 ten times without the lock:
once for the comparison and once for each of the nine tests of the copy loop. -/
theorem realloc_reads_size_without_lock :
    in_use 3 example_state 4160 ∧
    (realloc_traced 3 4160 10 example_state ⟨false, []⟩).map (fun r => r.1) = some 4160 ∧
    (realloc_traced 3 4160 10 example_state ⟨false, []⟩).map (fun r => r.2.2.held) =
      some false ∧
    (realloc_traced 3 4160 10 example_state ⟨false, []⟩).map (fun r => r.2.2.faults) =
      some [Access.read_size 4136] ∧
    ∃ s, run 1 [Op.allocate 8] (init_state zero_mem 4096 (2 ^ 40)) = some s ∧
      in_use 1 s 4120 ∧
      (realloc_traced 2 4120 16 s ⟨false, []⟩).map (fun r => r.1) = some 4152 ∧
      (realloc_traced 2 4120 16 s ⟨false, []⟩).map (fun r => r.2.2.held) = some false ∧
      (realloc_traced 2 4120 16 s ⟨false, []⟩).map (fun r => r.2.2.faults) =
        some (List.replicate 10 (Access.read_size 4096)) :=
  ⟨by decide, by decide, by decide, by decide, _, rfl, by decide, by decide, by decide,
    by decide⟩

/-- C19 (the code breaks it): `malloc 40`, `malloc (2 ^ 64 - 56)` and `malloc 8` from the
empty ledger at break 4096 are admissible calls whose totals `sizeof(header_t) + n` do not
overflow `size_t`. The second total, `2 ^ 64 - 32`, is passed to `sbrk` as the delta -32:
after the second call the header of `tail`, at 4160, lies above the break 4128, and the
address after its payload is not the break. After the third call the ledger is 4096, 4160,
4128: the successor of the header at 4160 is not at the address after its payload, and the
payload of the first block ends at the break 4160 although the first block is not the tail. -/
theorem tiling_breaks_for_negative_delta :
    HEADER_SIZE + 40 < WORD ∧ HEADER_SIZE + (2 ^ 64 - 56) < WORD ∧ HEADER_SIZE + 8 < WORD ∧
    ∃ s2 s3, run 2 [Op.allocate 40, Op.allocate (2 ^ 64 - 56)]
        (init_state zero_mem 4096 (2 ^ 40)) = some s2 ∧
      run 2 [Op.allocate 8] s2 = some s3 ∧
      ledger 3 s2 = [4096, 4160] ∧ s2.tail = 4160 ∧ s2.brk = 4128 ∧
      s2.tail + HEADER_SIZE + hsize s2.mem s2.tail ≠ s2.brk ∧
      ledger 4 s3 = [4096, 4160, 4128] ∧ s3.tail = 4128 ∧ s3.brk = 4160 ∧
      4160 + HEADER_SIZE + hsize s3.mem 4160 ≠ 4128 ∧
      4096 + HEADER_SIZE + hsize s3.mem 4096 = s3.brk ∧ 4096 ≠ s3.tail :=
  ⟨by decide, by decide, by decide, _, _, rfl, rfl, by decide, by decide, by decide, by decide,
    by decide, by decide, by decide, by decide, by decide, by decide⟩

/-- C20 (the code breaks it): with an 8 byte `size_t`, a 4 byte `unsigned` and an 8 byte
pointer the struct inside the union takes 24 bytes, more than the 16 byte padding array, so
`sizeof(header_t)` is 24, which is not a multiple of 16: `malloc 1` from the empty ledger at
the 16 byte aligned break 4096 returns 4120, which is 24 bytes after its header and 8 bytes
off a 16 byte boundary. -/
theorem header_size_not_multiple_of_16 :
    STRUCT_BYTES = 24 ∧ PADDING_BYTES = 16 ∧ HEADER_SIZE = 24 ∧ HEADER_SIZE % 16 = 8 ∧
    ∃ p s', malloc 0 1 (init_state zero_mem 4096 (2 ^ 40)) = some (p, s') ∧
      p = 4120 ∧ header_of p = 4096 ∧ (p - header_of p) % 16 = 8 ∧ p % 16 = 8 :=
  ⟨by decide, by decide, by decide, by decide, _, _, rfl, rfl, by decide, by decide, by decide⟩

end MemAlloc
